import Mathlib

/-!
Verification of the missminutes scheduler core against its specification.

Shallow embedding conventions:
* Wall-clock instants and elapsed durations are integers counting
  microseconds (the resolution of Python `datetime`/`timedelta`).
  The epoch (instant 0) is taken to be midnight of a Monday, so that
  `(t / DAY) % 7` is the weekday index with Monday = 0, as in Python.
* Python floats are modelled as exact rationals (`ℚ`).
* Fallible code (assert failures, KeyError, ZeroDivisionError,
  TypeError from comparing uncomparable objects, SchedulingError)
  is modelled with `Except Err`.
* Python's stable `sorted` is modelled by `List.insertionSort` with a
  non-strict key comparison, which is stable in the same sense.
* Python's `list.remove` is `List.erase`.
-/

namespace MM

/-- Err enumerates the ways the embedded code can fail, mirroring the
Python exceptions: `assertionFailed` for `assert` statements,
`keyError` for missing-dictionary-key lookups, `valueError` for
`raise ValueError` (cycle detection), `zeroDivision` for division by
zero, `typeError` for unsupported comparisons (heap ties), and
`schedulingError` for the solver's `SchedulingError`.  `fuelOut` is an
artifact of modelling the unbounded Python loops with fuel; a run that
terminates in Python corresponds to a run given enough fuel. -/
inductive Err where
  | assertionFailed (msg : String)
  | keyError (k : String)
  | valueError (msg : String)
  | zeroDivision
  | typeError
  | schedulingError (msg : String)
  | fuelOut
deriving DecidableEq, Repr

instance {ε α : Type} [DecidableEq ε] [DecidableEq α] :
    DecidableEq (Except ε α) := fun x y =>
  match x, y with
  | .ok a, .ok b =>
    if h : a = b then isTrue (by rw [h])
    else isFalse (fun hc => h (Except.ok.inj hc))
  | .error e, .error f =>
    if h : e = f then isTrue (by rw [h])
    else isFalse (fun hc => h (Except.error.inj hc))
  | .ok _, .error _ => isFalse (fun hc => Except.noConfusion hc)
  | .error _, .ok _ => isFalse (fun hc => Except.noConfusion hc)

/-- FIVE is `timedelta(minutes=5)` in microseconds. -/
def FIVE : Int := 300000000

/-- DAY is 24 hours in microseconds. -/
def DAY : Int := 86400000000

/-- HOUR is one hour in microseconds. -/
def HOUR : Int := 3600000000

/-- MINUTE is one minute in microseconds. -/
def MINUTE : Int := 60000000

/-- TimeSlot is the slot type of `src/missminutes/timedomain.py`: a pair
of instants.  The Python attribute `end` is spelled `end_` because
`end` is a Lean keyword. -/
structure TimeSlot where
  start : Int
  end_ : Int
deriving DecidableEq, Repr

/-- TimeSlot.duration from `timedomain.py`. -/
def TimeSlot.duration (s : TimeSlot) : Int := s.end_ - s.start

/-- TimeSlot.overlaps from `timedomain.py`:
`self.start < other.end and self.end > other.start`. -/
def TimeSlot.overlapsSlot (s other : TimeSlot) : Prop :=
  s.start < other.end_ ∧ s.end_ > other.start

instance (s other : TimeSlot) : Decidable (s.overlapsSlot other) :=
  inferInstanceAs (Decidable (_ ∧ _))

/-- slotLe orders slots by their `start` field; `sorted(slots, key=lambda
x: x.start)` is the stable sort by this relation. -/
def slotLe (a b : TimeSlot) : Prop := a.start ≤ b.start

instance : DecidableRel slotLe := fun _ _ => inferInstanceAs (Decidable (_ ≤ _))

instance : IsTotal TimeSlot slotLe := ⟨fun a b => Int.le_total a.start b.start⟩

instance : IsTrans TimeSlot slotLe := ⟨fun _ _ _ h h' => le_trans h h'⟩

/-- trimLeftGo is the loop body of `TimeDomain.trim_left`
(`timedomain.py` lines 145-155).  `state` is the current
`self.time_slots` list; the loop walks the slots sorted by start time:
a slot ending before `t` is removed (`list.remove`, i.e. erase of the
first occurrence); the first slot that straddles `t` is replaced by
`[t, slot.end]` (the replacement is appended, the original erased) and
the loop breaks; a slot starting at or after `t` breaks the loop. -/
def trimLeftGo (t : Int) : List TimeSlot → List TimeSlot → List TimeSlot
  | state, [] => state
  | state, s :: rest =>
    if s.end_ < t then trimLeftGo t (state.erase s) rest
    else if s.start < t then (state ++ [TimeSlot.mk t s.end_]).erase s
    else state

/-- trim_left from `timedomain.py` lines 145-155, acting on the
`time_slots` list of a `TimeDomain`. -/
def trim_left (slots : List TimeSlot) (t : Int) : List TimeSlot :=
  trimLeftGo t slots (slots.insertionSort slotLe)

/-- DependencyType from `src/missminutes/tasks.py`. -/
inductive DependencyType where
  | BEFORE
  | AFTER
  | DURING
  | CONTAINS
  | CONCURRENT
deriving DecidableEq, Repr

/-- TimeWindow from `src/missminutes/timeprofile.py`: an intra-day
window given by start/end hour and minute. -/
structure TimeWindow where
  start_hour : Int
  start_minute : Int
  end_hour : Int
  end_minute : Int
deriving DecidableEq, Repr

/-- TimeProfile from `src/missminutes/timeprofile.py`, reduced to what
the solver consumes: for each day of week (0 = Monday .. 6 = Sunday)
the list of time windows of that day's `DaySchedule`. -/
structure TimeProfile where
  id : String
  day_schedules : Fin 7 → List TimeWindow
deriving DecidableEq

/-- Task as consumed by `src/missminutes/constraint_solver.py`.  The
fields are those of `Task` in `src/missminutes/tasks.py` that the
solver reads, with the dependency map split into task and event
dependencies and with `min_session_length` and `due` required, as the
solver's accesses `min(task.min_session_length, ...)` and
`task.due - atomic.upper` demand.  Durations and instants are in
microseconds.  Only `duration` is ever mutated by the solver. -/
structure Task where
  id : String
  title : String
  duration : Int
  time_spent : Int
  due : Int
  starts_at : Option Int
  min_session_length : Int
  max_session_length : Option Int
  buffer_before : Int
  buffer_after : Int
  task_dependencies : List (String × DependencyType)
  event_dependencies : List (String × DependencyType)
  time_profiles : List TimeProfile
deriving DecidableEq

/-- get_remaining_duration from `src/missminutes/tasks.py` lines
102-104: `max(self.duration - self.time_spent, timedelta())`. -/
def Task.get_remaining_duration (t : Task) : Int :=
  max (t.duration - t.time_spent) 0

/-- Event from `src/missminutes/events.py`, reduced to the fields the
solver and the output projection read. -/
structure Event where
  id : String
  title : String
  start_time : Int
  end_time : Int
  completed : Bool
deriving DecidableEq, Repr

/-- Event.duration from `events.py`. -/
def Event.duration (e : Event) : Int := e.end_time - e.start_time

/-- Session from `src/missminutes/tasks.py`. -/
structure Session where
  task_id : String
  session_id : String
  start_time : Int
  end_time : Int
  completed : Bool
deriving DecidableEq, Repr

/-- Session.duration from `tasks.py`: `end_time - start_time`. -/
def Session.duration (s : Session) : Int := s.end_time - s.start_time

/-- WPiece is one atomic weighted piece of the solver's weighted
interval domain: a closed interval `[lo, hi]` with an integer weight. -/
structure WPiece where
  lo : Int
  hi : Int
  w : Int
deriving DecidableEq, Repr

/-- WDomain.  Modelled from the spec: the weighted `TimeDomain` class
consumed by `constraint_solver.py` (built on the third-party `portion`
interval-dictionary library) is not part of the source tree; spec §3
and §4.1 describe it as a mapping from pairwise-disjoint maximal
atomic intervals to integer weights, with measure-based (total
duration) semantics, where adjacent intervals of equal weight are
coalesced and those of different weights are not.  We represent it as
the ordered list of weighted atomic pieces; intervals are closed, and
degenerate (zero-length) pieces are not stored — all the spec's
operations are measure-based, so open/closed boundary bookkeeping is
immaterial to them. -/
structure WDomain where
  pieces : List WPiece
deriving DecidableEq, Repr

/-- total_time of a weighted domain per spec §3:
`Σ (hi - lo)` over its atomic pieces. -/
def WDomain.total_time (d : WDomain) : Int :=
  (d.pieces.map (fun p => p.hi - p.lo)).sum

/-- is_empty of a weighted domain: no pieces. -/
def WDomain.is_empty (d : WDomain) : Bool := d.pieces.isEmpty

/-- restrict is `domain.time_slots[closed(a, b)]` of the interval
dictionary: the domain restricted to `[a, b]`, keeping its own
weights (spec §3, `intersection` with a single interval).  Each piece
is clipped; clips with no interior are dropped. -/
def WDomain.restrict (d : WDomain) (a b : Int) : WDomain :=
  ⟨d.pieces.filterMap (fun p =>
    if max p.lo a < min p.hi b then some ⟨max p.lo a, min p.hi b, p.w⟩
    else none)⟩

/-- pieceLe orders weighted pieces by lower bound; domains are kept
sorted by it. -/
def pieceLe (p q : WPiece) : Prop := p.lo ≤ q.lo

instance : DecidableRel pieceLe := fun _ _ => inferInstanceAs (Decidable (_ ≤ _))

instance : IsTotal WPiece pieceLe := ⟨fun a b => Int.le_total a.lo b.lo⟩

instance : IsTrans WPiece pieceLe := ⟨fun _ _ _ h h' => le_trans h h'⟩

/-- coalesce merges adjacent or overlapping pieces of equal weight, as
the interval dictionary does (spec §3: adjacent intervals with equal
weight are coalesced, those with different weights are not).  Input is
assumed sorted by lower bound. -/
def coalesceGo (p : WPiece) : List WPiece → List WPiece
  | [] => [p]
  | q :: rest =>
    if p.w = q.w ∧ q.lo ≤ p.hi then coalesceGo (WPiece.mk p.lo (max p.hi q.hi) p.w) rest
    else p :: coalesceGo q rest

def coalesce : List WPiece → List WPiece
  | [] => []
  | p :: rest => coalesceGo p rest

/-- normPieces drops degenerate pieces, sorts by lower bound (stably)
and coalesces equal-weight runs: the normal form of a weighted
domain's piece list. -/
def normPieces (l : List WPiece) : List WPiece :=
  coalesce ((l.filter (fun p => decide (p.lo < p.hi))).insertionSort pieceLe)

/-- boundsOf collects the sorted, deduplicated endpoints of two piece
lists: the cell boundaries used by the pointwise binary operations. -/
def boundsOf (l1 l2 : List WPiece) : List Int :=
  ((l1.map WPiece.lo ++ l1.map WPiece.hi ++ l2.map WPiece.lo
    ++ l2.map WPiece.hi).insertionSort (fun a b : Int => a ≤ b)).dedup

/-- cellWeight looks up the weight of the piece whose interior covers
the cell starting at `u` (cells never straddle piece endpoints because
every endpoint is a cell boundary). -/
def cellWeight (l : List WPiece) (u : Int) : Option Int :=
  (l.find? (fun p => decide (p.lo ≤ u) && decide (u < p.hi))).map WPiece.w

/-- combineWith implements the spec's pointwise binary operations on
weighted domains: split both supports at all endpoints, combine the
per-cell weights with `f` (`none` meaning "not in support"), and
normalize. -/
def combineWith (f : Option Int → Option Int → Option Int) (d1 d2 : WDomain) :
    WDomain :=
  ⟨normPieces (((boundsOf d1.pieces d2.pieces).zip
      (boundsOf d1.pieces d2.pieces).tail).filterMap
    (fun c => match f (cellWeight d1.pieces c.1) (cellWeight d2.pieces c.1) with
      | some w => some (WPiece.mk c.1 c.2 w)
      | none => none))⟩

/-- add per spec §3: pointwise weight addition over the union of
supports. -/
def WDomain.add (d1 d2 : WDomain) : WDomain :=
  combineWith (fun a b => match a, b with
    | some x, some y => some (x + y)
    | some x, none => some x
    | none, some y => some y
    | none, none => none) d1 d2

/-- subtract per spec §3: pointwise weight subtraction, restricted to
the receiver's support. -/
def WDomain.subtract (d1 d2 : WDomain) : WDomain :=
  combineWith (fun a b => match a, b with
    | some x, some y => some (x - y)
    | some x, none => some x
    | none, _ => none) d1 d2

/-- difference per spec §3: remove the other's support entirely. -/
def WDomain.difference (d1 d2 : WDomain) : WDomain :=
  combineWith (fun a b => match a, b with
    | some x, none => some x
    | _, _ => none) d1 d2

/-- intersection per spec §3: restrict the receiver to the other's
support, keeping the receiver's weights. -/
def WDomain.intersection (d1 d2 : WDomain) : WDomain :=
  combineWith (fun a b => match a, b with
    | some x, some _ => some x
    | _, _ => none) d1 d2

/-- union per spec §3: support union, receiver's weights where both
exist. -/
def WDomain.union (d1 d2 : WDomain) : WDomain :=
  combineWith (fun a b => match a, b with
    | some x, _ => some x
    | none, some y => some y
    | none, none => none) d1 d2

/-- add_slot builds the events domain (spec §4.3 step 1: union of all
event intervals at weight 1). -/
def WDomain.add_slot (d : WDomain) (a b : Int) : WDomain :=
  d.union ⟨if a < b then [WPiece.mk a b 1] else []⟩

/-- trim_left per spec §3: restrict the support to `[t, ∞)`. -/
def WDomain.trim_left (d : WDomain) (t : Int) : WDomain :=
  ⟨d.pieces.filterMap (fun p =>
    if max p.lo t < p.hi then some (WPiece.mk (max p.lo t) p.hi p.w) else none)⟩

/-- trim_right per spec §3: restrict the support to `(-∞, t]`. -/
def WDomain.trim_right (d : WDomain) (t : Int) : WDomain :=
  ⟨d.pieces.filterMap (fun p =>
    if p.lo < min p.hi t then some (WPiece.mk p.lo (min p.hi t) p.w) else none)⟩

/-- remove_slot_interval per spec §3 `remove`: drop the support
portion covered by `[a, b]` (splitting pieces at the boundary; an
inverted interval removes nothing, as an empty `portion` interval
would). -/
def WDomain.remove_slot_interval (d : WDomain) (a b : Int) : WDomain :=
  if b < a then d
  else ⟨d.pieces.flatMap (fun p =>
    (if p.lo < min p.hi a then [WPiece.mk p.lo (min p.hi a) p.w] else []) ++
    (if max p.lo b < p.hi then [WPiece.mk (max p.lo b) p.hi p.w] else []))⟩

/-- mergeSupportGo accumulates maximal contiguous support intervals
from a piece list sorted by lower bound. -/
def mergeSupportGo : Int → Int → List WPiece → List (Int × Int)
  | lo, hi, [] => [(lo, hi)]
  | lo, hi, p :: rest =>
    if p.lo ≤ hi then mergeSupportGo lo (max hi p.hi) rest
    else (lo, hi) :: mergeSupportGo p.lo p.hi rest

/-- supportAtomics is `domain()` of the interval dictionary: the
maximal atomic intervals of the support, merging touching pieces
regardless of weight. -/
def WDomain.supportAtomics (d : WDomain) : List (Int × Int) :=
  match d.pieces with
  | [] => []
  | p :: rest => mergeSupportGo p.lo p.hi rest

/-- round_timedelta_down from `constraint_solver.py` lines 15-22:
negative durations clamp to 0, otherwise floor to the 5-minute grid. -/
def round_timedelta_down (td : Int) : Int :=
  if td < 0 then 0 else td / FIVE * FIVE

/-- round_timedelta_up from `constraint_solver.py` lines 24-37:
non-positive durations clamp to 0, otherwise the code computes
`((total_seconds + interval_seconds - 1) // interval_seconds) *
interval_seconds` in seconds (it adds `interval_seconds - 1` = 299
whole seconds, not one microsecond), so a duration with a sub-second
remainder less than one second above a grid point rounds down, not up
(300.5 s maps to 300 s).  In microseconds this is exactly
`((td + FIVE - 1000000) / FIVE) * FIVE` with floor division. -/
def round_timedelta_up (td : Int) : Int :=
  if td ≤ 0 then 0 else (td + FIVE - 1000000) / FIVE * FIVE

/-- BIG_DEFAULT is `timedelta(days=365*100)` in microseconds, the
stand-in the solver uses when a task has no maximum session length. -/
def BIG_DEFAULT : Int := 36500 * DAY

/-- pyOrBig models `task.max_session_length or timedelta(days=365*100)`:
Python `or` takes the default both when the field is `None` and when
it is the falsy zero timedelta. -/
def pyOrBig (m : Option Int) : Int :=
  match m with
  | none => BIG_DEFAULT
  | some v => if v = 0 then BIG_DEFAULT else v

/-- HeapEntry is one tuple of the solver's priority heap:
`(topological rank, -pressure, task, working domain)`.  Python floats
are modelled as exact rationals. -/
structure HeapEntry where
  rank : Int
  negPressure : Rat
  task : Task
  domain : WDomain
deriving DecidableEq

/-- effectiveMinDuration from `find_best_compatible_session`
(`constraint_solver.py` lines 169-176): the rounded-up minimum session
duration, bumped to one 5-minute block when non-positive. -/
def effectiveMinDuration (task : Task) : Int :=
  let m := round_timedelta_up (min task.min_session_length task.get_remaining_duration)
  if m ≤ 0 then FIVE else m

/-- maxPossibleDuration from `find_best_compatible_session`
(`constraint_solver.py` lines 178-185): the rounded-down maximum
duration available in the slot `[slotLo, slotHi]`. -/
def maxPossibleDuration (task : Task) (slotLo slotHi : Int) : Int :=
  round_timedelta_down
    (min (min (pyOrBig task.max_session_length) task.get_remaining_duration)
      (slotHi - slotLo))

/-- is_duration_compatible from `constraint_solver.py` lines 193-228:
a candidate duration is rejected when at most 1 microsecond, when it
overruns the slot by more than 1 microsecond, or when for some other
heap entry the cost (time of that entry's domain inside the buffered
session interval) exceeds its slack (total domain time minus remaining
duration) by more than the 1-microsecond tolerance. -/
def is_duration_compatible (task : Task) (slotLo slotHi : Int)
    (others : List HeapEntry) (dur : Int) : Bool :=
  if dur ≤ 1 then false
  else if slotHi + 1 < slotLo + dur then false
  else others.all (fun e =>
    let slack := e.domain.total_time - e.task.get_remaining_duration
    let inter := e.domain.restrict (slotLo - task.buffer_before)
      (slotLo + dur + task.buffer_after)
    let cost := if inter.is_empty then 0 else inter.total_time
    decide (cost ≤ slack + 1))

/-- searchMid is one midpoint computation of the binary search in
`find_best_compatible_session` (`constraint_solver.py` lines 246-256):
the midpoint in whole 5-minute intervals (integer floor divisions),
converted back to a duration and clamped from below by the effective
minimum. -/
def searchMid (task : Task) (low high : Int) : Int :=
  if (low / FIVE + (high / FIVE - low / FIVE) / 2) * FIVE
      < effectiveMinDuration task then
    effectiveMinDuration task
  else (low / FIVE + (high / FIVE - low / FIVE) / 2) * FIVE

/-- searchBest is the bounded binary search of
`find_best_compatible_session` (`constraint_solver.py` lines 240-272):
at most 10 iterations (`for _ in range(10)`) on the 5-minute grid; a
midpoint above the maximum tries the maximum itself and breaks; a
compatible midpoint is recorded and `low` moves above it; an
incompatible one moves `high` below it. -/
def searchBest (task : Task) (slotLo slotHi : Int) (others : List HeapEntry) :
    Nat → Int → Int → Option Int → Option Int
  | 0, _, _, best => best
  | fuel + 1, low, high, best =>
    if high < low then best
    else if maxPossibleDuration task slotLo slotHi < searchMid task low high then
      if is_duration_compatible task slotLo slotHi others
          (maxPossibleDuration task slotLo slotHi) then
        some (maxPossibleDuration task slotLo slotHi)
      else best
    else if is_duration_compatible task slotLo slotHi others
        (searchMid task low high) then
      searchBest task slotLo slotHi others fuel (searchMid task low high + FIVE)
        high (some (searchMid task low high))
    else
      searchBest task slotLo slotHi others fuel low (searchMid task low high - FIVE)
        best

/-- finalizeBest is the post-search clamping of
`find_best_compatible_session` (`constraint_solver.py` lines 274-287):
the Python truthiness test `if best_compatible_duration:` is false
exactly for a zero timedelta; otherwise the found duration is
re-rounded down, clamped into `[effective_min, max_possible]` and
re-checked for compatibility before the core session interval is
returned. -/
def finalizeBest (task : Task) (slotLo slotHi : Int) (others : List HeapEntry)
    (best : Int) : Option (Int × Int) :=
  if best = 0 then none
  else if 0 < min (max (round_timedelta_down best) (effectiveMinDuration task))
        (maxPossibleDuration task slotLo slotHi) ∧
      is_duration_compatible task slotLo slotHi others
        (min (max (round_timedelta_down best) (effectiveMinDuration task))
          (maxPossibleDuration task slotLo slotHi)) then
    some (slotLo, slotLo +
      min (max (round_timedelta_down best) (effectiveMinDuration task))
        (maxPossibleDuration task slotLo slotHi))
  else none

/-- find_best_compatible_session from `constraint_solver.py` lines
142-291, for an atomic candidate slot `[slotLo, slotHi]`: determine
the 5-minute-aligned duration bounds, reject when the maximum falls
below the minimum or the minimum duration is incompatible, binary
search for a best duration, then clamp and re-check it
(`finalizeBest`).  Returns the core session interval (without
buffers) or `none`. -/
def find_best_compatible_session (task : Task) (slotLo slotHi : Int)
    (others : List HeapEntry) : Option (Int × Int) :=
  if maxPossibleDuration task slotLo slotHi < effectiveMinDuration task then none
  else if ¬ is_duration_compatible task slotLo slotHi others
      (effectiveMinDuration task) then none
  else
    (searchBest task slotLo slotHi others 10 (effectiveMinDuration task)
      (maxPossibleDuration task slotLo slotHi) none).bind
      (finalizeBest task slotLo slotHi others)

/-- claimGridCount is the number of 5-minute steps from
`effective_min` up to `max_candidate`; since both bounds are 5-minute
multiples, the multiples of 5 minutes in `[effective_min,
max_candidate]` are exactly `effective_min + k*FIVE` for
`0 ≤ k ≤ claimGridCount`. -/
def claimGridCount (task : Task) (slotLo slotHi : Int) : Nat :=
  ((maxPossibleDuration task slotLo slotHi - effectiveMinDuration task)
    / FIVE).toNat

/-- claimBestDur follows the words of claim C1: the maximum multiple
of 5 minutes `d` in `[effective_min, max_candidate]` such that the
placement is compatible with every other heap entry, `none` when no
such multiple exists — expressed with `Nat.findGreatest` over the
candidate indices `0 ≤ k ≤ claimGridCount`. -/
def claimBestDur (task : Task) (slotLo slotHi : Int)
    (others : List HeapEntry) : Option Int :=
  if maxPossibleDuration task slotLo slotHi < effectiveMinDuration task then none
  else if (List.range (claimGridCount task slotLo slotHi + 1)).any
      (fun k : Nat => is_duration_compatible task slotLo slotHi others
        (effectiveMinDuration task + (k : Int) * FIVE)) then
    some (effectiveMinDuration task +
      (Nat.findGreatest
        (fun k : Nat => is_duration_compatible task slotLo slotHi others
          (effectiveMinDuration task + (k : Int) * FIVE) = true)
        (claimGridCount task slotLo slotHi) : Int) * FIVE)
  else none

/-- pyOr models Python's `x or y` on an optional duration: the
alternative is taken both when the field is `None` and when it is the
falsy zero timedelta. -/
def pyOr (m : Option Int) (alt : Int) : Int :=
  match m with
  | none => alt
  | some v => if v = 0 then alt else v

/-- The solver's pressure and score metrics live in Python floats; we
model the float arithmetic exactly over `Rat`.  The arithmetic is
written through `mkRat` (with `qAdd_eq`-style lemmas relating each
operation to the standard one) so that every metric is computable by
evaluation. -/
def qOfInt (x : Int) : Rat := mkRat x 1

/-- qAdd is rational addition written through `mkRat` (shown equal to
`+` in `qAdd_eq`). -/
def qAdd (a b : Rat) : Rat :=
  mkRat (a.num * b.den + b.num * a.den) (a.den * b.den)

/-- qMul is rational multiplication written through `mkRat` (shown
equal to `*` in `qMul_eq`). -/
def qMul (a b : Rat) : Rat := mkRat (a.num * b.num) (a.den * b.den)

/-- qNeg is rational negation written through `mkRat`. -/
def qNeg (a : Rat) : Rat := mkRat (-a.num) a.den

/-- qAbs is the rational absolute value written through `mkRat`. -/
def qAbs (a : Rat) : Rat := mkRat |a.num| a.den

/-- qInv is the rational reciprocal written through `mkRat` (zero maps
to zero, as `Rat.inv` does; the callers guard zero divisors). -/
def qInv (a : Rat) : Rat :=
  if 0 ≤ a.num then mkRat (a.den : Int) a.num.toNat
  else mkRat (-(a.den : Int)) (-a.num).toNat

/-- qDiv is rational division written through `mkRat` (shown equal to
`/` in `qDiv_eq`). -/
def qDiv (a b : Rat) : Rat := qMul a (qInv b)

/-- qMax is the larger of two rationals. -/
def qMax (a b : Rat) : Rat := if a ≤ b then b else a

/-- qSum sums a list of rationals. -/
def qSum (l : List Rat) : Rat := l.foldr qAdd (mkRat 0 1)

/-- qSec converts microseconds to `total_seconds()` as an exact
rational. -/
def qSec (x : Int) : Rat := mkRat x 1000000

/-- pyDivQ is Python division: raises `ZeroDivisionError` on a zero
divisor. -/
def pyDivQ (a b : Rat) : Except Err Rat :=
  if b = 0 then throw .zeroDivision else pure (qDiv a b)

/-- calculate_overlap_metric from `constraint_solver.py` lines 44-62:
the average weight of the overlap map over the task's domain — the
weighted time of the intersection divided by its total time.  Empty
inputs fail the function's asserts; a zero total time raises
`ZeroDivisionError` as in Python. -/
def calculate_overlap_metric (domain domain_overlaps : WDomain) :
    Except Err Rat := do
  if domain.is_empty then
    throw (.assertionFailed "calculate_overlap_metric: empty time domain")
  else if domain_overlaps.is_empty then
    throw (.assertionFailed "calculate_overlap_metric: empty domain_overlaps")
  else
    pyDivQ
      (qSum ((domain_overlaps.intersection domain).pieces.map
        (fun p => qMul (qOfInt p.w) (qOfInt (p.hi - p.lo)))))
      (qSum ((domain_overlaps.intersection domain).pieces.map
        (fun p => qOfInt (p.hi - p.lo))))

/-- calculate_pressure_metric from `constraint_solver.py` lines 71-83:
overlap metric divided by the flexibility ratio (domain time over task
duration); a zero task duration or a zero flexibility ratio raises
`ZeroDivisionError` exactly as the Python float divisions do. -/
def calculate_pressure_metric (domain domain_overlaps : WDomain)
    (task_duration : Int) : Except Err Rat := do
  let om ← calculate_overlap_metric domain domain_overlaps
  let flex ← pyDivQ (qOfInt domain.total_time) (qOfInt task_duration)
  pyDivQ om flex

/-- scoreSlot computes one atomic slot's composite score in
`sorted_slots` (`constraint_solver.py` lines 93-127): the average
overlap weight over the slot, the relative distance of the slot length
from the ideal session length, and a deadline-proximity score; Python's
float literals 0.4 and 0.3 are modelled as the exact rationals they
stand for. -/
def scoreSlot (task : Task) (inter : WDomain) (ideal : Int)
    (a : Int × Int) : Except Err ((Int × Int) × Rat) := do
  let dur := a.2 - a.1
  let owRaw : Rat := qSum ((inter.restrict a.1 a.2).pieces.map
    (fun p => qMul (qOfInt p.w) (qOfInt (p.hi - p.lo))))
  let overlapScore ← pyDivQ owRaw (qOfInt dur)
  let lengthFitRaw ← pyDivQ (qOfInt (dur - ideal)) (qOfInt ideal)
  let proxScore : Rat :=
    qDiv (qOfInt 1) (qMax (qOfInt 1) (qDiv (qSec (task.due - a.2)) (qOfInt 86400)))
  pure (a, qAdd (qAdd (qMul overlapScore (mkRat 2 5))
    (qMul (qAbs lengthFitRaw) (mkRat 3 10))) proxScore)

/-- sorted_slots from `constraint_solver.py` lines 86-133: score every
maximal atomic interval of the intersection of the working domain with
the overlap map, and sort ascending by score (Python's stable sort). -/
def sorted_slots (domain domain_overlaps : WDomain) (task : Task)
    (ideal : Int) : Except Err (List ((Int × Int) × Rat)) := do
  let scored ← (domain_overlaps.intersection domain).supportAtomics.mapM
    (scoreSlot task (domain_overlaps.intersection domain) ideal)
  pure (scored.insertionSort (fun x y => x.2 ≤ y.2))

/-- apply_min_session_length_constraint from `constraint_solver.py`
lines 135-140: remove every atomic piece shorter than the minimum
session length. -/
def apply_min_session_length_constraint (d : WDomain) (minLen : Int) : WDomain :=
  ⟨d.pieces.filter (fun p => ! decide (p.hi - p.lo < minLen))⟩

/-- charsLe compares two character lists lexicographically by code
point, Python's string ordering. -/
def charsLe : List Char → List Char → Bool
  | [], _ => true
  | _ :: _, [] => false
  | c :: cs, d :: ds =>
    if c.toNat < d.toNat then true
    else if d.toNat < c.toNat then false
    else charsLe cs ds

/-- strLe is Python's `<=` on strings: lexicographic by code point. -/
def strLe (a b : String) : Bool := charsLe a.data b.data

/-- pySortStrings is Python's `sorted` on strings (stable, lexicographic
by code point). -/
def pySortStrings (l : List String) : List String :=
  l.insertionSort (fun a b => strLe a b = true)

/-- afterDeps lists the AFTER-type task-dependency targets of a task,
in dictionary order. -/
def afterDeps (t : Task) : List String :=
  (t.task_dependencies.filter (fun p => p.2 == DependencyType.AFTER)).map Prod.fst

/-- graphSucc is `graph[d]` of `topo_rank` (`constraint_solver.py`
lines 311-320): the ids of the tasks that have `d` as an AFTER
target. -/
def graphSucc (tasks : List Task) (d : String) : List String :=
  (tasks.filter (fun t => (afterDeps t).contains d)).map (fun t => t.id)

/-- initInDegree is the in-degree map of `topo_rank`: each task's
count of AFTER dependencies (summed over tasks sharing an id, which
does not occur for well-formed inputs). -/
def initInDegree (tasks : List Task) : String → Int := fun id =>
  ((tasks.filter (fun t => t.id == id)).map (fun t => (afterDeps t).length)).sum

/-- processNeighbors is the inner loop of Kahn's algorithm in
`topo_rank` (`constraint_solver.py` lines 326-332): decrement each
sorted neighbor's in-degree; a neighbor reaching zero receives rank
`rank(node) + 1` and is appended to the queue.  Returns the updated
in-degree map, rank list and the appended nodes in order. -/
def processNeighbors (rankNode : Int) :
    List String → (String → Int) → List (String × Int) → List String →
    (String → Int) × List (String × Int) × List String
  | [], indeg, ranks, appended => (indeg, ranks, appended)
  | nb :: rest, indeg, ranks, appended =>
    let indeg' := fun x => if x = nb then indeg x - 1 else indeg x
    if indeg' nb = 0 then
      processNeighbors rankNode rest indeg' (ranks ++ [(nb, rankNode + 1)])
        (appended ++ [nb])
    else processNeighbors rankNode rest indeg' ranks appended

/-- kahnLoop is the queue loop of `topo_rank`: pop the queue head,
process its sorted successors, enqueue the completed ones. -/
def kahnLoop (tasks : List Task) :
    Nat → List String → (String → Int) → List (String × Int) →
    Except Err (List (String × Int))
  | 0, _, _, _ => throw .fuelOut
  | fuel + 1, queue, indeg, ranks =>
    match queue with
    | [] => pure ranks
    | node :: rest =>
      match processNeighbors ((ranks.lookup node).getD 0)
          (pySortStrings (graphSucc tasks node)) indeg ranks [] with
      | (indeg', ranks', appended) =>
        kahnLoop tasks fuel (rest ++ appended) indeg' ranks'

/-- kahnFuel bounds the number of iterations of the queue loop: every
pop is either an initial root or was appended after an in-degree
decrement, and the total number of decrements is the number of AFTER
edges. -/
def kahnFuel (tasks : List Task) : Nat :=
  (tasks.map (fun t => (afterDeps t).length)).sum + tasks.length + 1

/-- topo_rank from `constraint_solver.py` lines 308-337: Kahn's
algorithm on the AFTER-dependency graph, starting from the sorted
roots at rank 0; if not every node received a rank, a cycle (or an
unresolvable dependency) was present and `ValueError` is raised. -/
def topo_rank (tasks : List Task) : Except Err (List (String × Int)) := do
  let all_nodes := (tasks.map (fun t => t.id)).dedup
  let indeg := initInDegree tasks
  let roots := pySortStrings (all_nodes.filter (fun id => indeg id == 0))
  let ranks ← kahnLoop tasks (kahnFuel tasks) roots indeg
    (roots.map (fun id => (id, (0:Int))))
  if ranks.length ≠ all_nodes.length then
    throw (.valueError "Cycle detected in task dependencies")
  else pure ranks

/-- rankOk states the longest-path rank conditions of `topo_rank` for
one task relative to a rank assignment: a task with no AFTER
dependencies has rank 0, every AFTER target ranks strictly lower, and
some AFTER target attains exactly rank − 1 (so the rank is one more
than the maximum over the targets). -/
def rankOk (ranks : List (String × Int)) (t : Task) : Prop :=
  ∀ r, ranks.lookup t.id = some r →
    (afterDeps t = [] → r = 0) ∧
    (∀ d ∈ afterDeps t, ∃ rd, ranks.lookup d = some rd ∧ rd < r) ∧
    (afterDeps t ≠ [] → ∃ d ∈ afterDeps t, ranks.lookup d = some (r - 1))

/-- entryLt models Python's lexicographic comparison of the heap
tuples `(rank, -pressure, task, domain)`: integers and floats compare
normally, but a tie on both forces Python to compare `Task` (and then
`TimeDomain`) objects, which define equality but not order — distinct
objects raise `TypeError`. -/
def entryLt (a b : HeapEntry) : Except Err Bool :=
  if a.rank ≠ b.rank then pure (decide (a.rank < b.rank))
  else if a.negPressure ≠ b.negPressure then pure (decide (a.negPressure < b.negPressure))
  else if a.task ≠ b.task then throw .typeError
  else if a.domain ≠ b.domain then throw .typeError
  else pure false

/-- getEntry is a checked list index (Python raises `IndexError`; the
heap algorithms never index out of range). -/
def getEntry (l : List HeapEntry) (i : Nat) : Except Err HeapEntry :=
  match l.get? i with
  | some e => pure e
  | none => throw (.assertionFailed "list index out of range")

/-- siftdownLoop is `heapq._siftdown`: bubble `item` toward the root
while it compares less than its parent, then store it. -/
def siftdownLoop :
    Nat → List HeapEntry → Nat → Nat → HeapEntry → Except Err (List HeapEntry)
  | 0, _, _, _, _ => throw .fuelOut
  | fuel + 1, heap, startpos, pos, item =>
    if startpos < pos then do
      let parentpos := (pos - 1) / 2
      let parent ← getEntry heap parentpos
      let lt ← entryLt item parent
      if lt then siftdownLoop fuel (heap.set pos parent) startpos parentpos item
      else pure (heap.set pos item)
    else pure (heap.set pos item)

/-- heappush is `heapq.heappush`: append then sift down from the new
last position. -/
def heappush (heap : List HeapEntry) (item : HeapEntry) :
    Except Err (List HeapEntry) :=
  siftdownLoop (heap.length + 2) (heap ++ [item]) 0 heap.length item

/-- siftupLoop is the descending phase of `heapq._siftup`: repeatedly
move the smaller child up, following the hole to the bottom; returns
the final hole position and the array. -/
def siftupLoop :
    Nat → List HeapEntry → Nat → Except Err (Nat × List HeapEntry)
  | 0, _, _ => throw .fuelOut
  | fuel + 1, heap, pos =>
    if 2 * pos + 1 < heap.length then do
      let childpos := 2 * pos + 1
      let rightpos := childpos + 1
      let cLeft ← getEntry heap childpos
      let childposF ←
        if rightpos < heap.length then do
          let cRight ← getEntry heap rightpos
          let lt ← entryLt cLeft cRight
          pure (if ¬ lt then rightpos else childpos)
        else pure childpos
      let c ← getEntry heap childposF
      siftupLoop fuel (heap.set pos c) childposF
    else pure (pos, heap)

/-- heappop is `heapq.heappop`: remove the last element; if the heap
is still non-empty, take the root as the result, move the last element
to the root, sift the hole to the bottom (`_siftup`) and sift the
moved element back down toward the root (`_siftdown`). -/
def heappop (heap : List HeapEntry) : Except Err (HeapEntry × List HeapEntry) :=
  match heap.getLast? with
  | none => throw (.assertionFailed "index out of range")
  | some lastelt =>
    if heap.dropLast.isEmpty then pure (lastelt, [])
    else do
      let returnitem ← getEntry heap.dropLast 0
      let posArr ← siftupLoop ((heap.dropLast.set 0 lastelt).length + 2)
        (heap.dropLast.set 0 lastelt) 0
      let arrFinal ← siftdownLoop (posArr.2.length + 2)
        (posArr.2.set posArr.1 lastelt) 0 posArr.1 lastelt
      pure (returnitem, arrFinal)

/-- dateIndex models Python's `datetime.date()` on a naive datetime as
the calendar-day index of the instant (floor division by one day;
the epoch is a midnight).  Two instants have the same `dateIndex` iff
they fall on the same calendar date, and day indices compare exactly
like ISO-8601 date strings. -/
def dateIndex (t : Int) : Int := t / DAY

/-- weekdayOf gives the weekday index (0 = Monday) of the calendar day
containing an instant; the epoch is a Monday midnight, matching
Python's `date.weekday()`. -/
def weekdayOf (t : Int) : Fin 7 :=
  ⟨((t / DAY) % 7).toNat, by omega⟩

/-- project a TimeProfile onto the horizon.  Modelled from the spec
(§3, §4.3 2a) and `TimeDomain.from_time_profile` in `timedomain.py`:
for each day of the horizon, each window of that weekday's schedule
becomes a weight-1 slot on that calendar day. -/
def TimeProfile.project (p : TimeProfile) (start : Int) (days : Nat) : WDomain :=
  ⟨normPieces ((List.range days).flatMap (fun k =>
    (p.day_schedules (weekdayOf (start + (k : Int) * DAY))).map (fun win =>
      WPiece.mk
        (dateIndex (start + (k : Int) * DAY) * DAY
          + win.start_hour * HOUR + win.start_minute * MINUTE)
        (dateIndex (start + (k : Int) * DAY) * DAY
          + win.end_hour * HOUR + win.end_minute * MINUTE) 1)))⟩

/-- time_domain of a task.  Modelled from the spec: the solver calls
`task.time_domain(start_date, days)` on a `Task` variant that is not
in the source tree; spec §4.3 2a describes it: project and intersect
the task's TimeProfiles over the horizon (the full horizon at weight 1
when there are none), then intersect with
`[max(horizon_start, starts_at), min(horizon_end, due)]`. -/
def Task.time_domain (t : Task) (start : Int) (days : Nat) : WDomain :=
  match t.time_profiles with
  | [] =>
    ⟨if max start (t.starts_at.getD start)
        < min (start + (days : Int) * DAY) t.due then
      [WPiece.mk (max start (t.starts_at.getD start))
        (min (start + (days : Int) * DAY) t.due) 1]
    else []⟩
  | p :: rest =>
    (rest.foldl (fun acc q => acc.intersection (q.project start days))
      (p.project start days)).restrict
      (max start (t.starts_at.getD start))
      (min (start + (days : Int) * DAY) t.due)

/-- buildEventsDomain is presolve's `events_domain`: every event's
interval added at weight 1 (spec §4.3 step 1: union). -/
def buildEventsDomain (events : List Event) : WDomain :=
  events.foldl (fun acc e => acc.add_slot e.start_time e.end_time) ⟨[]⟩

/-- findEvent is `events_map[dep_id]`: the Python dict keeps the last
event stored under an id, and a missing id raises `KeyError`. -/
def findEvent (events : List Event) (id : String) : Except Err Event :=
  match events.reverse.find? (fun e => e.id == id) with
  | some e => pure e
  | none => throw (.keyError id)

/-- applyEventDeps is the event-dependency loop of presolve
(`constraint_solver.py` lines 358-364): AFTER trims the domain left of
the event's end, BEFORE trims right of its start, DURING restricts to
the event's interval; other kinds are ignored. -/
def applyEventDeps (events : List Event) :
    List (String × DependencyType) → WDomain → Except Err WDomain
  | [], d => pure d
  | (depId, dt) :: rest, d => do
    let e ← findEvent events depId
    applyEventDeps events rest
      (match dt with
        | .AFTER => d.trim_left e.end_time
        | .BEFORE => d.trim_right e.start_time
        | .DURING => d.restrict e.start_time e.end_time
        | _ => d)

/-- taskPrunedDomain is the domain presolve constructs for a task —
profile projection, event subtraction, event-dependency trims — without
presolve's asserts (it can still fail with `KeyError` on a dangling
event reference). -/
def taskPrunedDomain (t : Task) (events : List Event) (start : Int)
    (days : Nat) : Except Err WDomain :=
  applyEventDeps events t.event_dependencies
    ((t.time_domain start days).difference (buildEventsDomain events))

/-- constructTaskDomain is one iteration of presolve's domain loop
(`constraint_solver.py` lines 353-365): project the task's domain,
subtract the events domain, assert non-emptiness, apply event
dependencies, and assert the domain still covers the remaining
duration. -/
def constructTaskDomain (t : Task) (events : List Event) (start : Int)
    (days : Nat) : Except Err WDomain := do
  let d1 := (t.time_domain start days).difference (buildEventsDomain events)
  if d1.is_empty then
    throw (.assertionFailed "presolve: task domain is empty after applying event constraints")
  else do
    let d2 ← applyEventDeps events t.event_dependencies d1
    if d2.total_time < t.get_remaining_duration then
      throw (.assertionFailed "task domain ran out of time after event dependency constraint")
    else pure d2

/-- tasksDomains runs the presolve domain loop over all tasks in
order, stopping at the first failure. -/
def tasksDomains (events : List Event) (start : Int) (days : Nat) :
    List Task → Except Err (List (Task × WDomain))
  | [] => pure []
  | t :: rest => do
    let d ← constructTaskDomain t events start days
    let tl ← tasksDomains events start days rest
    pure ((t, d) :: tl)

/-- overlap_domains from `constraint_solver.py` lines 296-305: the
weighted sum of all task domains. -/
def overlap_domains (ds : List WDomain) : WDomain :=
  ds.foldl (fun acc d => acc.add d) ⟨[]⟩

/-- lookupRank is `topo_ranks[task.id]` (`KeyError` when absent, which
cannot happen after a successful `topo_rank`). -/
def lookupRank (ranks : List (String × Int)) (id : String) : Except Err Int :=
  match ranks.lookup id with
  | some r => pure r
  | none => throw (.keyError id)

/-- presolveHeap is presolve's heap-seeding loop (`constraint_solver.py`
lines 372-377): assert each domain non-empty, compute its pressure and
push `(rank, -pressure, task, domain)`. -/
def presolveHeap (ranks : List (String × Int)) (overlaps : WDomain) :
    List (Task × WDomain) → List HeapEntry → Except Err (List HeapEntry)
  | [], heap => pure heap
  | (t, d) :: rest, heap => do
    if d.is_empty then
      throw (.assertionFailed "presolve: task domain is empty after applying constraints")
    else do
      let p ← calculate_pressure_metric d overlaps t.get_remaining_duration
      let r ← lookupRank ranks t.id
      let heap1 ← heappush heap ⟨r, qNeg p, t, d⟩
      presolveHeap ranks overlaps rest heap1

/-- presolve from `constraint_solver.py` lines 339-392: build each
task's pruned domain, topologically rank the tasks, build the overlap
map, and seed the priority heap. -/
def presolve (tasks : List Task) (events : List Event) (start : Int)
    (days : Nat) : Except Err (WDomain × List HeapEntry) := do
  let tds ← tasksDomains events start days tasks
  let ranks ← topo_rank tasks
  let overlaps := overlap_domains (tds.map (fun td => td.2))
  let heap ← presolveHeap ranks overlaps tds []
  pure (overlaps, heap)

/-- SolveState is the mutable state of the placement loop: the heap,
the overlap map, and the task list (Python mutates `task.duration` on
the shared task objects; here the task list plays the store). -/
structure SolveState where
  heap : List HeapEntry
  overlaps : WDomain
  tasks : List Task

/-- findSlotSession is the slot loop of `solve` (`constraint_solver.py`
lines 424-440): try the sorted candidate slots in order and return the
first compatible session interval. -/
def findSlotSession (task : Task) (rest : List HeapEntry) :
    List ((Int × Int) × Rat) → Option (Int × Int)
  | [] => none
  | (a, _) :: more =>
    match find_best_compatible_session task a.1 a.2 rest with
    | some iv => some iv
    | none => findSlotSession task rest more

/-- updateTaskList performs the in-place `task.duration` mutation as
seen through the input task list: every task object with the given id
is replaced by the updated task. -/
def updateTaskList (store : List Task) (id : String) (newTask : Task) :
    List Task :=
  store.map (fun t => if t.id = id then newTask else t)

/-- rebuildHeap is the post-commit rebuild loop of `solve`
(`constraint_solver.py` lines 493-526): pop every entry; the
just-scheduled task's entry is pushed unchanged, every other entry's
domain loses the buffered session interval, failing with
`SchedulingError` if it no longer covers the task's remaining
duration, and is pushed with a recomputed pressure. -/
def rebuildHeap (committedId : String) (removalLo removalHi : Int)
    (overlaps : WDomain) :
    Nat → List HeapEntry → List HeapEntry → Except Err (List HeapEntry)
  | 0, _, _ => throw .fuelOut
  | fuel + 1, heap, acc =>
    if heap.isEmpty then pure acc
    else do
      let er ← heappop heap
      if er.1.task.id = committedId then do
        let acc1 ← heappush acc er.1
        rebuildHeap committedId removalLo removalHi overlaps fuel er.2 acc1
      else do
        let newDomain := er.1.domain.remove_slot_interval removalLo removalHi
        if newDomain.total_time < er.1.task.get_remaining_duration then
          throw (.schedulingError "task domain ran out of time after scheduling")
        else do
          let p ← calculate_pressure_metric newDomain overlaps
            er.1.task.get_remaining_duration
          let acc1 ← heappush acc ⟨er.1.rank, qNeg p, er.1.task, newDomain⟩
          rebuildHeap committedId removalLo removalHi overlaps fuel er.2 acc1

/-- solveStepCore is one iteration of the main `while` loop of `solve`
(`constraint_solver.py` lines 402-526), excluding session-object
creation: `none` when the heap is empty; otherwise `some (commitInfo,
newState)` where `commitInfo` is `none` for a skipped task and
`some (taskId, start, end)` for a committed session. -/
def solveStepCore (st : SolveState) :
    Except Err (Option (Option (String × Int × Int) × SolveState)) :=
  if st.heap.isEmpty then pure none
  else do
    let er ← heappop st.heap
    let task := er.1.task
    let rest := er.2
    let rem := task.get_remaining_duration
    let domain1 := apply_min_session_length_constraint er.1.domain
      (min task.min_session_length rem)
    let slots ← sorted_slots domain1 st.overlaps task
      (min (pyOr task.max_session_length rem) rem)
    if slots.isEmpty then
      throw (.assertionFailed "task domain has no slots after min session length constraint")
    else
      match findSlotSession task rest slots with
      | none => pure (some (none, ⟨rest, st.overlaps, st.tasks⟩))
      | some (sLo, sHi) => do
        let task1 := { task with duration := task.duration - (sHi - sLo) }
        let store1 := updateTaskList st.tasks task.id task1
        let remLo := sLo - task.buffer_before
        let remHi := sHi + task.buffer_after
        if 1 < task1.duration then do
          let domain2 := domain1.remove_slot_interval remLo remHi
          if domain2.is_empty then
            throw (.assertionFailed "task domain became empty after scheduling session")
          else do
            let p ← calculate_pressure_metric domain2 st.overlaps
              task1.get_remaining_duration
            let heap1 ← heappush rest ⟨er.1.rank, qNeg p, task1, domain2⟩
            let heap2 ← rebuildHeap task1.id remLo remHi st.overlaps
              (heap1.length + 1) heap1 []
            pure (some (some (task.id, sLo, sHi), ⟨heap2, st.overlaps, store1⟩))
        else do
          let overlaps1 := st.overlaps.subtract domain1
          let heap2 ← rebuildHeap task1.id remLo remHi overlaps1
            (rest.length + 1) rest []
          pure (some (some (task.id, sLo, sHi), ⟨heap2, overlaps1, store1⟩))

/-- solveLoop drains the heap, building Session objects whose
`session_id` comes from the uuid4 source `rng` (the `k`-th created
session receives `rng k`). -/
def solveLoop (rng : Nat → String) :
    Nat → SolveState → List Session → Nat →
    Except Err (List Session × List Task)
  | 0, _, _, _ => throw .fuelOut
  | fuel + 1, st, acc, k => do
    match ← solveStepCore st with
    | none => pure (acc, st.tasks)
    | some (none, st1) => solveLoop rng fuel st1 acc k
    | some (some (tid, sLo, sHi), st1) =>
      solveLoop rng fuel st1 (acc ++ [⟨tid, rng k, sLo, sHi, false⟩]) (k + 1)

/-- solveFuel bounds the iterations of the main loop: every iteration
either discards a task or commits at least one five-minute unit of
some task's remaining duration. -/
def solveFuel (tasks : List Task) : Nat :=
  tasks.length + (tasks.map (fun t => t.duration.toNat / 300000000 + 2)).sum + 1

/-- solve from `constraint_solver.py` lines 395-549: presolve, then
the placement loop.  Returns the committed sessions and the final
task list (through which the callers observe the mutated
`task.duration`); exceptions propagate to the caller unchanged.  The
nondeterministic `uuid.uuid4()` calls are modelled by the `rng`
parameter. -/
def solve (tasks : List Task) (events : List Event) (start : Int)
    (days : Nat) (rng : Nat → String) :
    Except Err (List Session × List Task) := do
  let pre ← presolve tasks events start days
  solveLoop rng (solveFuel tasks) ⟨pre.2, pre.1, tasks⟩ [] 0

/-- exTaskC1 is a concrete task for exercising
`find_best_compatible_session` on a wide slot: 2048 five-minute units
of remaining duration, a five-minute minimum session length, no
maximum, no buffers. -/
def exTaskC1 : Task :=
  { id := "t1", title := "T", duration := 2048 * FIVE, time_spent := 0,
    due := 10 * DAY, starts_at := none, min_session_length := FIVE,
    max_session_length := none, buffer_before := 0, buffer_after := 0,
    task_dependencies := [], event_dependencies := [], time_profiles := [] }

/-- exTaskC1w is a concrete task with 2 five-minute units of duration,
used to witness the amended C1 theorem on a small slot. -/
def exTaskC1w : Task :=
  { exTaskC1 with duration := 2 * FIVE }

/-- ScheduleItem is one entry of a day's list in
`Scheduler.print_schedule` (`scheduler.py` lines 198-248): either a
session dict (tag `'session'` with session id, task id, task title,
start, end, duration, completed) or an event dict (tag `'event'` with
event id, title, start, end, duration, completed). -/
inductive ScheduleItem where
  | sessionItem (session_id task_id task_title : String)
      (start_time end_time dur : Int) (completed : Bool)
  | eventItem (event_id title : String)
      (start_time end_time dur : Int) (completed : Bool)
deriving DecidableEq, Repr

/-- itemStart is the `'start_time'` field an item is sorted by.  Python
sorts by the ISO-8601 string; for naive datetimes lexicographic order
of `isoformat()` strings coincides with chronological order, so we
sort by the instant itself. -/
def ScheduleItem.itemStart : ScheduleItem → Int
  | .sessionItem _ _ _ s _ _ _ => s
  | .eventItem _ _ s _ _ _ => s

/-- itemLe is the sort relation of the per-day `sorted(items, key=lambda
x: x['start_time'])`. -/
def itemLe (a b : ScheduleItem) : Prop := a.itemStart ≤ b.itemStart

instance : DecidableRel itemLe := fun _ _ => inferInstanceAs (Decidable (_ ≤ _))

instance : IsTotal ScheduleItem itemLe := ⟨fun a b => Int.le_total a.itemStart b.itemStart⟩

instance : IsTrans ScheduleItem itemLe := ⟨fun _ _ _ h h' => le_trans h h'⟩

/-- mkSessionItem builds the session dict appended by `print_schedule`
for a session whose task was found. -/
def mkSessionItem (t : Task) (s : Session) : ScheduleItem :=
  .sessionItem s.session_id s.task_id t.title s.start_time s.end_time
    s.duration s.completed

/-- mkEventItem builds the event dict appended by `print_schedule`. -/
def mkEventItem (e : Event) : ScheduleItem :=
  .eventItem e.id e.title e.start_time e.end_time e.duration e.completed

/-- pyDictGet models `self.tasks.get(task_id)`: the task dict keyed by
id, represented as the list of its values (keys are unique in a
Python dict). -/
def pyDictGet (tasks : List Task) (id : String) : Option Task :=
  tasks.find? (fun t => t.id == id)

/-- emptyByDay is the first loop of `print_schedule`: one key per
`day_offset in range(self.days)`, keyed by the date of
`start_date + day_offset days`, each mapped to an empty list, in
insertion order. -/
def emptyByDay (start_date : Int) (days : Nat) : List (Int × List ScheduleItem) :=
  (List.range days).map
    (fun k : Nat => (dateIndex (start_date + (k : Int) * DAY), ([] : List ScheduleItem)))

/-- appendAt appends an item to the list stored under `key`, if that
key is present (`if date in schedule_by_day: ...append`); otherwise it
is a no-op, mirroring the `in` guard. -/
def appendAt : List (Int × List ScheduleItem) → Int → ScheduleItem →
    List (Int × List ScheduleItem)
  | [], _, _ => []
  | (k, its) :: rest, key, it =>
    if k = key then (k, its ++ [it]) :: rest
    else (k, its) :: appendAt rest key it

/-- addSessions is the session loop of `print_schedule`: each session
is appended to the list of its start date, provided the date is a key
and `self.tasks.get(session.task_id)` finds a task. -/
def addSessions (tasks : List Task) :
    List (Int × List ScheduleItem) → List Session → List (Int × List ScheduleItem)
  | m, [] => m
  | m, s :: rest =>
    match pyDictGet tasks s.task_id with
    | some t =>
        addSessions tasks (appendAt m (dateIndex s.start_time) (mkSessionItem t s)) rest
    | none => addSessions tasks m rest

/-- get_events from `scheduler.py` lines 166-168: the events whose span
intersects `[start_date, end_date]`. -/
def get_events (events : List Event) (start_date end_date : Int) : List Event :=
  events.filter (fun e => decide (e.start_time ≤ end_date) && decide (e.end_time ≥ start_date))

/-- addEvents is the event loop of `print_schedule`: each event in
range is appended to the list of its start date when present. -/
def addEvents : List (Int × List ScheduleItem) → List Event →
    List (Int × List ScheduleItem)
  | m, [] => m
  | m, e :: rest => addEvents (appendAt m (dateIndex e.start_time) (mkEventItem e)) rest

/-- print_schedule from `scheduler.py` lines 198-248: initialize one
empty list per horizon day, add sessions, add the events returned by
`get_events(start_date, start_date + days)`, then sort each day's list
by start time (Python sorts by the ISO `start_time` string, which for
naive datetimes orders exactly by instant). -/
def print_schedule (tasks : List Task) (events : List Event)
    (sessions : List Session) (start_date : Int) (days : Nat) :
    List (Int × List ScheduleItem) :=
  let m0 := emptyByDay start_date days
  let m1 := addSessions tasks m0 sessions
  let m2 := addEvents m1 (get_events events start_date (start_date + days * DAY))
  m2.map (fun p => (p.1, p.2.insertionSort itemLe))

/-- sessionItemsAt lists, in order, the session items `print_schedule`
appends to day `k`: the sessions starting on day `k` whose task id is
found in the task dict. -/
def sessionItemsAt (tasks : List Task) (sessions : List Session) (k : Int) :
    List ScheduleItem :=
  sessions.filterMap (fun s =>
    if dateIndex s.start_time = k then
      (pyDictGet tasks s.task_id).map (fun t => mkSessionItem t s)
    else none)

/-- eventItemsAt lists, in order, the event items `print_schedule`
appends to day `k` from the events overlapping the horizon. -/
def eventItemsAt (eventsInRange : List Event) (k : Int) : List ScheduleItem :=
  eventsInRange.filterMap (fun e =>
    if dateIndex e.start_time = k then some (mkEventItem e) else none)

/-- baseTask is a minimal concrete task used by the concrete runs: one
five-minute unit of duration, five-minute minimum session, due at the
end of a one-day horizon, no other constraints. -/
def baseTask : Task :=
  { id := "t", title := "T", duration := FIVE, time_spent := 0,
    due := DAY, starts_at := none, min_session_length := FIVE,
    max_session_length := none, buffer_before := 0, buffer_after := 0,
    task_dependencies := [], event_dependencies := [], time_profiles := [] }

/-- exTaskDangle has an AFTER dependency on an event id that no event
carries. -/
def exTaskDangle : Task :=
  { baseTask with
    id := "t0",
    event_dependencies := [("EX", DependencyType.AFTER)] }

/-- exTaskUnder needs three days of work inside a one-day horizon: its
constructed domain underruns its remaining duration. -/
def exTaskUnder : Task :=
  { baseTask with id := "t2", duration := 3 * DAY, due := 3 * DAY }

/-- exEvent7 occupies the first seven minutes of the horizon, so the
free slot after it starts off the 5-minute grid. -/
def exEvent7 : Event :=
  { id := "e1", title := "E", start_time := 0, end_time := 420000000,
    completed := false }

/-- exTaskLong requires two-hour sessions. -/
def exTaskLong : Task :=
  { baseTask with duration := 7200000000, min_session_length := 7200000000 }

/-- exEventBig blocks the middle of the day, leaving two 90-minute
windows — both shorter than exTaskLong's minimum session. -/
def exEventBig : Event :=
  { id := "e2", title := "E2", start_time := 5400000000,
    end_time := 81000000000, completed := false }

/-- exTaskAfterX depends (AFTER) on a task id that is not in the task
list, so its in-degree never reaches zero although the dependency
graph is acyclic. -/
def exTaskAfterX : Task :=
  { baseTask with task_dependencies := [("X", DependencyType.AFTER)] }

/-- exTaskC7c is a plain five-minute task, schedulable around
`exEventBig`, used to show one task's failed slot assert aborting the
whole run. -/
def exTaskC7c : Task :=
  { baseTask with id := "c7" }

/-- exTaskA7 must fit its whole five-minute duration before its due
instant five minutes in: its only candidate is the slot `[0, FIVE]`. -/
def exTaskA7 : Task :=
  { baseTask with id := "a7", due := FIVE }

/-- exTaskB7 fills `[0, 2*FIVE]` exactly (zero slack), so any session
of exTaskA7 inside `[0, FIVE]` is incompatible with it. -/
def exTaskB7 : Task :=
  { baseTask with id := "b7", duration := 2 * FIVE, due := 2 * FIVE }

/-- exEntryA7 is exTaskA7's heap entry as presolve builds it (pressure
2, so it is popped first). -/
def exEntryA7 : HeapEntry :=
  ⟨0, mkRat (-2) 1, exTaskA7, ⟨[WPiece.mk 0 FIVE 1]⟩⟩

/-- exEntryB7 is exTaskB7's heap entry as presolve builds it (pressure
3/2). -/
def exEntryB7 : HeapEntry :=
  ⟨0, mkRat (-3) 2, exTaskB7, ⟨[WPiece.mk 0 (2 * FIVE) 1]⟩⟩

/-- exOverlapsC7 is the overlap map presolve builds for exTaskA7 and
exTaskB7: both cover `[0, FIVE]`, only exTaskB7 covers
`[FIVE, 2*FIVE]`. -/
def exOverlapsC7 : WDomain :=
  ⟨[WPiece.mk 0 FIVE 2, WPiece.mk FIVE (2 * FIVE) 1]⟩

/-- exStateC7 is the solver state right after presolve on
`[exTaskA7, exTaskB7]` with a one-day horizon. -/
def exStateC7 : SolveState :=
  ⟨[exEntryA7, exEntryB7], exOverlapsC7, [exTaskA7, exTaskB7]⟩

/-- exSlotsC7 is the scored candidate-slot list `sorted_slots` returns
for exTaskA7 at exStateC7: one slot, `[0, FIVE]`. -/
def exSlotsC7 : List ((Int × Int) × Rat) :=
  [((0, FIVE), mkRat 9 5)]

/-- exTaskTopoA, exTaskTopoB, exTaskTopoC form a concrete acyclic
AFTER-dependency chain: b depends on a; c depends on a and b. -/
def exTaskTopoA : Task :=
  { baseTask with id := "a" }

/-- exTaskTopoB depends (AFTER) on exTaskTopoA. -/
def exTaskTopoB : Task :=
  { baseTask with
    id := "b",
    task_dependencies := [("a", DependencyType.AFTER)] }

/-- exTaskTopoC depends (AFTER) on both exTaskTopoA and exTaskTopoB. -/
def exTaskTopoC : Task :=
  { baseTask with
    id := "c",
    task_dependencies :=
      [("a", DependencyType.AFTER), ("b", DependencyType.AFTER)] }

/-- sessionsSum is the total committed duration of the sessions of one
task id within a session list. -/
def sessionsSum (i : String) (l : List Session) : Int :=
  ((l.filter (fun s => s.task_id = i)).map Session.duration).sum

/-- eraseId blanks a session's uuid-derived `session_id`, leaving
every other field: two runs agree modulo `eraseId` exactly when they
agree on everything except the generated uuids. -/
def eraseId (s : Session) : Session :=
  { s with session_id := "" }

-- ===================================================================
-- THEOREMS
-- ===================================================================

theorem mem_of_mem_trimLeftGo (t : Int) :
    ∀ (rest state : List TimeSlot), ∀ x ∈ trimLeftGo t state rest,
      x ∈ state ∨ x = ⟨t, x.end_⟩ := by
  intro rest
  induction rest with
  | nil => intro state x hx; exact Or.inl hx
  | cons s rs ih =>
    intro state x hx
    unfold trimLeftGo at hx
    by_cases h1 : s.end_ < t
    · simp only [if_pos h1] at hx
      rcases ih (state.erase s) x hx with h | h
      · exact Or.inl (List.mem_of_mem_erase h)
      · exact Or.inr h
    · simp only [if_neg h1] at hx
      by_cases h2 : s.start < t
      · simp only [if_pos h2] at hx
        rcases List.mem_append.1 (List.mem_of_mem_erase hx) with h | h
        · exact Or.inl h
        · simp only [List.mem_singleton] at h
          subst h; exact Or.inr rfl
      · simp only [if_neg h2] at hx
        exact Or.inl hx

/-- C8 counterexample: on the domain with the overlapping slots
`[0,10]` and `[2,3]`, `trim_left` at `t = 5` leaves the slot `[2,3]`,
whose start `2` is strictly below `5`: the claim is false for domains
with overlapping slots. -/
theorem C8_trim_left_counterexample :
    (⟨2, 3⟩ : TimeSlot) ∈ trim_left [⟨0, 10⟩, ⟨2, 3⟩] 5 ∧ ¬ ((5:Int) ≤ 2) := by
  constructor
  · decide
  · decide

theorem trimLeftGo_sound (t : Int) :
    ∀ (rest state : List TimeSlot),
      state.Nodup →
      (∀ a ∈ state, a ∈ rest ∨ t ≤ a.start) →
      List.Pairwise (fun a b => a.start < b.start) rest →
      (∀ a ∈ rest, a.start < a.end_) →
      List.Pairwise (fun a b => ¬ a.overlapsSlot b) rest →
      ∀ x ∈ trimLeftGo t state rest, t ≤ x.start := by
  intro rest
  induction rest with
  | nil =>
    intro state _ hsub _ _ _ x hx
    rcases hsub x hx with h | h
    · exact absurd h (List.not_mem_nil x)
    · exact h
  | cons s rs ih =>
    intro state hnodup hsub hchain hnd hno x hx
    have hchain' := (List.pairwise_cons.1 hchain)
    have hno' := (List.pairwise_cons.1 hno)
    -- every later slot starts at or after s.end_ (uses non-overlap)
    have hlater : ∀ b ∈ rs, s.end_ ≤ b.start := by
      intro b hb
      have h1 : s.start < b.start := hchain'.1 b hb
      have h2 : ¬ s.overlapsSlot b := hno'.1 b hb
      have h3 : b.start < b.end_ := hnd b (List.mem_cons_of_mem s hb)
      by_contra hcon
      push_neg at hcon
      exact h2 ⟨lt_trans h1 h3, hcon⟩
    unfold trimLeftGo at hx
    by_cases h1 : s.end_ < t
    · simp only [if_pos h1] at hx
      refine ih (state.erase s) (hnodup.erase s) ?_ hchain'.2 ?_ hno'.2 x hx
      · intro a ha
        have hmem := (List.Nodup.mem_erase_iff hnodup).1 ha
        rcases hsub a hmem.2 with h | h
        · rcases List.mem_cons.1 h with h' | h'
          · exact absurd h' hmem.1
          · exact Or.inl h'
        · exact Or.inr h
      · intro a ha; exact hnd a (List.mem_cons_of_mem s ha)
    · simp only [if_neg h1] at hx
      push_neg at h1
      by_cases h2 : s.start < t
      · simp only [if_pos h2] at hx
        have hne : (⟨t, s.end_⟩ : TimeSlot) ≠ s := by
          intro heq
          have : s.start = t := by rw [← heq]
          omega
        have hsplit : (state ++ [(⟨t, s.end_⟩ : TimeSlot)]).erase s
            = state.erase s ++ [(⟨t, s.end_⟩ : TimeSlot)] := by
          by_cases hs : s ∈ state
          · exact List.erase_append_left _ hs
          · rw [List.erase_append_right _ hs, List.erase_of_not_mem,
              List.erase_of_not_mem hs]
            simp only [List.mem_singleton]
            intro hc
            exact hne (hc ▸ rfl)
        rw [hsplit] at hx
        rcases List.mem_append.1 hx with h | h
        · have hmem := (List.Nodup.mem_erase_iff hnodup).1 h
          rcases hsub x hmem.2 with h' | h'
          · rcases List.mem_cons.1 h' with h'' | h''
            · exact absurd h'' hmem.1
            · exact le_trans h1 (hlater x h'')
          · exact h'
        · simp only [List.mem_singleton] at h
          subst h; exact le_refl t
      · simp only [if_neg h2] at hx
        push_neg at h2
        rcases hsub x hx with h | h
        · rcases List.mem_cons.1 h with h' | h'
          · subst h'; exact h2
          · exact le_trans h2 (le_of_lt (hchain'.1 x h'))
        · exact h

/-- C8 (amended): for every TimeDomain whose slots are non-degenerate
(`start < end`) and pairwise non-overlapping (in the sense of
`TimeSlot.overlaps` from the source), after `trim_left(t)` every
remaining slot has start ≥ t. -/
theorem C8_trim_left_amended (slots : List TimeSlot) (t : Int)
    (hnd : ∀ a ∈ slots, a.start < a.end_)
    (hno : List.Pairwise (fun a b => ¬ a.overlapsSlot b) slots) :
    ∀ x ∈ trim_left slots t, t ≤ x.start := by
  have hperm : (slots.insertionSort slotLe).Perm slots :=
    List.perm_insertionSort slotLe slots
  have hnodup : slots.Nodup := by
    refine List.Pairwise.imp_of_mem ?_ hno
    intro a b ha _ hnab heq
    subst heq
    exact hnab ⟨hnd a ha, hnd a ha⟩
  have hsorted : List.Sorted slotLe (slots.insertionSort slotLe) :=
    List.sorted_insertionSort slotLe slots
  have hnd' : ∀ a ∈ slots.insertionSort slotLe, a.start < a.end_ :=
    fun a ha => hnd a (hperm.mem_iff.1 ha)
  have hno' : List.Pairwise (fun a b => ¬ a.overlapsSlot b)
      (slots.insertionSort slotLe) := by
    refine (List.Perm.pairwise_iff ?_ hperm).2 hno
    intro a b hab ⟨h1, h2⟩
    exact hab ⟨h2, h1⟩
  have hchain : List.Pairwise (fun a b => a.start < b.start)
      (slots.insertionSort slotLe) := by
    have hcomb := List.Pairwise.and hsorted hno'
    refine List.Pairwise.imp_of_mem ?_ hcomb
    intro a b ha hb hab
    rcases hab with ⟨hle, hnov⟩
    rcases lt_or_eq_of_le hle with h | h
    · exact h
    · exfalso
      have hae := hnd' a ha
      have hbe := hnd' b hb
      exact hnov ⟨by omega, by omega⟩
  intro x hx
  refine trimLeftGo_sound t (slots.insertionSort slotLe) slots hnodup ?_
    hchain hnd' hno' x hx
  intro a ha
  exact Or.inl (hperm.mem_iff.2 ha)

/-- C8 witness: the amended theorem applied to the concrete disjoint
domain `{[0,4], [6,8]}` at `t = 5`. -/
theorem C8_trim_left_amended_witness :
    ((∀ a ∈ [(⟨0, 4⟩ : TimeSlot), ⟨6, 8⟩], a.start < a.end_) ∧
      List.Pairwise (fun a b => ¬ a.overlapsSlot b) [(⟨0, 4⟩ : TimeSlot), ⟨6, 8⟩]) ∧
    (∀ x ∈ trim_left [(⟨0, 4⟩ : TimeSlot), ⟨6, 8⟩] 5, (5:Int) ≤ x.start) :=
  ⟨⟨by decide, by decide⟩,
    C8_trim_left_amended [⟨0, 4⟩, ⟨6, 8⟩] 5 (by decide) (by decide)⟩

theorem map_fst_appendAt (m : List (Int × List ScheduleItem)) (key : Int)
    (it : ScheduleItem) : (appendAt m key it).map Prod.fst = m.map Prod.fst := by
  induction m with
  | nil => rfl
  | cons p rest ih =>
    obtain ⟨k, its⟩ := p
    unfold appendAt
    by_cases h : k = key
    · simp [h]
    · simp only [if_neg h, List.map_cons, ih]

theorem lookup_appendAt (m : List (Int × List ScheduleItem)) (key k : Int)
    (it : ScheduleItem) :
    (appendAt m key it).lookup k =
      if k = key then (m.lookup k).map (· ++ [it]) else m.lookup k := by
  induction m with
  | nil => simp [appendAt, List.lookup]
  | cons p rest ih =>
    obtain ⟨k₀, its⟩ := p
    unfold appendAt
    by_cases h : k₀ = key
    · subst h
      by_cases h2 : k = k₀
      · subst h2
        simp [List.lookup]
      · have hb : (k == k₀) = false := beq_eq_false_iff_ne.2 h2
        simp [List.lookup, hb, h2]
    · simp only [if_neg h]
      by_cases h2 : k = k₀
      · subst h2
        have hne : ¬ k = key := fun hc => h hc
        have hb : (k == k) = true := beq_self_eq_true k
        simp [List.lookup, hb, hne]
      · have hb : (k == k₀) = false := beq_eq_false_iff_ne.2 h2
        simp [List.lookup, hb, ih]

theorem lookup_addSessions (tasks : List Task) (ss : List Session) (k : Int) :
    ∀ m : List (Int × List ScheduleItem),
      (addSessions tasks m ss).lookup k =
        (m.lookup k).map (· ++ sessionItemsAt tasks ss k) := by
  induction ss with
  | nil =>
    intro m
    simp only [addSessions, sessionItemsAt, List.filterMap_nil]
    cases m.lookup k <;> simp
  | cons s rest ih =>
    intro m
    unfold addSessions
    have hrest : sessionItemsAt tasks (s :: rest) k =
        (if dateIndex s.start_time = k then
          ((pyDictGet tasks s.task_id).map (fun t => mkSessionItem t s)).toList
        else []) ++ sessionItemsAt tasks rest k := by
      simp only [sessionItemsAt, List.filterMap_cons]
      by_cases hd : dateIndex s.start_time = k
      · simp only [if_pos hd]
        cases (pyDictGet tasks s.task_id) <;> simp
      · simp [if_neg hd]
    cases hfind : pyDictGet tasks s.task_id with
    | none =>
      rw [ih m, hrest, hfind]
      by_cases hd : dateIndex s.start_time = k
      · simp [hd]
      · simp [hd]
    | some t =>
      rw [ih (appendAt m (dateIndex s.start_time) (mkSessionItem t s)),
        lookup_appendAt, hrest, hfind]
      by_cases hd : dateIndex s.start_time = k
      · have hd' : k = dateIndex s.start_time := hd.symm
        simp only [if_pos hd, if_pos hd', Option.map_map, Option.toList_some]
        cases m.lookup k <;> simp
      · have hd' : ¬ k = dateIndex s.start_time := fun hc => hd hc.symm
        simp [if_neg hd, if_neg hd']

theorem lookup_addEvents (es : List Event) (k : Int) :
    ∀ m : List (Int × List ScheduleItem),
      (addEvents m es).lookup k = (m.lookup k).map (· ++ eventItemsAt es k) := by
  induction es with
  | nil =>
    intro m
    simp only [addEvents, eventItemsAt, List.filterMap_nil]
    cases m.lookup k <;> simp
  | cons e rest ih =>
    intro m
    unfold addEvents
    rw [ih (appendAt m (dateIndex e.start_time) (mkEventItem e)), lookup_appendAt]
    have hrest : eventItemsAt (e :: rest) k =
        (if dateIndex e.start_time = k then [mkEventItem e] else [])
          ++ eventItemsAt rest k := by
      simp only [eventItemsAt, List.filterMap_cons]
      by_cases hd : dateIndex e.start_time = k
      · simp [if_pos hd]
      · simp [if_neg hd]
    rw [hrest]
    by_cases hd : dateIndex e.start_time = k
    · have hd' : k = dateIndex e.start_time := hd.symm
      simp only [if_pos hd, if_pos hd']
      cases m.lookup k <;> simp
    · have hd' : ¬ k = dateIndex e.start_time := fun hc => hd hc.symm
      simp [if_neg hd, if_neg hd']

theorem map_fst_addSessions (tasks : List Task) (ss : List Session) :
    ∀ m : List (Int × List ScheduleItem),
      (addSessions tasks m ss).map Prod.fst = m.map Prod.fst := by
  induction ss with
  | nil => intro m; rfl
  | cons s rest ih =>
    intro m
    unfold addSessions
    cases pyDictGet tasks s.task_id with
    | none => exact ih m
    | some t => rw [ih, map_fst_appendAt]

theorem map_fst_addEvents (es : List Event) :
    ∀ m : List (Int × List ScheduleItem),
      (addEvents m es).map Prod.fst = m.map Prod.fst := by
  induction es with
  | nil => intro m; rfl
  | cons e rest ih =>
    intro m
    unfold addEvents
    rw [ih, map_fst_appendAt]

theorem dateIndex_add_days (start_date : Int) (k : Nat) :
    dateIndex (start_date + (k : Int) * DAY) = dateIndex start_date + k := by
  simp only [dateIndex, DAY]
  omega

theorem lookup_of_mem_nodupKeys :
    ∀ {m : List (Int × List ScheduleItem)} {k : Int} {v : List ScheduleItem},
      (k, v) ∈ m → (m.map Prod.fst).Nodup → m.lookup k = some v := by
  intro m
  induction m with
  | nil => intro k v h _; exact absurd h (List.not_mem_nil _)
  | cons p rest ih =>
    intro k v h hnd
    obtain ⟨k₀, v₀⟩ := p
    rcases List.mem_cons.1 h with h' | h'
    · injection h' with h1 h2
      subst h1; subst h2
      simp [List.lookup]
    · have hk : k ≠ k₀ := by
        intro hc
        subst hc
        have : k ∈ rest.map Prod.fst := List.mem_map.2 ⟨(k, v), h', rfl⟩
        exact (List.nodup_cons.1 hnd).1 this
      have hb : (k == k₀) = false := beq_eq_false_iff_ne.2 hk
      simp only [List.lookup, hb]
      exact ih h' (List.nodup_cons.1 hnd).2

theorem emptyByDay_keys_nodup (start_date : Int) (days : Nat) :
    ((emptyByDay start_date days).map Prod.fst).Nodup := by
  unfold emptyByDay
  rw [List.map_map]
  have h : (Prod.fst ∘ fun k : Nat => (dateIndex (start_date + (k : Int) * DAY),
      ([] : List ScheduleItem))) = fun k : Nat => dateIndex start_date + (k : Int) := by
    funext k
    simp [Function.comp, dateIndex_add_days]
  rw [h]
  refine List.Nodup.map ?_ (List.nodup_range days)
  intro a b hab
  simp only at hab
  omega

/-- C9: `print_schedule` has exactly one key per calendar day of the
horizon (days with no items included, mapping to empty lists), and
each day's list is, up to the final stable sort, exactly that day's
session items followed by that day's event items, sorted by start
instant. -/
theorem C9_print_schedule (tasks : List Task) (events : List Event)
    (sessions : List Session) (start_date : Int) (days : Nat) :
    (print_schedule tasks events sessions start_date days).map Prod.fst
      = (List.range days).map
          (fun k : Nat => dateIndex (start_date + (k : Int) * DAY)) ∧
    (∀ p ∈ print_schedule tasks events sessions start_date days,
      List.Sorted itemLe p.2 ∧
      p.2.Perm (sessionItemsAt tasks sessions p.1
        ++ eventItemsAt (get_events events start_date (start_date + days * DAY)) p.1)) := by
  constructor
  · unfold print_schedule
    simp only [List.map_map]
    have : (Prod.fst ∘ fun p : Int × List ScheduleItem =>
        (p.1, p.2.insertionSort itemLe)) = Prod.fst := by
      funext p; rfl
    rw [this, map_fst_addEvents, map_fst_addSessions]
    unfold emptyByDay
    rw [List.map_map]
    rfl
  · intro p hp
    unfold print_schedule at hp
    rcases List.mem_map.1 hp with ⟨q, hq, hpq⟩
    obtain ⟨k, its⟩ := q
    subst hpq
    constructor
    · exact List.sorted_insertionSort itemLe its
    · have hkeys : ((addEvents (addSessions tasks (emptyByDay start_date days) sessions)
          (get_events events start_date (start_date + days * DAY))).map Prod.fst).Nodup := by
        rw [map_fst_addEvents, map_fst_addSessions]
        exact emptyByDay_keys_nodup start_date days
      have hlk := lookup_of_mem_nodupKeys hq hkeys
      rw [lookup_addEvents, lookup_addSessions] at hlk
      have hk0 : ∃ j : Nat, j < days ∧ k = dateIndex start_date + j := by
        have : k ∈ (addEvents (addSessions tasks (emptyByDay start_date days) sessions)
            (get_events events start_date (start_date + days * DAY))).map Prod.fst :=
          List.mem_map.2 ⟨(k, its), hq, rfl⟩
        rw [map_fst_addEvents, map_fst_addSessions] at this
        unfold emptyByDay at this
        rw [List.map_map] at this
        rcases List.mem_map.1 this with ⟨j, hj, hjk⟩
        refine ⟨j, List.mem_range.1 hj, ?_⟩
        rw [← hjk]
        simp [Function.comp, dateIndex_add_days]
      obtain ⟨j, hj, hjk⟩ := hk0
      have hbase : (emptyByDay start_date days).lookup k = some [] := by
        refine lookup_of_mem_nodupKeys ?_ (emptyByDay_keys_nodup start_date days)
        unfold emptyByDay
        refine List.mem_map.2 ⟨j, List.mem_range.2 hj, ?_⟩
        rw [dateIndex_add_days, hjk]
      rw [hbase] at hlk
      simp only [Option.map_some', List.nil_append, Option.some.injEq] at hlk
      have : its = sessionItemsAt tasks sessions k
          ++ eventItemsAt (get_events events start_date (start_date + days * DAY)) k :=
        hlk.symm
      rw [← this]
      exact List.perm_insertionSort itemLe its

/-- C10: `get_remaining_duration` returns `max(duration - time_spent, 0)`:
it never returns a negative duration, it returns 0 whenever
`time_spent` is at least `duration` (for example after the solver has
decremented `duration` below `time_spent`), and otherwise it returns
the exact difference. -/
theorem C10_get_remaining_duration_nonneg (t : Task) :
    t.get_remaining_duration = max (t.duration - t.time_spent) 0 ∧
    0 ≤ t.get_remaining_duration ∧
    (t.duration ≤ t.time_spent → t.get_remaining_duration = 0) ∧
    (t.time_spent ≤ t.duration →
      t.get_remaining_duration = t.duration - t.time_spent) := by
  refine ⟨rfl, le_max_right _ _, ?_, ?_⟩
  · intro h
    simp only [Task.get_remaining_duration]
    omega
  · intro h
    simp only [Task.get_remaining_duration]
    omega

theorem if_empty_total_time_eq (d : WDomain) :
    (if d.is_empty then (0:Int) else d.total_time) = d.total_time := by
  obtain ⟨ps⟩ := d
  cases ps with
  | nil => simp [WDomain.is_empty, WDomain.total_time]
  | cons p ps => simp [WDomain.is_empty, WDomain.total_time]

theorem restrict_total_time_mono (d : WDomain) (a b b' : Int) (h : b ≤ b') :
    (d.restrict a b).total_time ≤ (d.restrict a b').total_time := by
  obtain ⟨ps⟩ := d
  induction ps with
  | nil => simp [WDomain.restrict, WDomain.total_time]
  | cons p ps ih =>
    simp only [WDomain.restrict, WDomain.total_time, List.filterMap_cons] at ih ⊢
    by_cases h1 : max p.lo a < min p.hi b
    · have h2 : max p.lo a < min p.hi b' := by omega
      simp only [if_pos h1, if_pos h2, List.map_cons, List.sum_cons]
      have hlen : min p.hi b - max p.lo a ≤ min p.hi b' - max p.lo a := by omega
      omega
    · simp only [if_neg h1]
      by_cases h2 : max p.lo a < min p.hi b'
      · simp only [if_pos h2, List.map_cons, List.sum_cons]
        have hpos : 0 ≤ min p.hi b' - max p.lo a := by omega
        omega
      · simp only [if_neg h2]
        exact ih

theorem is_duration_compatible_mono (task : Task) (slotLo slotHi : Int)
    (others : List HeapEntry) (d d' : Int) (h1 : 1 < d) (h2 : d ≤ d')
    (hc : is_duration_compatible task slotLo slotHi others d' = true) :
    is_duration_compatible task slotLo slotHi others d = true := by
  unfold is_duration_compatible at hc ⊢
  have hnd : ¬ d ≤ 1 := by omega
  have hnd' : ¬ d' ≤ 1 := by omega
  rw [if_neg hnd'] at hc
  by_cases hb' : slotHi + 1 < slotLo + d'
  · rw [if_pos hb'] at hc
    exact absurd hc (by simp)
  · have hb : ¬ slotHi + 1 < slotLo + d := by omega
    rw [if_neg hnd, if_neg hb]
    rw [if_neg hb'] at hc
    rw [List.all_eq_true] at hc ⊢
    intro e he
    have h := hc e he
    simp only [decide_eq_true_eq] at h ⊢
    rw [if_empty_total_time_eq] at h ⊢
    refine le_trans ?_ h
    exact restrict_total_time_mono e.domain _ _ _ (by omega)

theorem round_timedelta_down_props (x : Int) :
    0 ≤ round_timedelta_down x ∧ FIVE ∣ round_timedelta_down x := by
  unfold round_timedelta_down
  by_cases h : x < 0
  · simp [h]
  · rw [if_neg h]
    constructor
    · have h0 : 0 ≤ x / FIVE := Int.ediv_nonneg (by omega) (by decide)
      have hF : (0:Int) ≤ FIVE := by decide
      exact mul_nonneg h0 hF
    · exact ⟨x / FIVE, mul_comm _ _⟩

theorem round_timedelta_up_dvd (x : Int) : FIVE ∣ round_timedelta_up x := by
  unfold round_timedelta_up
  by_cases h : x ≤ 0
  · simp [h]
  · rw [if_neg h]
    exact ⟨(x + FIVE - 1000000) / FIVE, mul_comm _ _⟩

theorem round_timedelta_down_eq_self (x : Int) (h0 : 0 ≤ x) (hd : FIVE ∣ x) :
    round_timedelta_down x = x := by
  unfold round_timedelta_down
  rw [if_neg (by omega)]
  obtain ⟨k, rfl⟩ := hd
  rw [Int.mul_ediv_cancel_left _ (by decide : (FIVE:Int) ≠ 0)]
  exact mul_comm _ _

theorem effectiveMinDuration_props (task : Task) :
    FIVE ∣ effectiveMinDuration task ∧ FIVE ≤ effectiveMinDuration task := by
  unfold effectiveMinDuration
  by_cases h : round_timedelta_up (min task.min_session_length
      task.get_remaining_duration) ≤ 0
  · simp only [if_pos h]
    exact ⟨dvd_refl _, le_refl _⟩
  · simp only [if_neg h]
    have hd := round_timedelta_up_dvd (min task.min_session_length
      task.get_remaining_duration)
    refine ⟨hd, Int.le_of_dvd (by omega) hd⟩

theorem maxPossibleDuration_props (task : Task) (slotLo slotHi : Int) :
    0 ≤ maxPossibleDuration task slotLo slotHi ∧
    FIVE ∣ maxPossibleDuration task slotLo slotHi :=
  round_timedelta_down_props _

theorem searchMid_spec (task : Task) (low high : Int)
    (hl : FIVE ∣ low) (hh : FIVE ∣ high)
    (hmin : effectiveMinDuration task ≤ low) (hle : low ≤ high) :
    searchMid task low high = (low / FIVE + (high / FIVE - low / FIVE) / 2) * FIVE ∧
    low ≤ searchMid task low high ∧ searchMid task low high ≤ high ∧
    FIVE ∣ searchMid task low high := by
  have hF : (FIVE:Int) = 300000000 := rfl
  obtain ⟨kl, hkl⟩ := hl
  obtain ⟨kh, hkh⟩ := hh
  have e1 : low / FIVE = kl := by
    rw [hkl]; exact Int.mul_ediv_cancel_left _ (by decide)
  have e2 : high / FIVE = kh := by
    rw [hkh]; exact Int.mul_ediv_cancel_left _ (by decide)
  have hklh : kl ≤ kh := by
    rw [hkl, hkh, hF] at hle
    omega
  have hb1 : low ≤ (low / FIVE + (high / FIVE - low / FIVE) / 2) * FIVE := by
    rw [e1, e2, hkl, hF]
    omega
  have hb2 : (low / FIVE + (high / FIVE - low / FIVE) / 2) * FIVE ≤ high := by
    rw [e1, e2, hkh, hF]
    omega
  have hnotlt : ¬ (low / FIVE + (high / FIVE - low / FIVE) / 2) * FIVE
      < effectiveMinDuration task := by omega
  unfold searchMid
  rw [if_neg hnotlt]
  exact ⟨rfl, hb1, hb2, ⟨low / FIVE + (high / FIVE - low / FIVE) / 2,
    mul_comm _ _⟩⟩

theorem searchBest_zero (task : Task) (slotLo slotHi : Int)
    (others : List HeapEntry) (low high : Int) (best : Option Int) :
    searchBest task slotLo slotHi others 0 low high best = best := rfl

theorem searchBest_succ (task : Task) (slotLo slotHi : Int)
    (others : List HeapEntry) (fuel : Nat) (low high : Int) (best : Option Int) :
    searchBest task slotLo slotHi others (fuel + 1) low high best =
      (if high < low then best
      else if maxPossibleDuration task slotLo slotHi < searchMid task low high then
        if is_duration_compatible task slotLo slotHi others
            (maxPossibleDuration task slotLo slotHi) then
          some (maxPossibleDuration task slotLo slotHi)
        else best
      else if is_duration_compatible task slotLo slotHi others
          (searchMid task low high) then
        searchBest task slotLo slotHi others fuel (searchMid task low high + FIVE)
          high (some (searchMid task low high))
      else
        searchBest task slotLo slotHi others fuel low
          (searchMid task low high - FIVE) best) := rfl

theorem searchBest_finds (task : Task) (slotLo slotHi : Int)
    (others : List HeapEntry) (M : Int)
    (hM1 : effectiveMinDuration task ≤ M)
    (hM2 : M ≤ maxPossibleDuration task slotLo slotHi)
    (hM3 : FIVE ∣ M)
    (hM4 : is_duration_compatible task slotLo slotHi others M = true)
    (hMmax : ∀ d, effectiveMinDuration task ≤ d →
      d ≤ maxPossibleDuration task slotLo slotHi → FIVE ∣ d →
      is_duration_compatible task slotLo slotHi others d = true → d ≤ M) :
    ∀ (fuel : Nat) (low high : Int) (best : Option Int),
      FIVE ∣ low → FIVE ∣ high →
      effectiveMinDuration task ≤ low →
      high ≤ maxPossibleDuration task slotLo slotHi →
      low ≤ M + FIVE → M ≤ high →
      ((low = effectiveMinDuration task ∧ best = none) ∨ best = some (low - FIVE)) →
      high - low ≤ ((2:Int) ^ fuel - 2) * FIVE →
      searchBest task slotLo slotHi others fuel low high best = some M := by
  have hF : (FIVE:Int) = 300000000 := rfl
  have hFpos : (1:Int) < FIVE := by decide
  intro fuel
  induction fuel with
  | zero =>
    intro low high best hdl hdh hlo hhi hlM hMh hbest hfuel
    obtain ⟨kl, hkl⟩ := hdl
    obtain ⟨km, hkm⟩ := hM3
    rw [hF] at hkl hkm
    have hfuel' : high - low ≤ -FIVE := by
      have h20 : ((2:Int) ^ 0 - 2) = -1 := by norm_num
      rw [h20] at hfuel
      omega
    rw [hF] at hfuel'
    have hlow : low = M + FIVE := by
      rw [hF]
      omega
    rcases hbest with ⟨hle, _⟩ | hbs
    · exfalso
      rw [hle, hF] at hlow
      have h1 := hM1
      omega
    · rw [searchBest_zero, hbs, hlow]
      congr 1
      omega
  | succ fuel ih =>
    intro low high best hdl hdh hlo hhi hlM hMh hbest hfuel
    rw [searchBest_succ]
    by_cases hhl : high < low
    · rw [if_pos hhl]
      obtain ⟨kl, hkl⟩ := hdl
      obtain ⟨km, hkm⟩ := hM3
      rw [hF] at hkl hkm
      have hlM' := hlM
      rw [hF] at hlM'
      have hlow : low = M + FIVE := by
        rw [hF]
        omega
      rcases hbest with ⟨hle, _⟩ | hbs
      · exfalso
        rw [hle, hF] at hlow
        have h1 := hM1
        omega
      · rw [hbs, hlow]
        congr 1
        omega
    · rw [if_neg hhl]
      have hle : low ≤ high := by omega
      obtain ⟨hmid_eq, hmid_ge, hmid_le, hmid_dvd⟩ :=
        searchMid_spec task low high hdl hdh hlo hle
      have hnomax : ¬ maxPossibleDuration task slotLo slotHi
          < searchMid task low high := by omega
      rw [if_neg hnomax]
      have hK : (1:Int) ≤ 2 ^ fuel := by
        have := pow_pos (by norm_num : (0:Int) < 2) fuel
        omega
      have hpow : ((2:Int) ^ (fuel + 1) - 2) * FIVE
          = (2 ^ fuel * 2 - 2) * FIVE := by
        rw [pow_succ]
      rw [hpow] at hfuel
      obtain ⟨kl, hkl⟩ := hdl
      obtain ⟨kh, hkh⟩ := hdh
      have e1 : low / FIVE = kl := by
        rw [hkl]; exact Int.mul_ediv_cancel_left _ (by decide)
      have e2 : high / FIVE = kh := by
        rw [hkh]; exact Int.mul_ediv_cancel_left _ (by decide)
      rw [e1, e2] at hmid_eq
      rw [hkl, hkh, hF] at hfuel
      by_cases hcm : is_duration_compatible task slotLo slotHi others
          (searchMid task low high) = true
      · rw [if_pos hcm]
        have hmidM : searchMid task low high ≤ M :=
          hMmax _ (le_trans hlo hmid_ge) (le_trans hmid_le hhi) hmid_dvd hcm
        refine ih (searchMid task low high + FIVE) high
          (some (searchMid task low high)) (dvd_add hmid_dvd (dvd_refl _)) ⟨kh, hkh⟩
          (le_trans (le_trans hlo hmid_ge) (by omega)) hhi (by omega) hMh ?_ ?_
        · right
          congr 1
          omega
        · rw [hmid_eq, hkh, hF]
          omega
      · rw [if_neg hcm]
        have hMmid : M < searchMid task low high := by
          by_contra hcon
          push_neg at hcon
          have heprops := effectiveMinDuration_props task
          have h1mid : 1 < searchMid task low high := by omega
          exact hcm (is_duration_compatible_mono task slotLo slotHi others
            _ M h1mid hcon hM4)
        obtain ⟨km, hkm⟩ := hM3
        obtain ⟨kmid, hkmid⟩ := hmid_dvd
        have hMle : M ≤ searchMid task low high - FIVE := by
          rw [hkm, hkmid, hF] at hMmid ⊢
          omega
        refine ih low (searchMid task low high - FIVE) best ⟨kl, hkl⟩
          ⟨kmid - 1, by rw [hkmid]; ring⟩ hlo
          (le_trans (by omega) hhi) hlM hMle hbest ?_
        rw [hmid_eq, hkl, hF]
        omega

/-- C1 (amended): provided the candidate range spans at most 1022
five-minute steps (`max_candidate ≤ effective_min + 1022·5min`, so the
10-iteration binary search can converge), `find_best_compatible_session`
returns exactly `[s.lo, s.lo + d*]` where `d*` is the maximum multiple
of 5 minutes in `[effective_min, max_candidate]` compatible with every
other heap entry — compatibility being the code's check, which allows
cost to exceed slack by up to the 1-microsecond tolerance — and `none`
exactly when no such multiple exists. -/
theorem C1_find_best_amended (task : Task) (slotLo slotHi : Int)
    (others : List HeapEntry)
    (hgap : maxPossibleDuration task slotLo slotHi
      ≤ effectiveMinDuration task + 1022 * FIVE) :
    find_best_compatible_session task slotLo slotHi others
      = (claimBestDur task slotLo slotHi others).map
          (fun d => (slotLo, slotLo + d)) := by
  have hF : (FIVE:Int) = 300000000 := rfl
  obtain ⟨hedvd, hele⟩ := effectiveMinDuration_props task
  obtain ⟨hmp0, hmpdvd⟩ := maxPossibleDuration_props task slotLo slotHi
  unfold find_best_compatible_session claimBestDur
  by_cases hmp : maxPossibleDuration task slotLo slotHi
      < effectiveMinDuration task
  · rw [if_pos hmp, if_pos hmp]
    rfl
  · rw [if_neg hmp, if_neg hmp]
    push_neg at hmp
    have hspan : effectiveMinDuration task
        + (claimGridCount task slotLo slotHi : Int) * FIVE
        = maxPossibleDuration task slotLo slotHi := by
      obtain ⟨kd, hkd⟩ := dvd_sub hmpdvd hedvd
      have hkd0 : 0 ≤ kd := by
        rw [hF] at hkd
        omega
      unfold claimGridCount
      rw [hkd, Int.mul_ediv_cancel_left _ (by decide : (FIVE:Int) ≠ 0),
        Int.toNat_of_nonneg hkd0]
      rw [hF] at hkd ⊢
      omega
    by_cases hany : (List.range (claimGridCount task slotLo slotHi + 1)).any
        (fun k : Nat => is_duration_compatible task slotLo slotHi others
          (effectiveMinDuration task + (k : Int) * FIVE)) = true
    · rw [if_pos hany]
      obtain ⟨k0, hk0mem, hk0P⟩ := List.any_eq_true.1 hany
      have hk0le : k0 ≤ claimGridCount task slotLo slotHi := by
        have := List.mem_range.1 hk0mem
        omega
      have hPg : is_duration_compatible task slotLo slotHi others
          (effectiveMinDuration task +
            (Nat.findGreatest
              (fun k : Nat => is_duration_compatible task slotLo slotHi others
                (effectiveMinDuration task + (k : Int) * FIVE) = true)
              (claimGridCount task slotLo slotHi) : Int) * FIVE) = true :=
        @Nat.findGreatest_spec k0
          (fun k : Nat => is_duration_compatible task slotLo slotHi others
            (effectiveMinDuration task + (k : Int) * FIVE) = true)
          (fun _ => instDecidableEqBool _ _)
          (claimGridCount task slotLo slotHi) hk0le hk0P
      have hgle : Nat.findGreatest
          (fun k : Nat => is_duration_compatible task slotLo slotHi others
            (effectiveMinDuration task + (k : Int) * FIVE) = true)
          (claimGridCount task slotLo slotHi)
          ≤ claimGridCount task slotLo slotHi :=
        Nat.findGreatest_le _
      have hM1 : effectiveMinDuration task ≤ effectiveMinDuration task +
          (Nat.findGreatest
            (fun k : Nat => is_duration_compatible task slotLo slotHi others
              (effectiveMinDuration task + (k : Int) * FIVE) = true)
            (claimGridCount task slotLo slotHi) : Int) * FIVE := by
        rw [hF]
        omega
      have hM2 : effectiveMinDuration task +
          (Nat.findGreatest
            (fun k : Nat => is_duration_compatible task slotLo slotHi others
              (effectiveMinDuration task + (k : Int) * FIVE) = true)
            (claimGridCount task slotLo slotHi) : Int) * FIVE
          ≤ maxPossibleDuration task slotLo slotHi := by
        rw [← hspan]
        have hcast : ((Nat.findGreatest
            (fun k : Nat => is_duration_compatible task slotLo slotHi others
              (effectiveMinDuration task + (k : Int) * FIVE) = true)
            (claimGridCount task slotLo slotHi) : Nat) : Int)
            ≤ (claimGridCount task slotLo slotHi : Int) := by
          exact_mod_cast hgle
        have hmul := mul_le_mul_of_nonneg_right hcast
          (by decide : (0:Int) ≤ FIVE)
        omega
      have hM3 : FIVE ∣ effectiveMinDuration task +
          (Nat.findGreatest
            (fun k : Nat => is_duration_compatible task slotLo slotHi others
              (effectiveMinDuration task + (k : Int) * FIVE) = true)
            (claimGridCount task slotLo slotHi) : Int) * FIVE :=
        dvd_add hedvd ⟨_, mul_comm _ _⟩
      have hMmax : ∀ d, effectiveMinDuration task ≤ d →
          d ≤ maxPossibleDuration task slotLo slotHi → FIVE ∣ d →
          is_duration_compatible task slotLo slotHi others d = true →
          d ≤ effectiveMinDuration task +
            (Nat.findGreatest
              (fun k : Nat => is_duration_compatible task slotLo slotHi others
                (effectiveMinDuration task + (k : Int) * FIVE) = true)
              (claimGridCount task slotLo slotHi) : Int) * FIVE := by
        intro d hd1 hd2 hd3 hcomp
        obtain ⟨j, hj⟩ := dvd_sub hd3 hedvd
        have hj0 : 0 ≤ j := by
          rw [hF] at hj
          omega
        have hjn : j ≤ (claimGridCount task slotLo slotHi : Int) := by
          rw [← hspan] at hd2
          rw [hF] at hj hd2
          omega
        have hdeq : d = effectiveMinDuration task + j * FIVE := by
          rw [hF] at hj ⊢
          omega
        have hPk : is_duration_compatible task slotLo slotHi others
            (effectiveMinDuration task + (j.toNat : Int) * FIVE) = true := by
          rw [Int.toNat_of_nonneg hj0, ← hdeq]
          exact hcomp
        have hkn : j.toNat ≤ claimGridCount task slotLo slotHi := by
          omega
        have hkg := @Nat.le_findGreatest j.toNat
          (fun k : Nat => is_duration_compatible task slotLo slotHi others
            (effectiveMinDuration task + (k : Int) * FIVE) = true)
          (fun _ => instDecidableEqBool _ _)
          (claimGridCount task slotLo slotHi) hkn hPk
        have hkg' : (j.toNat : Int) ≤ (Nat.findGreatest
            (fun k : Nat => is_duration_compatible task slotLo slotHi others
              (effectiveMinDuration task + (k : Int) * FIVE) = true)
            (claimGridCount task slotLo slotHi) : Int) := by
          exact_mod_cast hkg
        rw [Int.toNat_of_nonneg hj0] at hkg'
        rw [hdeq, hF] at *
        omega
      have hmin_comp : is_duration_compatible task slotLo slotHi others
          (effectiveMinDuration task) = true := by
        refine is_duration_compatible_mono task slotLo slotHi others _ _ ?_ hM1 hPg
        rw [hF] at hele
        omega
      rw [if_neg (fun hc => hc hmin_comp)]
      have hsearch := searchBest_finds task slotLo slotHi others _ hM1 hM2 hM3
        hPg hMmax 10 (effectiveMinDuration task)
        (maxPossibleDuration task slotLo slotHi) none hedvd hmpdvd (le_refl _)
        (le_refl _) (by rw [hF]; omega) hM2 (Or.inl ⟨rfl, rfl⟩) ?_
      · rw [hsearch, Option.some_bind]
        unfold finalizeBest
        have hMpos : 0 < effectiveMinDuration task +
            (Nat.findGreatest
              (fun k : Nat => is_duration_compatible task slotLo slotHi others
                (effectiveMinDuration task + (k : Int) * FIVE) = true)
              (claimGridCount task slotLo slotHi) : Int) * FIVE := by
          rw [hF] at hele ⊢
          omega
        rw [if_neg (by omega : ¬ effectiveMinDuration task +
          (Nat.findGreatest
            (fun k : Nat => is_duration_compatible task slotLo slotHi others
              (effectiveMinDuration task + (k : Int) * FIVE) = true)
            (claimGridCount task slotLo slotHi) : Int) * FIVE = 0)]
        rw [round_timedelta_down_eq_self _ (by omega) hM3]
        rw [max_eq_left hM1, min_eq_left hM2]
        rw [if_pos ⟨hMpos, hPg⟩]
        rfl
      · have h10 : ((2:Int) ^ 10 - 2) = 1022 := by norm_num
        rw [h10]
        omega
    · rw [if_neg hany]
      have hnc : ¬ is_duration_compatible task slotLo slotHi others
          (effectiveMinDuration task) = true := by
        intro hc
        apply hany
        refine List.any_eq_true.2 ⟨0, List.mem_range.2 (by omega), ?_⟩
        simpa using hc
      rw [if_pos hnc]
      rfl

/-- C1 counterexample: on a 2048-step candidate range with no other
heap entries (so every grid duration is compatible),
`find_best_compatible_session` returns a session of 2046 five-minute
units while the maximum compatible multiple in
`[effective_min, max_candidate]` is 2048 units: the 10-iteration
binary search cannot converge on a range this wide, so the claim as
stated is false. -/
theorem C1_find_best_counterexample :
    find_best_compatible_session exTaskC1 0 (2048 * FIVE) []
      = some (0, 2046 * FIVE) ∧
    effectiveMinDuration exTaskC1 ≤ 2048 * FIVE ∧
    2048 * FIVE ≤ maxPossibleDuration exTaskC1 0 (2048 * FIVE) ∧
    is_duration_compatible exTaskC1 0 (2048 * FIVE) [] (2048 * FIVE) = true ∧
    (2046 * FIVE : Int) < 2048 * FIVE :=
  ⟨by decide, by decide, by decide, by decide, by decide⟩

/-- C1 witness: the amended theorem applied to a concrete 2-step
range. -/
theorem C1_find_best_amended_witness :
    (maxPossibleDuration exTaskC1w 0 600000000
      ≤ effectiveMinDuration exTaskC1w + 1022 * FIVE) ∧
    find_best_compatible_session exTaskC1w 0 600000000 []
      = (claimBestDur exTaskC1w 0 600000000 []).map
          (fun d => ((0:Int), 0 + d)) :=
  ⟨by decide, C1_find_best_amended exTaskC1w 0 600000000 [] (by decide)⟩

theorem exceptBind_ok {α β : Type} (a : α) (f : α → Except Err β) :
    (Except.ok a >>= f) = f a := rfl

theorem exceptBind_err {α β : Type} (e : Err) (f : α → Except Err β) :
    ((Except.error e : Except Err α) >>= f) = Except.error e := rfl

theorem applyEventDeps_ok (events : List Event) :
    ∀ (deps : List (String × DependencyType)) (d : WDomain),
      (∀ p ∈ deps, ∃ e, findEvent events p.1 = Except.ok e) →
      ∃ d', applyEventDeps events deps d = Except.ok d' := by
  intro deps
  induction deps with
  | nil => intro d _; exact ⟨d, rfl⟩
  | cons p rest ih =>
    intro d h
    obtain ⟨e, he⟩ := h p (List.mem_cons_self p rest)
    unfold applyEventDeps
    rw [he, exceptBind_ok]
    exact ih _ (fun q hq => h q (List.mem_cons_of_mem p hq))

theorem constructTaskDomain_classify (t : Task) (events : List Event)
    (start : Int) (days : Nat)
    (hdeps : ∀ p ∈ t.event_dependencies, ∃ e, findEvent events p.1 = Except.ok e) :
    (∃ d, constructTaskDomain t events start days = Except.ok d) ∨
    (∃ msg, constructTaskDomain t events start days
      = Except.error (.assertionFailed msg)) := by
  unfold constructTaskDomain
  by_cases h1 : ((t.time_domain start days).difference
      (buildEventsDomain events)).is_empty = true
  · right
    exact ⟨_, by rw [if_pos h1]; rfl⟩
  · rw [if_neg h1]
    obtain ⟨d', hd'⟩ := applyEventDeps_ok events t.event_dependencies
      ((t.time_domain start days).difference (buildEventsDomain events)) hdeps
    rw [hd', exceptBind_ok]
    by_cases h2 : d'.total_time < t.get_remaining_duration
    · right
      exact ⟨_, by rw [if_pos h2]; rfl⟩
    · left
      exact ⟨d', by rw [if_neg h2]; rfl⟩

theorem constructTaskDomain_underrun (t : Task) (events : List Event)
    (start : Int) (days : Nat) (D : WDomain)
    (hD : taskPrunedDomain t events start days = Except.ok D)
    (hlt : D.total_time < t.get_remaining_duration) :
    ∃ msg, constructTaskDomain t events start days
      = Except.error (.assertionFailed msg) := by
  unfold constructTaskDomain
  unfold taskPrunedDomain at hD
  by_cases h1 : ((t.time_domain start days).difference
      (buildEventsDomain events)).is_empty = true
  · exact ⟨_, by rw [if_pos h1]; rfl⟩
  · exact ⟨"task domain ran out of time after event dependency constraint",
      by rw [if_neg h1, hD, exceptBind_ok, if_pos hlt]; rfl⟩

theorem tasksDomains_underrun (events : List Event) (start : Int) (days : Nat) :
    ∀ tasks : List Task,
      (∀ t ∈ tasks, ∀ p ∈ t.event_dependencies,
        ∃ e, findEvent events p.1 = Except.ok e) →
      (∃ t ∈ tasks, ∃ D, taskPrunedDomain t events start days = Except.ok D ∧
        D.total_time < t.get_remaining_duration) →
      ∃ msg, tasksDomains events start days tasks
        = Except.error (.assertionFailed msg) := by
  intro tasks
  induction tasks with
  | nil =>
    intro _ h
    obtain ⟨t, ht, _⟩ := h
    exact absurd ht (List.not_mem_nil t)
  | cons t rest ih =>
    intro hdeps hex
    obtain ⟨t', ht'mem, D, hD, hlt⟩ := hex
    rcases List.mem_cons.1 ht'mem with heq | hmem
    · subst heq
      obtain ⟨msg, hmsg⟩ := constructTaskDomain_underrun t' events start days D hD hlt
      refine ⟨msg, ?_⟩
      unfold tasksDomains
      rw [hmsg, exceptBind_err]
    · rcases constructTaskDomain_classify t events start days
        (hdeps t (List.mem_cons_self t rest)) with ⟨d, hd⟩ | ⟨msg, hmsg⟩
      · obtain ⟨msg, hm⟩ := ih
          (fun q hq => hdeps q (List.mem_cons_of_mem t hq))
          ⟨t', hmem, D, hD, hlt⟩
        refine ⟨msg, ?_⟩
        unfold tasksDomains
        rw [hd, exceptBind_ok, hm, exceptBind_err]
      · refine ⟨msg, ?_⟩
        unfold tasksDomains
        rw [hmsg, exceptBind_err]

/-- C2 (amended): provided every event-dependency target of every task
refers to an existing event, if after profile projection, event
subtraction and event-dependency trims some task's constructed domain
has total time strictly below that task's remaining duration, then
presolve fails with an assertion failure (the spec's
Infeasible-Before-Search kind) before any session is produced, and
`solve` surfaces the same failure unchanged — no session list is
returned. -/
theorem C2_infeasible_before_search (tasks : List Task) (events : List Event)
    (start : Int) (days : Nat) (rng : Nat → String)
    (hdeps : ∀ t ∈ tasks, ∀ p ∈ t.event_dependencies,
      ∃ e, findEvent events p.1 = Except.ok e)
    (hunder : ∃ t ∈ tasks, ∃ D, taskPrunedDomain t events start days
      = Except.ok D ∧ D.total_time < t.get_remaining_duration) :
    ∃ msg, presolve tasks events start days
        = Except.error (.assertionFailed msg) ∧
      solve tasks events start days rng
        = Except.error (.assertionFailed msg) := by
  obtain ⟨msg, hm⟩ := tasksDomains_underrun events start days tasks hdeps hunder
  refine ⟨msg, ?_, ?_⟩
  · unfold presolve
    rw [hm, exceptBind_err]
  · unfold solve presolve
    rw [hm, exceptBind_err, exceptBind_err]

/-- C2 counterexample: with a task whose AFTER event-dependency names
a non-existent event listed before a task whose domain underruns its
duration, presolve fails with `KeyError`, not the
Infeasible-Before-Search assertion — even though the second task's
constructed domain (one day) is strictly smaller than its remaining
duration (three days). -/
theorem C2_counterexample :
    presolve [exTaskDangle, exTaskUnder] [] 0 1
        = Except.error (.keyError "EX") ∧
    taskPrunedDomain exTaskUnder [] 0 1
        = Except.ok ⟨[WPiece.mk 0 DAY 1]⟩ ∧
    (WDomain.mk [WPiece.mk 0 DAY 1]).total_time
        < exTaskUnder.get_remaining_duration ∧
    (∀ msg, Err.keyError "EX" ≠ Err.assertionFailed msg) :=
  ⟨by decide, by decide, by decide, fun _ => by simp⟩

/-- C2 witness: the amended theorem applied to the single underrunning
task with no events. -/
theorem C2_infeasible_witness :
    ((∀ t ∈ [exTaskUnder], ∀ p ∈ t.event_dependencies,
        ∃ e, findEvent [] p.1 = Except.ok e) ∧
      (∃ t ∈ [exTaskUnder], ∃ D, taskPrunedDomain t [] 0 1
        = Except.ok D ∧ D.total_time < t.get_remaining_duration)) ∧
    (∃ msg, presolve [exTaskUnder] [] 0 1
        = Except.error (.assertionFailed msg) ∧
      solve [exTaskUnder] [] 0 1 (fun _ => "u")
        = Except.error (.assertionFailed msg)) :=
  ⟨⟨by
      intro t ht p hp
      rw [List.mem_singleton.1 ht] at hp
      exact absurd hp (List.not_mem_nil p),
      ⟨exTaskUnder, List.mem_singleton.2 rfl, ⟨[WPiece.mk 0 DAY 1]⟩,
        by decide, by decide⟩⟩,
    C2_infeasible_before_search [exTaskUnder] [] 0 1 (fun _ => "u")
      (by
        intro t ht p hp
        rw [List.mem_singleton.1 ht] at hp
        exact absurd hp (List.not_mem_nil p))
      ⟨exTaskUnder, List.mem_singleton.2 rfl, ⟨[WPiece.mk 0 DAY 1]⟩,
        by decide, by decide⟩⟩

theorem qOfInt_eq (x : Int) : qOfInt x = (x : Rat) := by
  rw [qOfInt, Rat.mkRat_eq_div, Nat.cast_one, div_one]

theorem qAdd_eq (a b : Rat) : qAdd a b = a + b := by
  have ha : ((a.den : Rat)) ≠ 0 := Nat.cast_ne_zero.mpr a.den_ne_zero
  have hb : ((b.den : Rat)) ≠ 0 := Nat.cast_ne_zero.mpr b.den_ne_zero
  rw [qAdd, Rat.mkRat_eq_div]
  push_cast
  conv_rhs => rw [← Rat.num_div_den a, ← Rat.num_div_den b]
  rw [div_add_div _ _ ha hb, div_eq_div_iff (mul_ne_zero ha hb) (mul_ne_zero ha hb)]
  ring

theorem qMul_eq (a b : Rat) : qMul a b = a * b := by
  rw [qMul, Rat.mkRat_eq_div]
  push_cast
  conv_rhs => rw [← Rat.num_div_den a, ← Rat.num_div_den b]
  rw [div_mul_div_comm]

theorem qNeg_eq (a : Rat) : qNeg a = -a := by
  rw [qNeg, Rat.mkRat_eq_div]
  push_cast
  rw [neg_div, Rat.num_div_den]

theorem qAbs_eq (a : Rat) : qAbs a = |a| := by
  rw [qAbs, Rat.mkRat_eq_div]
  push_cast
  conv_rhs => rw [← Rat.num_div_den a]
  rw [abs_div, abs_of_nonneg (show (0 : Rat) ≤ (a.den : Rat) by positivity)]

theorem qInv_eq (a : Rat) : qInv a = a⁻¹ := by
  have h : a⁻¹ = (a.den : Rat) / (a.num : Rat) := by
    conv_lhs => rw [← Rat.num_div_den a]
    rw [inv_div]
  rw [qInv]
  by_cases h0 : 0 ≤ a.num
  · rw [if_pos h0, Rat.mkRat_eq_div, h]
    have hn : ((a.num.toNat : Nat) : Rat) = ((a.num : Int) : Rat) := by
      rw [← Int.toNat_of_nonneg h0]
      push_cast
      rw [Int.toNat_of_nonneg h0]
    rw [hn]
    push_cast
    rfl
  · rw [if_neg h0, Rat.mkRat_eq_div, h]
    have hn : (((-a.num).toNat : Nat) : Rat) = ((-a.num : Int) : Rat) := by
      rw [← Int.toNat_of_nonneg (by omega : (0 : Int) ≤ -a.num)]
      push_cast
      rw [Int.toNat_of_nonneg (by omega : (0 : Int) ≤ -a.num)]
    rw [hn]
    push_cast
    rw [neg_div_neg_eq]

theorem qDiv_eq (a b : Rat) : qDiv a b = a / b := by
  rw [qDiv, qMul_eq, qInv_eq, div_eq_mul_inv]

theorem qMax_eq (a b : Rat) : qMax a b = max a b := by
  rw [qMax, max_def]

theorem qSum_eq (l : List Rat) : qSum l = l.sum := by
  induction l with
  | nil =>
    show mkRat 0 1 = 0
    rw [Rat.mkRat_eq_div]
    norm_num
  | cons x xs ih =>
    show qAdd x (qSum xs) = x + xs.sum
    rw [qAdd_eq, ih]

theorem qSec_eq (x : Int) : qSec x = (x : Rat) / 1000000 := by
  rw [qSec, Rat.mkRat_eq_div]
  norm_num

theorem solveLoop_mod_uuid (rng1 rng2 : Nat → String) :
    ∀ (fuel : Nat) (st : SolveState) (acc1 acc2 : List Session) (k1 k2 : Nat),
      acc1.map eraseId = acc2.map eraseId →
      Except.map (fun r : List Session × List Task => (r.1.map eraseId, r.2))
          (solveLoop rng1 fuel st acc1 k1)
        = Except.map (fun r : List Session × List Task => (r.1.map eraseId, r.2))
          (solveLoop rng2 fuel st acc2 k2) := by
  intro fuel
  induction fuel with
  | zero => intro st acc1 acc2 k1 k2 h; rfl
  | succ fuel ih =>
    intro st acc1 acc2 k1 k2 h
    simp only [solveLoop]
    cases hstep : solveStepCore st with
    | error e => rfl
    | ok r =>
      rw [exceptBind_ok, exceptBind_ok]
      match r with
      | none =>
        show Except.ok (acc1.map eraseId, st.tasks)
          = Except.ok (acc2.map eraseId, st.tasks)
        rw [h]
      | some (none, st1) => exact ih st1 acc1 acc2 k1 k2 h
      | some (some (tid, sLo, sHi), st1) =>
        refine ih st1 _ _ (k1 + 1) (k2 + 1) ?_
        rw [List.map_append, List.map_append, h]
        rfl

/-- C5: solve is deterministic modulo the generated uuids: for every
input, two runs whose uuid streams differ arbitrarily return the same
result — identical errors, identical final task lists, and identical
session lists once each session's `session_id` is blanked.  (The
byte-equality asserted by the claim fails: see `C5_counterexample`.) -/
theorem C5_solve_deterministic_mod_uuid (tasks : List Task)
    (events : List Event) (start : Int) (days : Nat)
    (rng1 rng2 : Nat → String) :
    Except.map (fun r : List Session × List Task => (r.1.map eraseId, r.2))
        (solve tasks events start days rng1)
      = Except.map (fun r : List Session × List Task => (r.1.map eraseId, r.2))
        (solve tasks events start days rng2) := by
  unfold solve
  cases hp : presolve tasks events start days with
  | error e => rw [exceptBind_err, exceptBind_err]
  | ok pre =>
    rw [exceptBind_ok, exceptBind_ok]
    exact solveLoop_mod_uuid rng1 rng2 (solveFuel tasks)
      ⟨pre.2, pre.1, tasks⟩ [] [] 0 0 rfl

/-- C5 counterexample: the same input scheduled under two different
uuid streams yields outputs that differ (in the sessions'
`session_id`), so two runs of `solve` on identical inputs are not
byte-equal. -/
theorem C5_counterexample :
    solve [baseTask] [] 0 1 (fun _ => "a")
      ≠ solve [baseTask] [] 0 1 (fun _ => "b") := by decide

theorem bind_ok_inv {α β : Type} {m : Except Err α} {f : α → Except Err β}
    {b : β} (h : (m >>= f) = .ok b) : ∃ a, m = .ok a ∧ f a = .ok b := by
  cases m with
  | error e => rw [exceptBind_err] at h; cases h
  | ok a => rw [exceptBind_ok] at h; exact ⟨a, rfl, h⟩

theorem mem_of_getLastQ :
    ∀ {l : List HeapEntry} {a : HeapEntry}, l.getLast? = some a → a ∈ l := by
  intro l
  induction l with
  | nil => intro a h; cases h
  | cons x xs ih =>
    intro a h
    cases xs with
    | nil =>
      simp only [List.getLast?_singleton, Option.some.injEq] at h
      simp [h]
    | cons y ys =>
      rw [List.getLast?_cons_cons] at h
      exact List.mem_cons_of_mem x (ih h)

theorem getEntry_mem (l : List HeapEntry) (i : Nat) (e : HeapEntry)
    (h : getEntry l i = .ok e) : e ∈ l := by
  unfold getEntry at h
  split at h
  · cases h
    exact List.get?_mem (by assumption)
  · cases h

theorem mem_of_siftdownLoop :
    ∀ (fuel : Nat) (heap : List HeapEntry) (sp pos : Nat) (item : HeapEntry)
      (out : List HeapEntry),
      siftdownLoop fuel heap sp pos item = .ok out →
      ∀ x ∈ out, x ∈ heap ∨ x = item := by
  intro fuel
  induction fuel with
  | zero => intro heap sp pos item out h; cases h
  | succ fuel ih =>
    intro heap sp pos item out h x hx
    simp only [siftdownLoop] at h
    split at h
    · obtain ⟨parent, hpar, h⟩ := bind_ok_inv h
      obtain ⟨lt, hlt, h⟩ := bind_ok_inv h
      split at h
      · rcases ih _ _ _ _ _ h x hx with hmem | hit
        · rcases List.mem_or_eq_of_mem_set hmem with h1 | h1
          · exact Or.inl h1
          · exact Or.inl (h1 ▸ getEntry_mem _ _ _ hpar)
        · exact Or.inr hit
      · cases h
        rcases List.mem_or_eq_of_mem_set hx with h1 | h1
        · exact Or.inl h1
        · exact Or.inr h1
    · cases h
      rcases List.mem_or_eq_of_mem_set hx with h1 | h1
      · exact Or.inl h1
      · exact Or.inr h1

theorem mem_of_siftupLoop :
    ∀ (fuel : Nat) (heap : List HeapEntry) (pos p : Nat)
      (out : List HeapEntry),
      siftupLoop fuel heap pos = .ok (p, out) → ∀ x ∈ out, x ∈ heap := by
  intro fuel
  induction fuel with
  | zero => intro heap pos p out h; cases h
  | succ fuel ih =>
    intro heap pos p out h x hx
    simp only [siftupLoop] at h
    split at h
    · obtain ⟨cLeft, hcl, h⟩ := bind_ok_inv h
      split at h
      · obtain ⟨cRight, hcr, h⟩ := bind_ok_inv h
        obtain ⟨lt, hlt, h⟩ := bind_ok_inv h
        obtain ⟨y, hy, h⟩ := bind_ok_inv h
        obtain ⟨c, hc, h⟩ := bind_ok_inv h
        rcases List.mem_or_eq_of_mem_set (ih _ _ _ _ h x hx) with h1 | h1
        · exact h1
        · exact h1 ▸ getEntry_mem _ _ _ hc
      · obtain ⟨y, hy, h⟩ := bind_ok_inv h
        obtain ⟨c, hc, h⟩ := bind_ok_inv h
        rcases List.mem_or_eq_of_mem_set (ih _ _ _ _ h x hx) with h1 | h1
        · exact h1
        · exact h1 ▸ getEntry_mem _ _ _ hc
    · cases h
      exact hx

theorem mem_of_heappush (heap : List HeapEntry) (item : HeapEntry)
    (out : List HeapEntry) (h : heappush heap item = .ok out) :
    ∀ x ∈ out, x ∈ heap ∨ x = item := by
  intro x hx
  rcases mem_of_siftdownLoop _ _ _ _ _ _ h x hx with h1 | h1
  · rcases List.mem_append.1 h1 with h2 | h2
    · exact Or.inl h2
    · exact Or.inr (List.mem_singleton.1 h2)
  · exact Or.inr h1

theorem mem_of_heappop (heap : List HeapEntry) (e : HeapEntry)
    (rest : List HeapEntry) (h : heappop heap = .ok (e, rest)) :
    e ∈ heap ∧ ∀ x ∈ rest, x ∈ heap := by
  unfold heappop at h
  split at h
  · cases h
  · rename_i lastelt hlast
    have hlmem : lastelt ∈ heap := mem_of_getLastQ hlast
    split at h
    · cases h
      exact ⟨hlmem, by intro x hx; cases hx⟩
    · obtain ⟨ri, hri, h⟩ := bind_ok_inv h
      obtain ⟨pa, hpa, h⟩ := bind_ok_inv h
      obtain ⟨af, haf, h⟩ := bind_ok_inv h
      cases h
      refine ⟨List.dropLast_subset heap (getEntry_mem _ _ _ hri), ?_⟩
      intro x hx
      rcases mem_of_siftdownLoop _ _ _ _ _ _ haf x hx with h1 | h1
      · rcases List.mem_or_eq_of_mem_set h1 with h2 | h2
        · rcases List.mem_or_eq_of_mem_set
            (mem_of_siftupLoop _ _ _ _ _ hpa x h2) with h3 | h3
          · exact List.dropLast_subset heap h3
          · exact h3 ▸ hlmem
        · exact h2 ▸ hlmem
      · exact h1 ▸ hlmem

theorem rebuildHeap_no_id (i cid : String) (lo hi : Int) (ov : WDomain) :
    ∀ (fuel : Nat) (heap acc out : List HeapEntry),
      (∀ x ∈ heap, x.task.id ≠ i) → (∀ x ∈ acc, x.task.id ≠ i) →
      rebuildHeap cid lo hi ov fuel heap acc = .ok out →
      ∀ x ∈ out, x.task.id ≠ i := by
  intro fuel
  induction fuel with
  | zero => intro heap acc out _ _ h; cases h
  | succ fuel ih =>
    intro heap acc out hheap hacc h
    simp only [rebuildHeap] at h
    split at h
    · cases h
      exact hacc
    · obtain ⟨er, hpop, h⟩ := bind_ok_inv h
      have hermem := mem_of_heappop _ _ _ hpop
      split at h
      · obtain ⟨acc1, hpush, h⟩ := bind_ok_inv h
        refine ih er.2 acc1 out (fun x hx => hheap x (hermem.2 x hx)) ?_ h
        intro x hx
        rcases mem_of_heappush _ _ _ hpush x hx with h1 | h1
        · exact hacc x h1
        · exact h1 ▸ hheap er.1 hermem.1
      · split at h
        · cases h
        · obtain ⟨p, hp, h⟩ := bind_ok_inv h
          obtain ⟨acc1, hpush, h⟩ := bind_ok_inv h
          refine ih er.2 acc1 out (fun x hx => hheap x (hermem.2 x hx)) ?_ h
          intro x hx
          rcases mem_of_heappush _ _ _ hpush x hx with h1 | h1
          · exact hacc x h1
          · rw [h1]
            exact hheap er.1 hermem.1

theorem solveStepCore_no_id (i : String) (st : SolveState)
    (info : Option (String × Int × Int)) (st1 : SolveState)
    (hheap : ∀ x ∈ st.heap, x.task.id ≠ i)
    (h : solveStepCore st = .ok (some (info, st1))) :
    (∀ x ∈ st1.heap, x.task.id ≠ i) ∧
    (∀ tid lo hi, info = some (tid, lo, hi) → tid ≠ i) := by
  unfold solveStepCore at h
  split at h
  · exact Option.noConfusion (Except.ok.inj h)
  · obtain ⟨er, hpop, h⟩ := bind_ok_inv h
    have hermem := mem_of_heappop _ _ _ hpop
    have herid : er.1.task.id ≠ i := hheap er.1 hermem.1
    obtain ⟨slots, hslots, h⟩ := bind_ok_inv h
    split at h
    · cases h
    · split at h
      · rename_i hfind
        simp only [pure, Except.pure, Except.ok.injEq, Option.some.injEq,
          Prod.mk.injEq] at h
        obtain ⟨h1, h2⟩ := h
        subst h1
        subst h2
        refine ⟨fun x hx => hheap x (hermem.2 x hx), ?_⟩
        intro tid lo hi hcontra
        cases hcontra
      · rename_i sLo sHi hfind
        dsimp only at h
        split at h
        · split at h
          · cases h
          · obtain ⟨p, hp, h⟩ := bind_ok_inv h
            obtain ⟨heap1, hpush, h⟩ := bind_ok_inv h
            obtain ⟨heap2, hrb, h⟩ := bind_ok_inv h
            simp only [pure, Except.pure, Except.ok.injEq, Option.some.injEq,
              Prod.mk.injEq] at h
            obtain ⟨h1, h2⟩ := h
            subst h1
            subst h2
            constructor
            · refine rebuildHeap_no_id i _ _ _ _ _ heap1 [] _ ?_
                (by intro x hx; cases hx) hrb
              intro x hx
              rcases mem_of_heappush _ _ _ hpush x hx with h1 | h1
              · exact hheap x (hermem.2 x h1)
              · rw [h1]
                exact herid
            · intro tid lo hi heq
              cases heq
              exact herid
        · obtain ⟨heap2, hrb, h⟩ := bind_ok_inv h
          simp only [pure, Except.pure, Except.ok.injEq, Option.some.injEq,
            Prod.mk.injEq] at h
          obtain ⟨h1, h2⟩ := h
          subst h1
          subst h2
          constructor
          · exact rebuildHeap_no_id i _ _ _ _ _ er.2 [] _
              (fun x hx => hheap x (hermem.2 x hx))
              (by intro x hx; cases hx) hrb
          · intro tid lo hi heq
            cases heq
            exact herid

theorem solveLoop_no_new_id (i : String) (rng : Nat → String) :
    ∀ (fuel : Nat) (st : SolveState) (acc : List Session) (k : Nat)
      (r : List Session × List Task),
      (∀ x ∈ st.heap, x.task.id ≠ i) →
      solveLoop rng fuel st acc k = .ok r →
      ∀ s ∈ r.1, s.task_id = i → s ∈ acc := by
  intro fuel
  induction fuel with
  | zero => intro st acc k r _ h; cases h
  | succ fuel ih =>
    intro st acc k r hheap h
    simp only [solveLoop] at h
    obtain ⟨step, hstep, h⟩ := bind_ok_inv h
    match step with
    | none =>
      cases h
      intro s hs _
      exact hs
    | some (none, st1) =>
      exact ih st1 acc k r
        (solveStepCore_no_id i st none st1 hheap hstep).1 h
    | some (some (tid, sLo, sHi), st1) =>
      have hstep2 := solveStepCore_no_id i st (some (tid, sLo, sHi)) st1
        hheap hstep
      intro s hs hsid
      rcases List.mem_append.1 (ih st1 _ (k + 1) r hstep2.1 h s hs hsid)
        with h1 | h1
      · exact h1
      · exfalso
        have : s.task_id = tid := by
          rw [List.mem_singleton.1 h1]
        exact hstep2.2 tid sLo sHi rfl (this ▸ hsid)

/-- C7 (amended): when the popped task's candidate-slot list is
non-empty but no slot yields a compatible session, the solver skips
the task without raising: the step returns the remaining heap
unchanged (the entry is dropped, nothing pushed back), the overlap map
and task store untouched; and if no other heap entry carries that
task's id, the rest of the run never commits a session for it — every
later-committed session belongs to another task.  (When the candidate
list is empty the claim fails: the run aborts, see
`C7_counterexample`.) -/
theorem C7_skip_permanently (st : SolveState) (e : HeapEntry)
    (rest : List HeapEntry) (slots : List ((Int × Int) × Rat))
    (hne : st.heap.isEmpty = false)
    (hpop : heappop st.heap = .ok (e, rest))
    (hslots : sorted_slots
        (apply_min_session_length_constraint e.domain
          (min e.task.min_session_length e.task.get_remaining_duration))
        st.overlaps e.task
        (min (pyOr e.task.max_session_length e.task.get_remaining_duration)
          e.task.get_remaining_duration) = .ok slots)
    (hnonempty : slots.isEmpty = false)
    (hfind : findSlotSession e.task rest slots = none) :
    solveStepCore st = .ok (some (none, ⟨rest, st.overlaps, st.tasks⟩)) ∧
    ∀ (rng : Nat → String) (fuel : Nat) (acc : List Session) (k : Nat)
      (r : List Session × List Task),
      (∀ x ∈ rest, x.task.id ≠ e.task.id) →
      solveLoop rng fuel ⟨rest, st.overlaps, st.tasks⟩ acc k = .ok r →
      ∀ s ∈ r.1, s.task_id = e.task.id → s ∈ acc := by
  constructor
  · simp only [solveStepCore, hne, Bool.false_eq_true, if_false, hpop,
      exceptBind_ok, hslots, hnonempty, hfind]
    rfl
  · intro rng fuel acc k r hid hloop
    exact solveLoop_no_new_id e.task.id rng fuel
      ⟨rest, st.overlaps, st.tasks⟩ acc k r hid hloop

/-- C7 counterexample: when a popped task's candidate-slot list is
empty (every surviving slot is shorter than its minimum session
length), the solver raises AssertionError instead of skipping, and the
abort prevents the other, perfectly schedulable task from receiving
any session — scheduled alone, that task gets its session. -/
theorem C7_counterexample :
    solve [exTaskLong, exTaskC7c] [exEventBig] 0 1 (fun _ => "u")
        = .error (.assertionFailed
          "task domain has no slots after min session length constraint") ∧
    Except.map (fun r : List Session × List Task =>
        r.1.map (fun s => (s.task_id, s.start_time, s.end_time)))
      (solve [exTaskC7c] [exEventBig] 0 1 (fun _ => "u"))
        = .ok [(exTaskC7c.id, 0, FIVE)] := by
  constructor
  · decide
  · decide

/-- C7 witness: the amended theorem applied to the concrete
post-presolve state of tasks exTaskA7 (popped first, no compatible
slot) and exTaskB7. -/
theorem C7_skip_witness :
    presolve [exTaskA7, exTaskB7] [] 0 1
        = .ok (exOverlapsC7, [exEntryA7, exEntryB7]) ∧
    heappop exStateC7.heap = .ok (exEntryA7, [exEntryB7]) ∧
    findSlotSession exEntryA7.task [exEntryB7] exSlotsC7 = none ∧
    (solveStepCore exStateC7
        = .ok (some (none,
            ⟨[exEntryB7], exStateC7.overlaps, exStateC7.tasks⟩)) ∧
      ∀ (rng : Nat → String) (fuel : Nat) (acc : List Session) (k : Nat)
        (r : List Session × List Task),
        (∀ x ∈ [exEntryB7], x.task.id ≠ exEntryA7.task.id) →
        solveLoop rng fuel ⟨[exEntryB7], exStateC7.overlaps, exStateC7.tasks⟩
          acc k = .ok r →
        ∀ s ∈ r.1, s.task_id = exEntryA7.task.id → s ∈ acc) :=
  ⟨by decide, by decide, by decide,
    C7_skip_permanently exStateC7 exEntryA7 [exEntryB7] exSlotsC7
      (by decide) (by decide) (by decide) (by decide) (by decide)⟩

theorem getQ_lt :
    ∀ (l : List HeapEntry) (n : Nat) (x : HeapEntry),
      l.get? n = some x → n < l.length := by
  intro l
  induction l with
  | nil => intro n x h; cases h
  | cons y ys ih =>
    intro n x h
    cases n with
    | zero => simp
    | succ m => exact Nat.succ_lt_succ (ih m x h)

theorem getQ_set_self :
    ∀ (l : List HeapEntry) (n : Nat) (a : HeapEntry), n < l.length →
      (l.set n a).get? n = some a := by
  intro l
  induction l with
  | nil => intro n a h; cases h
  | cons y ys ih =>
    intro n a h
    cases n with
    | zero => rfl
    | succ m => exact ih m a (Nat.lt_of_succ_lt_succ h)

theorem getQ_set_ne :
    ∀ (l : List HeapEntry) (n m : Nat) (a : HeapEntry), n ≠ m →
      (l.set n a).get? m = l.get? m := by
  intro l
  induction l with
  | nil => intro n m a _; rfl
  | cons y ys ih =>
    intro n m a hne
    cases n with
    | zero =>
      cases m with
      | zero => exact absurd rfl hne
      | succ k => rfl
    | succ n' =>
      cases m with
      | zero => rfl
      | succ k => exact ih n' k a (fun he => hne (by rw [he]))

theorem countP_set (p : HeapEntry → Bool) :
    ∀ (l : List HeapEntry) (n : Nat) (a x : HeapEntry),
      l.get? n = some x →
      (l.set n a).countP p + (if p x then 1 else 0)
        = l.countP p + (if p a then 1 else 0) := by
  intro l
  induction l with
  | nil => intro n a x h; cases h
  | cons y ys ih =>
    intro n a x h
    cases n with
    | zero =>
      cases h
      simp only [List.set, List.countP_cons]
      omega
    | succ m =>
      have := ih m a x h
      simp only [List.set, List.countP_cons]
      omega

theorem dropLast_append_of_getLastQ :
    ∀ {l : List HeapEntry} {a : HeapEntry}, l.getLast? = some a →
      l.dropLast ++ [a] = l := by
  intro l
  induction l with
  | nil => intro a h; cases h
  | cons x xs ih =>
    intro a h
    cases xs with
    | nil =>
      simp only [List.getLast?_singleton, Option.some.injEq] at h
      simp [h]
    | cons y ys =>
      rw [List.getLast?_cons_cons] at h
      have := ih h
      simp only [List.dropLast_cons₂, List.cons_append, this]

theorem siftdownLoop_countP (p : HeapEntry → Bool) :
    ∀ (fuel : Nat) (heap : List HeapEntry) (sp pos : Nat) (item : HeapEntry)
      (out : List HeapEntry),
      siftdownLoop fuel heap sp pos item = .ok out → pos < heap.length →
      out.countP p = ((heap.set pos item).countP p) ∧
      out.length = heap.length := by
  intro fuel
  induction fuel with
  | zero => intro heap sp pos item out h; cases h
  | succ fuel ih =>
    intro heap sp pos item out h hpos
    simp only [siftdownLoop] at h
    split at h
    · rename_i hsp
      obtain ⟨parent, hpar, h⟩ := bind_ok_inv h
      obtain ⟨lt, hlt, h⟩ := bind_ok_inv h
      have hparq : heap.get? ((pos - 1) / 2) = some parent := by
        unfold getEntry at hpar
        split at hpar
        · cases hpar; assumption
        · cases hpar
      have hparlt : (pos - 1) / 2 < heap.length := getQ_lt _ _ _ hparq
      split at h
      · have hne : (pos - 1) / 2 ≠ pos := by omega
        have hrec := ih (heap.set pos parent) sp ((pos - 1) / 2) item out h
          (by rw [List.length_set]; exact hparlt)
        obtain ⟨x, hx⟩ : ∃ x, heap.get? pos = some x := by
          cases hq : heap.get? pos with
          | none =>
            exfalso
            have := List.get?_eq_none.mp hq
            omega
          | some x => exact ⟨x, rfl⟩
        have hq2 : (heap.set pos parent).get? ((pos - 1) / 2) = some parent := by
          rw [getQ_set_ne heap pos ((pos - 1) / 2) parent (fun he => hne he.symm)]
          exact hparq
        have c1 := countP_set p (heap.set pos parent) ((pos - 1) / 2) item
          parent hq2
        have c2 := countP_set p heap pos parent x hx
        have c3 := countP_set p heap pos item x hx
        refine ⟨?_, by rw [hrec.2, List.length_set]⟩
        omega
      · cases h
        exact ⟨rfl, List.length_set _ _ _⟩
    · cases h
      exact ⟨rfl, List.length_set _ _ _⟩

theorem siftupLoop_spec (p : HeapEntry → Bool) (X : HeapEntry) :
    ∀ (fuel : Nat) (heap : List HeapEntry) (pos ph : Nat)
      (out : List HeapEntry),
      siftupLoop fuel heap pos = .ok (ph, out) → pos < heap.length →
      out.length = heap.length ∧ ph < out.length ∧
      (out.set ph X).countP p = ((heap.set pos X).countP p) := by
  intro fuel
  induction fuel with
  | zero => intro heap pos ph out h; cases h
  | succ fuel ih =>
    intro heap pos ph out h hpos
    simp only [siftupLoop] at h
    split at h
    · rename_i hguard
      obtain ⟨cLeft, hcl, h⟩ := bind_ok_inv h
      split at h
      · rename_i hright
        obtain ⟨cRight, hcr, h⟩ := bind_ok_inv h
        obtain ⟨lt, hlt, h⟩ := bind_ok_inv h
        obtain ⟨y, hy, h⟩ := bind_ok_inv h
        obtain ⟨c, hc, h⟩ := bind_ok_inv h
        have hyv : y = if ¬ lt = true then 2 * pos + 1 + 1 else 2 * pos + 1 := by
          cases hy; rfl
        have hylt : y < heap.length := by
          rw [hyv]
          split
          · exact hright
          · exact hguard
        have hyne : y ≠ pos := by
          rw [hyv]
          split <;> omega
        have hcq0 : heap.get? y = some c := by
          unfold getEntry at hc
          split at hc
          · cases hc; assumption
          · cases hc
        have hcq : (heap.set pos c).get? y = some c := by
          rw [getQ_set_ne heap pos y c (fun he => hyne he.symm)]
          exact hcq0
        obtain ⟨x, hx⟩ : ∃ x, heap.get? pos = some x := by
          cases hq : heap.get? pos with
          | none =>
            exfalso
            have := List.get?_eq_none.mp hq
            omega
          | some x => exact ⟨x, rfl⟩
        have hrec := ih (heap.set pos c) y ph out h
          (by rw [List.length_set]; exact hylt)
        have c1 := countP_set p (heap.set pos c) y X c hcq
        have c2 := countP_set p heap pos c x hx
        have c3 := countP_set p heap pos X x hx
        refine ⟨by rw [hrec.1, List.length_set], hrec.2.1, ?_⟩
        omega
      · obtain ⟨y, hy, h⟩ := bind_ok_inv h
        obtain ⟨c, hc, h⟩ := bind_ok_inv h
        have hyv : y = 2 * pos + 1 := by cases hy; rfl
        have hylt : y < heap.length := by rw [hyv]; exact hguard
        have hyne : y ≠ pos := by rw [hyv]; omega
        have hcq0 : heap.get? y = some c := by
          unfold getEntry at hc
          split at hc
          · cases hc; assumption
          · cases hc
        have hcq : (heap.set pos c).get? y = some c := by
          rw [getQ_set_ne heap pos y c (fun he => hyne he.symm)]
          exact hcq0
        obtain ⟨x, hx⟩ : ∃ x, heap.get? pos = some x := by
          cases hq : heap.get? pos with
          | none =>
            exfalso
            have := List.get?_eq_none.mp hq
            omega
          | some x => exact ⟨x, rfl⟩
        have hrec := ih (heap.set pos c) y ph out h
          (by rw [List.length_set]; exact hylt)
        have c1 := countP_set p (heap.set pos c) y X c hcq
        have c2 := countP_set p heap pos c x hx
        have c3 := countP_set p heap pos X x hx
        refine ⟨by rw [hrec.1, List.length_set], hrec.2.1, ?_⟩
        omega
    · cases h
      exact ⟨rfl, hpos, rfl⟩

theorem heappush_countP (p : HeapEntry → Bool) (heap : List HeapEntry)
    (item : HeapEntry) (out : List HeapEntry)
    (h : heappush heap item = .ok out) :
    out.countP p = heap.countP p + (if p item then 1 else 0) := by
  unfold heappush at h
  have hq : (heap ++ [item]).get? heap.length = some item :=
    List.get?_concat_length heap item
  have hcnt := (siftdownLoop_countP p _ _ _ _ _ _ h
    (by rw [List.length_append]; simp)).1
  have c1 := countP_set p (heap ++ [item]) heap.length item item hq
  have c2 : (heap ++ [item]).countP p
      = heap.countP p + (if p item then 1 else 0) := by
    rw [List.countP_append]
    simp [List.countP_cons]
  rw [hcnt]
  omega

theorem heappop_countP (p : HeapEntry → Bool) (heap : List HeapEntry)
    (e : HeapEntry) (rest : List HeapEntry)
    (h : heappop heap = .ok (e, rest)) :
    rest.countP p + (if p e then 1 else 0) = heap.countP p := by
  unfold heappop at h
  split at h
  · cases h
  · rename_i lastelt hlast
    have hde := dropLast_append_of_getLastQ hlast
    split at h
    · rename_i hemp
      cases h
      have : heap.dropLast = [] := List.isEmpty_iff.mp hemp
      rw [← hde, this]
      simp [List.countP_cons]
    · rename_i hemp
      obtain ⟨ri, hri, h⟩ := bind_ok_inv h
      obtain ⟨pa, hpa, h⟩ := bind_ok_inv h
      obtain ⟨af, haf, h⟩ := bind_ok_inv h
      cases h
      have h0lt : 0 < heap.dropLast.length := by
        by_cases hq : heap.dropLast = []
        · rw [hq] at hemp; simp at hemp
        · exact List.length_pos.mpr hq
      have hriq : heap.dropLast.get? 0 = some e := by
        unfold getEntry at hri
        split at hri
        · cases hri; assumption
        · cases hri
      have hsu := siftupLoop_spec p lastelt _ _ _ _ _ hpa
        (by rw [List.length_set]; exact h0lt)
      have hphlt : pa.1 < (pa.2.set pa.1 lastelt).length := by
        rw [List.length_set]; exact hsu.2.1
      have hsd := siftdownLoop_countP p _ _ _ _ _ _ haf hphlt
      have hq1 : (pa.2.set pa.1 lastelt).get? pa.1 = some lastelt :=
        getQ_set_self _ _ _ hsu.2.1
      have c1 := countP_set p (pa.2.set pa.1 lastelt) pa.1 lastelt
        lastelt hq1
      have c2 := countP_set p heap.dropLast 0 lastelt e hriq
      have c3 := hsu.2.2
      have hca : heap.countP p = heap.dropLast.countP p
          + (if p lastelt then 1 else 0) := by
        conv_lhs => rw [← hde]
        rw [List.countP_append]
        simp [List.countP_cons]
      have hq2 : ((heap.dropLast.set 0 lastelt).set 0 lastelt).countP p
          = (heap.dropLast.set 0 lastelt).countP p := by
        have hq3 : (heap.dropLast.set 0 lastelt).get? 0 = some lastelt :=
          getQ_set_self _ _ _ h0lt
        have := countP_set p (heap.dropLast.set 0 lastelt) 0 lastelt
          lastelt hq3
        omega
      rw [hsd.1]
      omega

theorem rebuildHeap_taskProp (P : Task → Prop) (cid : String)
    (lo hi : Int) (ov : WDomain) :
    ∀ (fuel : Nat) (heap acc out : List HeapEntry),
      (∀ x ∈ heap, P x.task) → (∀ x ∈ acc, P x.task) →
      rebuildHeap cid lo hi ov fuel heap acc = .ok out →
      ∀ x ∈ out, P x.task := by
  intro fuel
  induction fuel with
  | zero => intro heap acc out _ _ h; cases h
  | succ fuel ih =>
    intro heap acc out hheap hacc h
    simp only [rebuildHeap] at h
    split at h
    · cases h
      exact hacc
    · obtain ⟨er, hpop, h⟩ := bind_ok_inv h
      have hermem := mem_of_heappop _ _ _ hpop
      split at h
      · obtain ⟨acc1, hpush, h⟩ := bind_ok_inv h
        refine ih er.2 acc1 out (fun x hx => hheap x (hermem.2 x hx)) ?_ h
        intro x hx
        rcases mem_of_heappush _ _ _ hpush x hx with h1 | h1
        · exact hacc x h1
        · exact h1 ▸ hheap er.1 hermem.1
      · split at h
        · cases h
        · obtain ⟨pm, hpm, h⟩ := bind_ok_inv h
          obtain ⟨acc1, hpush, h⟩ := bind_ok_inv h
          refine ih er.2 acc1 out (fun x hx => hheap x (hermem.2 x hx)) ?_ h
          intro x hx
          rcases mem_of_heappush _ _ _ hpush x hx with h1 | h1
          · exact hacc x h1
          · rw [h1]
            exact hheap er.1 hermem.1

theorem rebuildHeap_countId (i cid : String) (lo hi : Int) (ov : WDomain) :
    ∀ (fuel : Nat) (heap acc out : List HeapEntry),
      rebuildHeap cid lo hi ov fuel heap acc = .ok out →
      out.countP (fun x => x.task.id == i)
        = heap.countP (fun x => x.task.id == i)
          + acc.countP (fun x => x.task.id == i) := by
  intro fuel
  induction fuel with
  | zero => intro heap acc out h; cases h
  | succ fuel ih =>
    intro heap acc out h
    simp only [rebuildHeap] at h
    split at h
    · rename_i hemp
      cases h
      have : heap = [] := List.isEmpty_iff.mp hemp
      rw [this]
      simp
    · obtain ⟨er, hpop, h⟩ := bind_ok_inv h
      have hcnt := heappop_countP (fun x => x.task.id == i) _ _ _ hpop
      split at h
      · obtain ⟨acc1, hpush, h⟩ := bind_ok_inv h
        have hcnt2 := heappush_countP (fun x => x.task.id == i) _ _ _ hpush
        have := ih er.2 acc1 out h
        omega
      · split at h
        · cases h
        · obtain ⟨pm, hpm, h⟩ := bind_ok_inv h
          obtain ⟨acc1, hpush, h⟩ := bind_ok_inv h
          have hcnt2 := heappush_countP (fun x => x.task.id == i) _ _ _ hpush
          have hcnt2b : acc1.countP (fun x => x.task.id == i)
              = acc.countP (fun x => x.task.id == i)
                + (if er.1.task.id == i then 1 else 0) := hcnt2
          have hcntb : er.2.countP (fun x => x.task.id == i)
              + (if er.1.task.id == i then 1 else 0)
              = heap.countP (fun x => x.task.id == i) := hcnt
          have := ih er.2 acc1 out h
          omega

theorem presolveHeap_mem (ranks : List (String × Int)) (ov : WDomain) :
    ∀ (l : List (Task × WDomain)) (acc out : List HeapEntry),
      presolveHeap ranks ov l acc = .ok out →
      ∀ e ∈ out, e ∈ acc ∨ e.task ∈ l.map Prod.fst := by
  intro l
  induction l with
  | nil =>
    intro acc out h e he
    cases h
    exact Or.inl he
  | cons td rest ih =>
    intro acc out h e he
    simp only [presolveHeap] at h
    split at h
    · cases h
    · obtain ⟨pm, hpm, h⟩ := bind_ok_inv h
      obtain ⟨r, hr, h⟩ := bind_ok_inv h
      obtain ⟨heap1, hpush, h⟩ := bind_ok_inv h
      rcases ih heap1 out h e he with h1 | h1
      · rcases mem_of_heappush _ _ _ hpush e h1 with h2 | h2
        · exact Or.inl h2
        · refine Or.inr ?_
          rw [h2]
          exact List.mem_cons_self _ _
      · exact Or.inr (List.mem_cons_of_mem _ h1)

theorem presolveHeap_countId (i : String) (ranks : List (String × Int))
    (ov : WDomain) :
    ∀ (l : List (Task × WDomain)) (acc out : List HeapEntry),
      presolveHeap ranks ov l acc = .ok out →
      out.countP (fun e => e.task.id == i)
        = acc.countP (fun e => e.task.id == i)
          + l.countP (fun td => td.1.id == i) := by
  intro l
  induction l with
  | nil =>
    intro acc out h
    cases h
    simp
  | cons td rest ih =>
    intro acc out h
    simp only [presolveHeap] at h
    split at h
    · cases h
    · obtain ⟨pm, hpm, h⟩ := bind_ok_inv h
      obtain ⟨r, hr, h⟩ := bind_ok_inv h
      obtain ⟨heap1, hpush, h⟩ := bind_ok_inv h
      have hcnt : heap1.countP (fun e => e.task.id == i)
          = acc.countP (fun e => e.task.id == i)
            + (if td.1.id == i then 1 else 0) :=
        heappush_countP (fun e => e.task.id == i) _ _ _ hpush
      have := ih heap1 out h
      simp only [List.countP_cons] at this ⊢
      omega

theorem tasksDomains_fst (events : List Event) (start : Int) (days : Nat) :
    ∀ (tasks : List Task) (tds : List (Task × WDomain)),
      tasksDomains events start days tasks = .ok tds →
      tds.map Prod.fst = tasks := by
  intro tasks
  induction tasks with
  | nil =>
    intro tds h
    cases h
    rfl
  | cons t rest ih =>
    intro tds h
    simp only [tasksDomains] at h
    obtain ⟨d, hd, h⟩ := bind_ok_inv h
    obtain ⟨tl, htl, h⟩ := bind_ok_inv h
    cases h
    simp only [List.map_cons, ih tl htl]

theorem maxPossibleDuration_le_rem (task : Task) (slotLo slotHi : Int) :
    maxPossibleDuration task slotLo slotHi ≤ task.get_remaining_duration := by
  unfold maxPossibleDuration round_timedelta_down Task.get_remaining_duration
  have hF : (FIVE : Int) = 300000000 := rfl
  rw [hF]
  split
  · omega
  · rename_i hx
    have hdm := Int.ediv_add_emod
      (min (min (pyOrBig task.max_session_length)
        (max (task.duration - task.time_spent) 0)) (slotHi - slotLo)) 300000000
    have hml := Int.emod_nonneg
      (min (min (pyOrBig task.max_session_length)
        (max (task.duration - task.time_spent) 0)) (slotHi - slotLo))
      (by decide : (300000000:Int) ≠ 0)
    have hmu := Int.emod_lt_of_pos
      (min (min (pyOrBig task.max_session_length)
        (max (task.duration - task.time_spent) 0)) (slotHi - slotLo))
      (by decide : (0:Int) < 300000000)
    omega

theorem is_duration_compatible_gt_one (task : Task) (slotLo slotHi : Int)
    (others : List HeapEntry) (d : Int)
    (h : is_duration_compatible task slotLo slotHi others d = true) : 1 < d := by
  unfold is_duration_compatible at h
  split at h
  · cases h
  · rename_i hle
    omega

theorem find_best_some_spec (task : Task) (slotLo slotHi : Int)
    (others : List HeapEntry) (a b : Int)
    (h : find_best_compatible_session task slotLo slotHi others = some (a, b)) :
    a = slotLo ∧ 1 < b - a ∧ FIVE ∣ b - a ∧
    b - a ≤ task.get_remaining_duration ∧
    effectiveMinDuration task ≤ b - a ∧
    b - a ≤ maxPossibleDuration task slotLo slotHi := by
  unfold find_best_compatible_session at h
  split at h
  · cases h
  · rename_i hguard
    split at h
    · cases h
    · cases hsb : searchBest task slotLo slotHi others 10
          (effectiveMinDuration task)
          (maxPossibleDuration task slotLo slotHi) none with
      | none => rw [hsb] at h; cases h
      | some best =>
        rw [hsb] at h
        replace h : finalizeBest task slotLo slotHi others best
            = some (a, b) := h
        unfold finalizeBest at h
        split at h
        · cases h
        · split at h
          · rename_i hcond
            cases h
            have hv1 : 1 < min (max (round_timedelta_down best)
                (effectiveMinDuration task))
                (maxPossibleDuration task slotLo slotHi) :=
              is_duration_compatible_gt_one _ _ _ _ _ hcond.2
            have hd1 := (round_timedelta_down_props best).2
            have hd2 := (effectiveMinDuration_props task).1
            have hd3 := (maxPossibleDuration_props task slotLo slotHi).2
            have hle := maxPossibleDuration_le_rem task slotLo slotHi
            have hsimp : slotLo + min (max (round_timedelta_down best)
                (effectiveMinDuration task))
                (maxPossibleDuration task slotLo slotHi) - slotLo
                = min (max (round_timedelta_down best)
                  (effectiveMinDuration task))
                  (maxPossibleDuration task slotLo slotHi) := by ring
            refine ⟨rfl, by omega, ?_, by omega, by omega, by omega⟩
            rw [hsimp]
            rcases min_cases (max (round_timedelta_down best)
                (effectiveMinDuration task))
                (maxPossibleDuration task slotLo slotHi) with hm | hm
            · rw [hm.1]
              rcases max_cases (round_timedelta_down best)
                  (effectiveMinDuration task) with hm2 | hm2
              · rw [hm2.1]; exact hd1
              · rw [hm2.1]; exact hd2
            · rw [hm.1]; exact hd3
          · cases h

set_option maxHeartbeats 1000000 in
theorem findSlotSession_some_spec (task : Task) (rest : List HeapEntry) :
    ∀ (slots : List ((Int × Int) × Rat)) (a b : Int),
      findSlotSession task rest slots = some (a, b) →
      1 < b - a ∧ FIVE ∣ b - a ∧ b - a ≤ task.get_remaining_duration ∧
      effectiveMinDuration task ≤ b - a ∧
      ∃ shi, b - a ≤ maxPossibleDuration task a shi := by
  intro slots
  induction slots with
  | nil => intro a b h; cases h
  | cons s more ih =>
    intro a b h
    obtain ⟨⟨s1, s2⟩, sc⟩ := s
    simp only [findSlotSession] at h
    cases hfb : find_best_compatible_session task s1 s2 rest with
    | none =>
      rw [hfb] at h
      exact ih a b h
    | some iv =>
      rw [hfb] at h
      obtain ⟨iv1, iv2⟩ := iv
      replace h : (some (iv1, iv2) : Option (Int × Int)) = some (a, b) := h
      cases h
      obtain ⟨ha, h2, h3, h4, h5, h6⟩ := find_best_some_spec _ _ _ _ _ _ hfb
      refine ⟨h2, h3, h4, h5, s2, ?_⟩
      rw [ha] at h6 ⊢
      exact h6

theorem sessionsSum_append (i : String) (l : List Session) (s : Session) :
    sessionsSum i (l ++ [s])
      = sessionsSum i l + (if s.task_id = i then s.duration else 0) := by
  by_cases hs : s.task_id = i <;>
    simp [sessionsSum, List.filter_append, hs]

theorem beqId_eq_one (x y : String) (h : x = y) :
    (if x == y then (1:Nat) else 0) = 1 := by
  simp [h]

theorem beqId_eq_zero (x y : String) (h : x ≠ y) :
    (if x == y then (1:Nat) else 0) = 0 := by
  simp [h]

theorem updateTaskList_self_mem (store : List Task) (cur newTask : Task)
    (hmem : cur ∈ store) :
    newTask ∈ updateTaskList store cur.id newTask := by
  have h2 : (if cur.id = cur.id then newTask else cur)
      ∈ updateTaskList store cur.id newTask :=
    List.mem_map_of_mem _ hmem
  rw [if_pos rfl] at h2
  exact h2

theorem updateTaskList_mem_of_ne (store : List Task) (id : String)
    (newTask cur : Task) (hmem : cur ∈ store) (hne : ¬ cur.id = id) :
    cur ∈ updateTaskList store id newTask := by
  have h2 : (if cur.id = id then newTask else cur)
      ∈ updateTaskList store id newTask :=
    List.mem_map_of_mem _ hmem
  rw [if_neg hne] at h2
  exact h2

theorem solveStepCore_account (t0 : Task) (st : SolveState)
    (info : Option (String × Int × Int)) (st1 : SolveState) (cur : Task)
    (hcur_mem : cur ∈ st.tasks)
    (hcur_uniq : ∀ u ∈ st.tasks, u.id = t0.id → u = cur)
    (hcur_id : cur.id = t0.id)
    (hcur_ts : cur.time_spent = 0)
    (hcur_nonneg : 0 ≤ cur.duration)
    (hheap_task : ∀ e ∈ st.heap, e.task.id = t0.id → e.task = cur)
    (hheap_cnt : st.heap.countP (fun e => e.task.id == t0.id) ≤ 1)
    (h : solveStepCore st = .ok (some (info, st1))) :
    ∃ cur1 amt,
      cur1 ∈ st1.tasks ∧ (∀ u ∈ st1.tasks, u.id = t0.id → u = cur1) ∧
      cur1 = { cur with duration := cur.duration - amt } ∧
      0 ≤ amt ∧ amt ≤ cur.duration ∧
      (∀ e ∈ st1.heap, e.task.id = t0.id → e.task = cur1) ∧
      st1.heap.countP (fun e => e.task.id == t0.id) ≤ 1 ∧
      amt = (match info with
             | some (tid, lo, hi) => if tid = t0.id then hi - lo else 0
             | none => 0) := by
  unfold solveStepCore at h
  split at h
  · exact Option.noConfusion (Except.ok.inj h)
  · obtain ⟨er, hpop, h⟩ := bind_ok_inv h
    have hermem := mem_of_heappop _ _ _ hpop
    have hcntpop : er.2.countP (fun e => e.task.id == t0.id)
        + (if er.1.task.id == t0.id then 1 else 0)
        = st.heap.countP (fun e => e.task.id == t0.id) :=
      heappop_countP (fun e => e.task.id == t0.id) _ _ _ hpop
    obtain ⟨slots, hslots, h⟩ := bind_ok_inv h
    split at h
    · cases h
    · split at h
      · rename_i hfind
        simp only [pure, Except.pure, Except.ok.injEq, Option.some.injEq,
          Prod.mk.injEq] at h
        obtain ⟨h1, h2⟩ := h
        subst h1
        subst h2
        refine ⟨cur, 0, hcur_mem, hcur_uniq, ?_, le_refl 0,
          hcur_nonneg, ?_, ?_, rfl⟩
        · rw [sub_zero]
        · intro e he hid
          exact hheap_task e (hermem.2 e he) hid
        · show er.2.countP (fun e => e.task.id == t0.id) ≤ 1
          omega
      · rename_i sLo sHi hfind
        have hbounds := findSlotSession_some_spec _ _ _ _ _ hfind
        have hrem : er.1.task.id = t0.id →
            er.1.task.get_remaining_duration = cur.duration := by
          intro hid
          rw [hheap_task er.1 hermem.1 hid]
          unfold Task.get_remaining_duration
          omega
        dsimp only at h
        split at h
        · split at h
          · cases h
          · obtain ⟨pm, hpm, h⟩ := bind_ok_inv h
            obtain ⟨heap1, hpush, h⟩ := bind_ok_inv h
            obtain ⟨heap2, hrb, h⟩ := bind_ok_inv h
            simp only [pure, Except.pure, Except.ok.injEq, Option.some.injEq,
              Prod.mk.injEq] at h
            obtain ⟨h1, h2⟩ := h
            subst h1
            subst h2
            have hpc := heappush_countP (fun e => e.task.id == t0.id) _ _ _ hpush
            have hpushcnt : heap1.countP (fun e => e.task.id == t0.id)
                = er.2.countP (fun e => e.task.id == t0.id)
                  + (if er.1.task.id == t0.id then 1 else 0) := hpc
            have hrbcnt := rebuildHeap_countId t0.id _ _ _ _ _ _ _ _ hrb
            have hpushmem := mem_of_heappush _ _ _ hpush
            by_cases hid : er.1.task.id = t0.id
            · have htask : er.1.task = cur := hheap_task er.1 hermem.1 hid
              have hone := beqId_eq_one er.1.task.id t0.id hid
              have hrest0 : er.2.countP (fun e => e.task.id == t0.id) = 0 := by
                omega
              have hrestnone : ∀ e ∈ er.2, ¬ e.task.id = t0.id := by
                intro e he
                have := List.countP_eq_zero.mp hrest0 e he
                simpa using this
              refine ⟨{ cur with duration := cur.duration - (sHi - sLo) },
                sHi - sLo, ?_, ?_, rfl, by omega, ?_, ?_, ?_, ?_⟩
              · show _ ∈ updateTaskList st.tasks er.1.task.id _
                rw [htask]
                exact updateTaskList_self_mem st.tasks cur _ hcur_mem
              · show ∀ u ∈ updateTaskList st.tasks er.1.task.id _, _
                rw [htask]
                intro u hu huid
                obtain ⟨v, hv, hfv⟩ := List.mem_map.1 hu
                by_cases hvid : v.id = cur.id
                · rw [if_pos hvid] at hfv
                  rw [← hfv]
                · rw [if_neg hvid] at hfv
                  rw [← hfv] at huid
                  exact absurd (huid.trans hcur_id.symm) hvid
              · have := hbounds.2.2.1
                rw [hrem hid] at this
                exact this
              · show ∀ e ∈ heap2, _
                intro e he hid2
                refine rebuildHeap_taskProp
                  (fun t => t.id = t0.id →
                    t = { cur with duration := cur.duration - (sHi - sLo) })
                  _ _ _ _ _ heap1 [] heap2 ?_ (by intro x hx; cases hx) hrb
                  e he hid2
                intro x hx
                rcases hpushmem x hx with h1 | h1
                · intro hxid
                  exact absurd hxid (hrestnone x h1)
                · intro _
                  rw [h1, htask]
              · show heap2.countP (fun e => e.task.id == t0.id) ≤ 1
                have hnil : ([] : List HeapEntry).countP
                    (fun e => e.task.id == t0.id) = 0 := rfl
                omega
              · show sHi - sLo = if er.1.task.id = t0.id then sHi - sLo else 0
                rw [if_pos hid]
            · have hzero := beqId_eq_zero er.1.task.id t0.id hid
              refine ⟨cur, 0, ?_, ?_, by rw [sub_zero], le_refl 0,
                hcur_nonneg, ?_, ?_, ?_⟩
              · show _ ∈ updateTaskList st.tasks er.1.task.id _
                exact updateTaskList_mem_of_ne _ _ _ _ hcur_mem
                  (by rw [hcur_id]; exact fun he => hid he.symm)
              · show ∀ u ∈ updateTaskList st.tasks er.1.task.id _, _
                intro u hu huid
                obtain ⟨v, hv, hfv⟩ := List.mem_map.1 hu
                by_cases hvid : v.id = er.1.task.id
                · rw [if_pos hvid] at hfv
                  rw [← hfv] at huid
                  exact absurd huid hid
                · rw [if_neg hvid] at hfv
                  exact hcur_uniq u (hfv ▸ hv) huid
              · show ∀ e ∈ heap2, _
                intro e he hid2
                refine rebuildHeap_taskProp
                  (fun t => t.id = t0.id → t = cur)
                  _ _ _ _ _ heap1 [] heap2 ?_ (by intro x hx; cases hx) hrb
                  e he hid2
                intro x hx
                rcases hpushmem x hx with h1 | h1
                · intro hxid
                  exact hheap_task x (hermem.2 x h1) hxid
                · intro hxid
                  rw [h1] at hxid
                  exact absurd hxid hid
              · show heap2.countP (fun e => e.task.id == t0.id) ≤ 1
                have hnil : ([] : List HeapEntry).countP
                    (fun e => e.task.id == t0.id) = 0 := rfl
                omega
              · show (0:Int) = if er.1.task.id = t0.id then sHi - sLo else 0
                rw [if_neg hid]
        · obtain ⟨heap2, hrb, h⟩ := bind_ok_inv h
          simp only [pure, Except.pure, Except.ok.injEq, Option.some.injEq,
            Prod.mk.injEq] at h
          obtain ⟨h1, h2⟩ := h
          subst h1
          subst h2
          have hrbcnt := rebuildHeap_countId t0.id _ _ _ _ _ _ _ _ hrb
          by_cases hid : er.1.task.id = t0.id
          · have htask : er.1.task = cur := hheap_task er.1 hermem.1 hid
            have hone := beqId_eq_one er.1.task.id t0.id hid
            have hrest0 : er.2.countP (fun e => e.task.id == t0.id) = 0 := by
              omega
            have hrestnone : ∀ e ∈ er.2, ¬ e.task.id = t0.id := by
              intro e he
              have := List.countP_eq_zero.mp hrest0 e he
              simpa using this
            refine ⟨{ cur with duration := cur.duration - (sHi - sLo) },
              sHi - sLo, ?_, ?_, rfl, by omega, ?_, ?_, ?_, ?_⟩
            · show _ ∈ updateTaskList st.tasks er.1.task.id _
              rw [htask]
              exact updateTaskList_self_mem st.tasks cur _ hcur_mem
            · show ∀ u ∈ updateTaskList st.tasks er.1.task.id _, _
              rw [htask]
              intro u hu huid
              obtain ⟨v, hv, hfv⟩ := List.mem_map.1 hu
              by_cases hvid : v.id = cur.id
              · rw [if_pos hvid] at hfv
                rw [← hfv]
              · rw [if_neg hvid] at hfv
                rw [← hfv] at huid
                exact absurd (huid.trans hcur_id.symm) hvid
            · have := hbounds.2.2.1
              rw [hrem hid] at this
              exact this
            · show ∀ e ∈ heap2, _
              intro e he hid2
              refine rebuildHeap_taskProp
                (fun t => t.id = t0.id →
                  t = { cur with duration := cur.duration - (sHi - sLo) })
                _ _ _ _ _ er.2 [] heap2 ?_ (by intro x hx; cases hx) hrb
                e he hid2
              intro x hx hxid
              exact absurd hxid (hrestnone x hx)
            · show heap2.countP (fun e => e.task.id == t0.id) ≤ 1
              have hnil : ([] : List HeapEntry).countP
                  (fun e => e.task.id == t0.id) = 0 := rfl
              omega
            · show sHi - sLo = if er.1.task.id = t0.id then sHi - sLo else 0
              rw [if_pos hid]
          · have hzero := beqId_eq_zero er.1.task.id t0.id hid
            refine ⟨cur, 0, ?_, ?_, by rw [sub_zero], le_refl 0,
              hcur_nonneg, ?_, ?_, ?_⟩
            · show _ ∈ updateTaskList st.tasks er.1.task.id _
              exact updateTaskList_mem_of_ne _ _ _ _ hcur_mem
                (by rw [hcur_id]; exact fun he => hid he.symm)
            · show ∀ u ∈ updateTaskList st.tasks er.1.task.id _, _
              intro u hu huid
              obtain ⟨v, hv, hfv⟩ := List.mem_map.1 hu
              by_cases hvid : v.id = er.1.task.id
              · rw [if_pos hvid] at hfv
                rw [← hfv] at huid
                exact absurd huid hid
              · rw [if_neg hvid] at hfv
                exact hcur_uniq u (hfv ▸ hv) huid
            · show ∀ e ∈ heap2, _
              intro e he hid2
              refine rebuildHeap_taskProp
                (fun t => t.id = t0.id → t = cur)
                _ _ _ _ _ er.2 [] heap2 ?_ (by intro x hx; cases hx) hrb
                e he hid2
              intro x hx hxid
              exact hheap_task x (hermem.2 x hx) hxid
            · show heap2.countP (fun e => e.task.id == t0.id) ≤ 1
              have hnil : ([] : List HeapEntry).countP
                  (fun e => e.task.id == t0.id) = 0 := rfl
              omega
            · show (0:Int) = if er.1.task.id = t0.id then sHi - sLo else 0
              rw [if_neg hid]

theorem solveLoop_account (rng : Nat → String) (t0 : Task) :
    ∀ (fuel : Nat) (st : SolveState) (acc : List Session) (k : Nat)
      (r : List Session × List Task) (cur : Task),
      cur ∈ st.tasks →
      (∀ u ∈ st.tasks, u.id = t0.id → u = cur) →
      cur.id = t0.id →
      cur.time_spent = 0 →
      cur.duration = t0.duration - sessionsSum t0.id acc →
      0 ≤ cur.duration →
      (∀ e ∈ st.heap, e.task.id = t0.id → e.task = cur) →
      st.heap.countP (fun e => e.task.id == t0.id) ≤ 1 →
      solveLoop rng fuel st acc k = .ok r →
      ∃ t', t' ∈ r.2 ∧ (∀ u ∈ r.2, u.id = t0.id → u = t') ∧
        t'.id = t0.id ∧ t'.time_spent = 0 ∧
        t'.duration = t0.duration - sessionsSum t0.id r.1 ∧
        0 ≤ t'.duration := by
  intro fuel
  induction fuel with
  | zero => intro st acc k r cur _ _ _ _ _ _ _ _ h; cases h
  | succ fuel ih =>
    intro st acc k r cur hmem huniq hid hts hdur hnn hht hcnt h
    simp only [solveLoop] at h
    obtain ⟨step, hstep, h⟩ := bind_ok_inv h
    match step with
    | none =>
      cases h
      exact ⟨cur, hmem, huniq, hid, hts, hdur, hnn⟩
    | some (none, st1) =>
      obtain ⟨cur1, amt, h1mem, h1uniq, h1eq, h1amt0, h1amtle, h1ht, h1cnt,
        h1match⟩ :=
        solveStepCore_account t0 st none st1 cur hmem huniq hid hts hnn
          hht hcnt hstep
      have hamt : amt = 0 := h1match
      have h1id : cur1.id = t0.id := by rw [h1eq]; exact hid
      have h1ts : cur1.time_spent = 0 := by rw [h1eq]; exact hts
      have h1dur : cur1.duration = cur.duration - amt := by rw [h1eq]
      exact ih st1 acc k r cur1 h1mem h1uniq h1id h1ts
        (by omega) (by omega) h1ht h1cnt h
    | some (some (tid, lo, hi), st1) =>
      obtain ⟨cur1, amt, h1mem, h1uniq, h1eq, h1amt0, h1amtle, h1ht, h1cnt,
        h1match⟩ :=
        solveStepCore_account t0 st (some (tid, lo, hi)) st1 cur hmem huniq
          hid hts hnn hht hcnt hstep
      have hamt : amt = if tid = t0.id then hi - lo else 0 := h1match
      have h1id : cur1.id = t0.id := by rw [h1eq]; exact hid
      have h1ts : cur1.time_spent = 0 := by rw [h1eq]; exact hts
      have h1dur : cur1.duration = cur.duration - amt := by rw [h1eq]
      have hsdur : sessionsSum t0.id (acc ++ [⟨tid, rng k, lo, hi, false⟩])
          = sessionsSum t0.id acc + (if tid = t0.id then hi - lo else 0) := by
        rw [sessionsSum_append]
        rfl
      exact ih st1 (acc ++ [⟨tid, rng k, lo, hi, false⟩]) (k + 1) r cur1
        h1mem h1uniq h1id h1ts (by rw [hsdur]; omega) (by omega) h1ht h1cnt h

set_option maxHeartbeats 2000000 in
/-- C3: remaining-duration accounting.  For a task list with distinct
ids, any input task with zero `time_spent` and non-negative duration,
and any successful run of `solve`: the returned task store holds
exactly one task with that id, and its `get_remaining_duration`
equals the task's pre-call duration minus the summed durations of the
returned sessions carrying its id — zero for fully scheduled tasks and
strictly positive for under-scheduled ones (the difference is provably
non-negative). -/
theorem C3_remaining_accounting (tasks : List Task) (events : List Event)
    (start : Int) (days : Nat) (rng : Nat → String) (t0 : Task)
    (sessions : List Session) (tasksOut : List Task)
    (hmem : t0 ∈ tasks)
    (hnodup : (tasks.map Task.id).Nodup)
    (hts : t0.time_spent = 0)
    (hd0 : 0 ≤ t0.duration)
    (hrun : solve tasks events start days rng = .ok (sessions, tasksOut)) :
    ∃ t', t' ∈ tasksOut ∧ (∀ u ∈ tasksOut, u.id = t0.id → u = t') ∧
      t'.id = t0.id ∧
      t'.get_remaining_duration = t0.duration - sessionsSum t0.id sessions ∧
      0 ≤ t0.duration - sessionsSum t0.id sessions := by
  have huniq : ∀ u ∈ tasks, u.id = t0.id → u = t0 := by
    intro u hu hid
    exact List.inj_on_of_nodup_map hnodup hu hmem hid
  unfold solve at hrun
  obtain ⟨pre, hpre, hrun⟩ := bind_ok_inv hrun
  unfold presolve at hpre
  obtain ⟨tds, htds, hpre⟩ := bind_ok_inv hpre
  obtain ⟨ranks, hranks, hpre⟩ := bind_ok_inv hpre
  obtain ⟨heap0, hph, hpre⟩ := bind_ok_inv hpre
  have hpp : pre.2 = heap0 := by
    have h2 : ((overlap_domains (tds.map (fun td => td.2)), heap0)
        : WDomain × List HeapEntry) = pre := Except.ok.inj hpre
    rw [← h2]
  have hfst := tasksDomains_fst events start days tasks tds htds
  have hhtasks : ∀ e ∈ heap0, e.task.id = t0.id → e.task = t0 := by
    intro e he hid
    rcases presolveHeap_mem _ _ _ _ _ hph e he with h1 | h1
    · cases h1
    · rw [hfst] at h1
      exact huniq e.task h1 hid
  have hcnt0 : heap0.countP (fun e => e.task.id == t0.id) ≤ 1 := by
    have hpc := presolveHeap_countId t0.id _ _ _ _ _ hph
    have hc1a := (List.countP_map (fun t : Task => t.id == t0.id)
      Prod.fst tds).symm
    have hc1 : tds.countP (fun td => td.1.id == t0.id)
        = (tds.map Prod.fst).countP (fun t => t.id == t0.id) := hc1a
    have hc2a := (List.countP_map (fun s : String => s == t0.id)
      Task.id tasks).symm
    have hc2 : tasks.countP (fun t => t.id == t0.id)
        = (tasks.map Task.id).countP (fun s => s == t0.id) := hc2a
    have hc3 : (tasks.map Task.id).count t0.id ≤ 1 :=
      List.nodup_iff_count_le_one.mp hnodup t0.id
    have hc4 : (tasks.map Task.id).count t0.id
        = (tasks.map Task.id).countP (fun s => s == t0.id) := rfl
    have hnil : ([] : List HeapEntry).countP
        (fun e => e.task.id == t0.id) = 0 := rfl
    rw [hfst] at hc1
    omega
  have hs0 : sessionsSum t0.id [] = 0 := rfl
  have hhtasks2 : ∀ e ∈ (⟨pre.2, pre.1, tasks⟩ : SolveState).heap,
      e.task.id = t0.id → e.task = t0 := by
    show ∀ e ∈ pre.2, _
    rw [hpp]
    exact hhtasks
  have hcnt2 : (⟨pre.2, pre.1, tasks⟩ : SolveState).heap.countP
      (fun e => e.task.id == t0.id) ≤ 1 := by
    show pre.2.countP _ ≤ 1
    rw [hpp]
    exact hcnt0
  obtain ⟨t', h1, h2, h3, h4, h5, h6⟩ :=
    solveLoop_account rng t0 (solveFuel tasks)
      ⟨pre.2, pre.1, tasks⟩ [] 0
      (sessions, tasksOut) t0 hmem huniq rfl hts (by omega)
      hd0 hhtasks2 hcnt2 hrun
  have h1b : t' ∈ tasksOut := h1
  have h2b : ∀ u ∈ tasksOut, u.id = t0.id → u = t' := h2
  have h5b : t'.duration = t0.duration - sessionsSum t0.id sessions := h5
  refine ⟨t', h1b, h2b, h3, ?_, by omega⟩
  unfold Task.get_remaining_duration
  omega

/-- C3 witness: the accounting theorem applied to a concrete two-task
run in which exTaskB7 is fully scheduled (one 10-minute session) and
exTaskA7 is skipped. -/
theorem C3_witness :
    (exTaskB7 ∈ [exTaskA7, exTaskB7] ∧
     ([exTaskA7, exTaskB7].map Task.id).Nodup ∧
     exTaskB7.time_spent = 0 ∧ 0 ≤ exTaskB7.duration ∧
     solve [exTaskA7, exTaskB7] [] 0 1 (fun _ => "u")
       = .ok ([⟨"b7", "u", 0, 600000000, false⟩],
           [exTaskA7, { exTaskB7 with duration := 0 }])) ∧
    (∃ t', t' ∈ [exTaskA7, { exTaskB7 with duration := 0 }] ∧
      (∀ u ∈ [exTaskA7, { exTaskB7 with duration := 0 }],
        u.id = exTaskB7.id → u = t') ∧
      t'.id = exTaskB7.id ∧
      t'.get_remaining_duration
        = exTaskB7.duration
          - sessionsSum exTaskB7.id [⟨"b7", "u", 0, 600000000, false⟩] ∧
      0 ≤ exTaskB7.duration
          - sessionsSum exTaskB7.id [⟨"b7", "u", 0, 600000000, false⟩]) :=
  ⟨⟨by decide, by decide, by decide, by decide, by decide⟩,
    C3_remaining_accounting [exTaskA7, exTaskB7] [] 0 1 (fun _ => "u")
      exTaskB7 [⟨"b7", "u", 0, 600000000, false⟩]
      [exTaskA7, { exTaskB7 with duration := 0 }]
      (by decide) (by decide) (by decide) (by decide) (by decide)⟩

theorem solveStepCore_commit_bounds (st : SolveState) (tid : String)
    (lo hi : Int) (st1 : SolveState)
    (h : solveStepCore st = .ok (some (some (tid, lo, hi), st1))) :
    1 < hi - lo ∧ FIVE ∣ hi - lo ∧
    ∃ t shi, t.id = tid ∧ effectiveMinDuration t ≤ hi - lo ∧
      hi - lo ≤ maxPossibleDuration t lo shi := by
  unfold solveStepCore at h
  split at h
  · exact Option.noConfusion (Except.ok.inj h)
  · obtain ⟨er, hpop, h⟩ := bind_ok_inv h
    obtain ⟨slots, hslots, h⟩ := bind_ok_inv h
    split at h
    · cases h
    · split at h
      · rename_i hfind
        simp only [pure, Except.pure, Except.ok.injEq, Option.some.injEq,
          Prod.mk.injEq] at h
        exact absurd h.1 (by intro hc; cases hc)
      · rename_i sLo sHi hfind
        have hbounds := findSlotSession_some_spec _ _ _ _ _ hfind
        dsimp only at h
        split at h
        · split at h
          · cases h
          · obtain ⟨pm, hpm, h⟩ := bind_ok_inv h
            obtain ⟨heap1, hpush, h⟩ := bind_ok_inv h
            obtain ⟨heap2, hrb, h⟩ := bind_ok_inv h
            simp only [pure, Except.pure, Except.ok.injEq, Option.some.injEq,
              Prod.mk.injEq] at h
            obtain ⟨⟨htid, hlo, hhi⟩, _⟩ := h
            subst hlo
            subst hhi
            obtain ⟨hb1, hb2, hb3, hb4, shi0, hb5⟩ := hbounds
            exact ⟨hb1, hb2, er.1.task, shi0, htid, hb4, hb5⟩
        · obtain ⟨heap2, hrb, h⟩ := bind_ok_inv h
          simp only [pure, Except.pure, Except.ok.injEq, Option.some.injEq,
            Prod.mk.injEq] at h
          obtain ⟨⟨htid, hlo, hhi⟩, _⟩ := h
          subst hlo
          subst hhi
          obtain ⟨hb1, hb2, hb3, hb4, shi0, hb5⟩ := hbounds
          exact ⟨hb1, hb2, er.1.task, shi0, htid, hb4, hb5⟩

theorem solveLoop_sessions_div (rng : Nat → String) :
    ∀ (fuel : Nat) (st : SolveState) (acc : List Session) (k : Nat)
      (r : List Session × List Task),
      (∀ s ∈ acc, FIVE ∣ s.duration ∧ 1 < s.duration ∧
        ∃ t shi, t.id = s.task_id ∧ effectiveMinDuration t ≤ s.duration ∧
          s.duration ≤ maxPossibleDuration t s.start_time shi) →
      solveLoop rng fuel st acc k = .ok r →
      ∀ s ∈ r.1, FIVE ∣ s.duration ∧ 1 < s.duration ∧
        ∃ t shi, t.id = s.task_id ∧ effectiveMinDuration t ≤ s.duration ∧
          s.duration ≤ maxPossibleDuration t s.start_time shi := by
  intro fuel
  induction fuel with
  | zero => intro st acc k r _ h; cases h
  | succ fuel ih =>
    intro st acc k r hacc h
    simp only [solveLoop] at h
    obtain ⟨step, hstep, h⟩ := bind_ok_inv h
    match step with
    | none =>
      cases h
      exact hacc
    | some (none, st1) => exact ih st1 acc k r hacc h
    | some (some (tid, lo, hi), st1) =>
      have hb := solveStepCore_commit_bounds st tid lo hi st1 hstep
      refine ih st1 _ (k + 1) r ?_ h
      intro s hs
      rcases List.mem_append.1 hs with h1 | h1
      · exact hacc s h1
      · rw [List.mem_singleton.1 h1]
        have hd : (⟨tid, rng k, lo, hi, false⟩ : Session).duration
            = hi - lo := rfl
        have hts : (⟨tid, rng k, lo, hi, false⟩ : Session).task_id
            = tid := rfl
        have hst : (⟨tid, rng k, lo, hi, false⟩ : Session).start_time
            = lo := rfl
        rw [hd, hts, hst]
        obtain ⟨hb1, hb2, t, shi0, htid, hb4, hb5⟩ := hb
        exact ⟨hb2, hb1, t, shi0, htid, hb4, hb5⟩

/-- C4 (amended): every session returned by solve has a duration that
is a positive multiple of five minutes — strictly more than the one
microsecond tolerance, and divisible by FIVE — lying within
`[effective_min, max_possible]` for its task at commit time: there is
a task object t (the popped task with its remaining duration at the
moment the session was committed) with t.id the session's task id and
a slot upper bound shi (the chosen candidate slot's end) such that
`effectiveMinDuration t ≤ duration ≤ maxPossibleDuration t start shi`,
where `start` is the session's start instant (the slot's lower bound).
The claimed grid alignment of the start and end instants fails: see
`C4_counterexample`. -/
theorem C4_sessions_on_grid (tasks : List Task) (events : List Event)
    (start : Int) (days : Nat) (rng : Nat → String)
    (sessions : List Session) (tasksOut : List Task)
    (hrun : solve tasks events start days rng = .ok (sessions, tasksOut)) :
    ∀ s ∈ sessions, FIVE ∣ s.duration ∧ 1 < s.duration ∧
      ∃ t shi, t.id = s.task_id ∧ effectiveMinDuration t ≤ s.duration ∧
        s.duration ≤ maxPossibleDuration t s.start_time shi := by
  unfold solve at hrun
  obtain ⟨pre, hpre, hrun⟩ := bind_ok_inv hrun
  exact solveLoop_sessions_div rng (solveFuel tasks) ⟨pre.2, pre.1, tasks⟩
    [] 0 (sessions, tasksOut) (by intro s hs; cases hs) hrun

/-- C4 counterexample: with an event occupying the first seven minutes
of the day, the committed session starts at the event's end — instant
420000000 µs (7 minutes), which is not on the 5-minute grid, and ends
at 720000000 µs (12 minutes), also off-grid; the claim that all
session start and end instants are 5-minute aligned is false. -/
theorem C4_counterexample :
    solve [baseTask] [exEvent7] 0 1 (fun _ => "u")
        = .ok ([⟨"t", "u", 420000000, 720000000, false⟩],
            [{ baseTask with duration := 0 }]) ∧
    ¬ (FIVE ∣ (420000000 : Int)) ∧ ¬ (FIVE ∣ (720000000 : Int)) ∧
    FIVE ∣ ((720000000 : Int) - 420000000) := by
  refine ⟨by decide, by decide, by decide, by decide⟩

/-- C4 witness: the amended theorem applied to the same concrete run;
the single returned session's duration (five minutes) is a positive
multiple of FIVE within the commit-time duration bounds of its
task. -/
theorem C4_witness :
    solve [baseTask] [exEvent7] 0 1 (fun _ => "u")
        = .ok ([⟨"t", "u", 420000000, 720000000, false⟩],
            [{ baseTask with duration := 0 }]) ∧
    (∀ s ∈ [(⟨"t", "u", 420000000, 720000000, false⟩ : Session)],
      FIVE ∣ s.duration ∧ 1 < s.duration ∧
      ∃ t shi, t.id = s.task_id ∧ effectiveMinDuration t ≤ s.duration ∧
        s.duration ≤ maxPossibleDuration t s.start_time shi) :=
  ⟨by decide,
    C4_sessions_on_grid [baseTask] [exEvent7] 0 1 (fun _ => "u")
      [⟨"t", "u", 420000000, 720000000, false⟩]
      [{ baseTask with duration := 0 }] (by decide)⟩

theorem lookupStr_cons_eq (k n : String) (w : Int)
    (rest : List (String × Int)) :
    ((k, w) :: rest).lookup n = if n = k then some w else rest.lookup n := by
  by_cases hb : n = k
  · subst hb
    simp [List.lookup]
  · have hbeq : (n == k) = false := by simp [hb]
    simp [List.lookup, hbeq, hb]

theorem lookupStr_append_some (l l2 : List (String × Int)) (n : String)
    (v : Int) :
    l.lookup n = some v → (l ++ l2).lookup n = some v := by
  induction l with
  | nil => intro h; cases h
  | cons p rest ih =>
    intro h
    obtain ⟨k, w⟩ := p
    rw [lookupStr_cons_eq] at h
    rw [List.cons_append, lookupStr_cons_eq]
    by_cases hb : n = k
    · rw [if_pos hb] at h ⊢
      exact h
    · rw [if_neg hb] at h ⊢
      exact ih h

theorem lookupStr_none_of_not_mem (l : List (String × Int)) (n : String) :
    n ∉ l.map Prod.fst → l.lookup n = none := by
  induction l with
  | nil => intro _; rfl
  | cons p rest ih =>
    intro h
    obtain ⟨k, w⟩ := p
    simp only [List.map_cons, List.mem_cons] at h
    push_neg at h
    rw [lookupStr_cons_eq, if_neg h.1]
    exact ih h.2

theorem lookupStr_append_of_not_mem (l l2 : List (String × Int))
    (n : String) :
    n ∉ l.map Prod.fst → (l ++ l2).lookup n = l2.lookup n := by
  induction l with
  | nil => intro _; rfl
  | cons p rest ih =>
    intro h
    obtain ⟨k, w⟩ := p
    simp only [List.map_cons, List.mem_cons] at h
    push_neg at h
    rw [List.cons_append, lookupStr_cons_eq, if_neg h.1]
    exact ih h.2

theorem lookupStr_isSome_of_mem (l : List (String × Int)) (n : String) :
    n ∈ l.map Prod.fst → ∃ v, l.lookup n = some v := by
  induction l with
  | nil => intro h; cases h
  | cons p rest ih =>
    intro h
    obtain ⟨k, w⟩ := p
    by_cases hb : n = k
    · exact ⟨w, by rw [lookupStr_cons_eq, if_pos hb]⟩
    · simp only [List.map_cons, List.mem_cons] at h
      rcases h with h | h
      · exact absurd h hb
      · obtain ⟨v, hv⟩ := ih h
        exact ⟨v, by rw [lookupStr_cons_eq, if_neg hb]; exact hv⟩

theorem mem_of_lookupStr_some (l : List (String × Int)) (n : String)
    (v : Int) :
    l.lookup n = some v → (n, v) ∈ l := by
  induction l with
  | nil => intro h; cases h
  | cons p rest ih =>
    intro h
    obtain ⟨k, w⟩ := p
    rw [lookupStr_cons_eq] at h
    by_cases hb : n = k
    · rw [if_pos hb] at h
      rw [Option.some.injEq] at h
      subst hb
      subst h
      exact List.mem_cons_self _ _
    · rw [if_neg hb] at h
      exact List.mem_cons_of_mem _ (ih h)

theorem lookupStr_eq_of_mem_nodup (l : List (String × Int)) (n : String)
    (v : Int) :
    (l.map Prod.fst).Nodup → (n, v) ∈ l → l.lookup n = some v := by
  induction l with
  | nil => intro _ h; cases h
  | cons p rest ih =>
    intro hnd h
    obtain ⟨k, w⟩ := p
    rw [List.map_cons, List.nodup_cons] at hnd
    rw [lookupStr_cons_eq]
    rcases List.mem_cons.mp h with he | hm
    · rw [Prod.mk.injEq] at he
      rw [if_pos he.1, he.2]
    · have hnm : n ∈ rest.map Prod.fst := by
        have h3 := List.mem_map_of_mem Prod.fst hm
        exact h3
      have hne : n ≠ k := by
        intro he2
        rw [he2] at hnm
        exact hnd.1 hnm
      rw [if_neg hne]
      exact ih hnd.2 hm

theorem lookupStr_map_const (roots : List String) (c : Int) (n : String) :
    (roots.map (fun id => (id, c))).lookup n
      = if n ∈ roots then some c else none := by
  induction roots with
  | nil => rfl
  | cons r rest ih =>
    rw [List.map_cons, lookupStr_cons_eq]
    by_cases hb : n = r
    · rw [if_pos hb, if_pos (by rw [hb]; exact List.mem_cons_self _ _)]
    · rw [if_neg hb, ih]
      by_cases hm : n ∈ rest
      · rw [if_pos hm, if_pos (List.mem_cons_of_mem _ hm)]
      · rw [if_neg hm, if_neg (by simp [List.mem_cons, hb, hm])]

theorem chainLe_map_const (c : Int) (l : List String) :
    List.Chain' (fun a b => a ≤ b) (l.map (fun _ => c)) := by
  induction l with
  | nil => simp
  | cons x xs ih =>
    cases xs with
    | nil => simp
    | cons y ys =>
      rw [List.map_cons, List.map_cons]
      rw [List.map_cons] at ih
      exact List.chain'_cons.mpr ⟨le_refl c, ih⟩

theorem nodup_length_le (l l' : List String) (hl : l.Nodup)
    (hs : ∀ x ∈ l, x ∈ l') : l.length ≤ l'.length := by
  have h1 : l.toFinset ⊆ l'.toFinset := by
    intro x hx
    rw [List.mem_toFinset] at hx ⊢
    exact hs x hx
  have h2 := Finset.card_le_card h1
  rw [List.toFinset_card_of_nodup hl] at h2
  exact le_trans h2 (List.toFinset_card_le l')

theorem mem_of_nodup_length_le (l l' : List String) (hl : l.Nodup)
    (hl' : l'.Nodup) (hs : ∀ x ∈ l, x ∈ l')
    (hlen : l'.length ≤ l.length) : ∀ x ∈ l', x ∈ l := by
  have h1 : l.toFinset ⊆ l'.toFinset := by
    intro x hx
    rw [List.mem_toFinset] at hx ⊢
    exact hs x hx
  have hcard : l'.toFinset.card ≤ l.toFinset.card := by
    rw [List.toFinset_card_of_nodup hl, List.toFinset_card_of_nodup hl']
    exact hlen
  have heq := Finset.eq_of_subset_of_card_le h1 hcard
  intro x hx
  have : x ∈ l'.toFinset := List.mem_toFinset.mpr hx
  rw [← heq] at this
  exact List.mem_toFinset.mp this

theorem two_le_length_of_pair (l : List String) (a b : String)
    (ha : a ∈ l) (hb : b ∈ l) (hne : a ≠ b) : 2 ≤ l.length := by
  match l with
  | [] => cases ha
  | [x] =>
    simp only [List.mem_singleton] at ha hb
    exact absurd (ha.trans hb.symm) hne
  | x :: y :: zs =>
    simp only [List.length_cons]
    omega

theorem filterNotP_congr_not_mem (node : String) (P : List String)
    (l : List String) (h : node ∉ l) :
    l.filter (fun d => decide (d ∉ P ++ [node]))
      = l.filter (fun d => decide (d ∉ P)) := by
  apply List.filter_congr
  intro x hx
  have hxn : x ≠ node := fun he => h (he ▸ hx)
  simp [List.mem_append, hxn]

theorem filterNotP_count_mem (node : String) (P : List String)
    (hnp : node ∉ P) :
    ∀ (l : List String), l.Nodup → node ∈ l →
      (l.filter (fun d => decide (d ∉ P))).length
        = (l.filter (fun d => decide (d ∉ P ++ [node]))).length + 1 := by
  intro l
  induction l with
  | nil => intro _ h; cases h
  | cons d rest ih =>
    intro hnd hmem
    have hdr : d ∉ rest := (List.nodup_cons.mp hnd).1
    rcases List.mem_cons.mp hmem with he | hm
    · subst he
      have h1 : decide (node ∉ P) = true := by simp [hnp]
      have h2 : decide (node ∉ P ++ [node]) = false := by simp
      simp only [List.filter_cons, h1, h2, if_true, if_false,
        List.length_cons]
      rw [filterNotP_congr_not_mem node P rest hdr]
      simp
    · have hdn : d ≠ node := fun he => hdr (he ▸ hm)
      have hco : decide (d ∉ P ++ [node]) = decide (d ∉ P) := by
        simp [List.mem_append, hdn]
      have ihr := ih (List.nodup_cons.mp hnd).2 hm
      by_cases hdP : d ∉ P
      · have h1 : decide (d ∉ P) = true := by simp [hdP]
        simp only [List.filter_cons, h1, hco, if_true, List.length_cons]
        omega
      · have h1 : decide (d ∉ P) = false := by simp at hdP; simp [hdP]
        simp only [List.filter_cons, h1, hco, if_false]
        exact ihr

theorem filter_length_eq_one (l : List String) (p : String → Bool)
    (a : String) (ha : a ∈ l) (hpa : p a = true)
    (hall : ∀ x ∈ l, p x = true → x = a) (hnd : l.Nodup) :
    (l.filter p).length = 1 := by
  have hmem : a ∈ l.filter p := List.mem_filter.mpr ⟨ha, hpa⟩
  have hnd' : (l.filter p).Nodup := hnd.filter p
  rcases hq : l.filter p with _ | ⟨x, _ | ⟨y, zs⟩⟩
  · rw [hq] at hmem
    cases hmem
  · rfl
  · exfalso
    have hx : x ∈ l.filter p := by
      rw [hq]
      exact List.mem_cons_self _ _
    have hy : y ∈ l.filter p := by
      rw [hq]
      exact List.mem_cons_of_mem _ (List.mem_cons_self _ _)
    have hx' := List.mem_filter.mp hx
    have hy' := List.mem_filter.mp hy
    have hxa := hall x hx'.1 hx'.2
    have hya := hall y hy'.1 hy'.2
    rw [hq] at hnd'
    have hxy : x ≠ y := by
      intro he
      rw [he] at hnd'
      exact (List.nodup_cons.mp hnd').1 (List.mem_cons_self _ _)
    exact hxy (hxa.trans hya.symm)

theorem exists_mem_of_filter_length_pos (l : List String)
    (p : String → Bool) (h : 0 < (l.filter p).length) :
    ∃ x ∈ l, p x = true := by
  rcases hq : l.filter p with _ | ⟨x, xs⟩
  · rw [hq] at h
    exact absurd h (lt_irrefl 0)
  · have hx : x ∈ l.filter p := by
      rw [hq]
      exact List.mem_cons_self _ _
    have := List.mem_filter.mp hx
    exact ⟨x, this.1, this.2⟩

theorem filter_id_singleton (tasks : List Task)
    (hnodup : (tasks.map Task.id).Nodup) :
    ∀ t ∈ tasks, tasks.filter (fun u => u.id == t.id) = [t] := by
  induction tasks with
  | nil => intro t ht; cases ht
  | cons u rest ih =>
    intro t ht
    have hnd := hnodup
    rw [List.map_cons, List.nodup_cons] at hnd
    rcases List.mem_cons.mp ht with he | hm
    · subst he
      rw [List.filter_cons, if_pos (by simp)]
      have hrest : rest.filter (fun u => u.id == t.id) = [] := by
        rw [List.filter_eq_nil_iff]
        intro a hma hba
        apply hnd.1
        have : a.id = t.id := by simpa using hba
        rw [← this]
        exact List.mem_map_of_mem Task.id hma
      rw [hrest]
    · have hne : u.id ≠ t.id := by
        intro he2
        apply hnd.1
        rw [he2]
        exact List.mem_map_of_mem Task.id hm
      rw [List.filter_cons, if_neg (by simp [hne])]
      exact ih hnd.2 t hm

theorem task_id_inj :
    ∀ (tasks : List Task), (tasks.map Task.id).Nodup →
      ∀ t ∈ tasks, ∀ u ∈ tasks, t.id = u.id → t = u := by
  intro tasks
  induction tasks with
  | nil => intro _ t ht; cases ht
  | cons a rest ih =>
    intro hnd t ht u hu he
    rw [List.map_cons, List.nodup_cons] at hnd
    rcases List.mem_cons.mp ht with h1 | h1 <;>
      rcases List.mem_cons.mp hu with h2 | h2
    · rw [h1, h2]
    · subst h1
      exfalso
      apply hnd.1
      rw [he]
      exact List.mem_map_of_mem Task.id h2
    · subst h2
      exfalso
      apply hnd.1
      rw [← he]
      exact List.mem_map_of_mem Task.id h1
    · exact ih hnd.2 t h1 u h2 he

theorem mem_graphSucc_iff (tasks : List Task)
    (hnodup : (tasks.map Task.id).Nodup) (node : String) :
    ∀ t ∈ tasks, (t.id ∈ graphSucc tasks node ↔ node ∈ afterDeps t) := by
  intro t ht
  constructor
  · intro h
    unfold graphSucc at h
    rw [List.mem_map] at h
    obtain ⟨t', ht', he⟩ := h
    rw [List.mem_filter] at ht'
    have heq : t' = t := task_id_inj tasks hnodup t' ht'.1 t ht he
    have hc : node ∈ afterDeps t' := by
      have h2 := ht'.2
      simpa using h2
    rw [heq] at hc
    exact hc
  · intro h
    unfold graphSucc
    rw [List.mem_map]
    exact ⟨t, List.mem_filter.mpr ⟨ht, by simpa using h⟩, rfl⟩

theorem graphSucc_subset (tasks : List Task) (node : String) :
    ∀ x ∈ graphSucc tasks node, x ∈ tasks.map Task.id := by
  intro x hx
  unfold graphSucc at hx
  rw [List.mem_map] at hx
  obtain ⟨t, ht, he⟩ := hx
  rw [List.mem_filter] at ht
  rw [← he]
  exact List.mem_map_of_mem Task.id ht.1

theorem graphSucc_nodup (tasks : List Task)
    (hnodup : (tasks.map Task.id).Nodup) (node : String) :
    (graphSucc tasks node).Nodup := by
  unfold graphSucc
  have hsub : ((tasks.filter
        (fun t => (afterDeps t).contains node)).map (fun t => t.id)).Sublist
      (tasks.map (fun t => t.id)) :=
    (List.filter_sublist tasks).map (fun t => t.id)
  exact List.Nodup.sublist hsub hnodup

theorem processNeighbors_spec (rankNode : Int) :
    ∀ (ns : List String) (indeg : String → Int)
      (ranks : List (String × Int)) (app : List String), ns.Nodup →
      ∃ indeg1 newApp,
        processNeighbors rankNode ns indeg ranks app
          = (indeg1, ranks ++ newApp.map (fun nb => (nb, rankNode + 1)),
              app ++ newApp) ∧
        (∀ x, indeg1 x = if x ∈ ns then indeg x - 1 else indeg x) ∧
        newApp = ns.filter (fun nb => decide (indeg nb - 1 = 0)) := by
  intro ns
  induction ns with
  | nil =>
    intro indeg ranks app _
    refine ⟨indeg, [], by simp [processNeighbors], ?_, by simp⟩
    intro x
    simp
  | cons nb rest ih =>
    intro indeg ranks app hnd
    have hnb : nb ∉ rest := (List.nodup_cons.mp hnd).1
    have hndr := (List.nodup_cons.mp hnd).2
    by_cases h0 : indeg nb - 1 = 0
    · obtain ⟨indeg1, newApp, heq, hpt, hfil⟩ :=
        ih (fun x => if x = nb then indeg x - 1 else indeg x)
          (ranks ++ [(nb, rankNode + 1)]) (app ++ [nb]) hndr
      refine ⟨indeg1, nb :: newApp, ?_, ?_, ?_⟩
      · have hstep : processNeighbors rankNode (nb :: rest) indeg ranks app
            = processNeighbors rankNode rest
                (fun x => if x = nb then indeg x - 1 else indeg x)
                (ranks ++ [(nb, rankNode + 1)]) (app ++ [nb]) := by
          simp only [processNeighbors]
          rw [if_pos (by simp [h0])]
        rw [hstep, heq]
        simp [List.append_assoc]
      · intro x
        rw [hpt x]
        by_cases hx : x = nb
        · subst hx
          rw [if_neg (fun hc => hnb hc)]
          simp [List.mem_cons]
        · by_cases hr : x ∈ rest
          · rw [if_pos hr, if_pos (List.mem_cons_of_mem _ hr)]
            simp [hx]
          · have hcm : x ∉ nb :: rest := by
              simp [List.mem_cons, hx, hr]
            rw [if_neg hr, if_neg hcm]
            simp [hx]
      · rw [hfil, List.filter_cons, if_pos (by simp [h0])]
        congr 1
        apply List.filter_congr
        intro x hx
        have hxnb : x ≠ nb := fun he => hnb (he ▸ hx)
        simp [hxnb]
    · obtain ⟨indeg1, newApp, heq, hpt, hfil⟩ :=
        ih (fun x => if x = nb then indeg x - 1 else indeg x)
          ranks app hndr
      refine ⟨indeg1, newApp, ?_, ?_, ?_⟩
      · have hstep : processNeighbors rankNode (nb :: rest) indeg ranks app
            = processNeighbors rankNode rest
                (fun x => if x = nb then indeg x - 1 else indeg x)
                ranks app := by
          simp only [processNeighbors]
          rw [if_neg (by simp [h0])]
        rw [hstep, heq]
      · intro x
        rw [hpt x]
        by_cases hx : x = nb
        · subst hx
          rw [if_neg (fun hc => hnb hc)]
          simp [List.mem_cons]
        · by_cases hr : x ∈ rest
          · rw [if_pos hr, if_pos (List.mem_cons_of_mem _ hr)]
            simp [hx]
          · have hcm : x ∉ nb :: rest := by
              simp [List.mem_cons, hx, hr]
            rw [if_neg hr, if_neg hcm]
            simp [hx]
      · rw [hfil, List.filter_cons, if_neg (by simp [h0])]
        apply List.filter_congr
        intro x hx
        have hxnb : x ≠ nb := fun he => hnb (he ▸ hx)
        simp [hxnb]

theorem getLastQ_mem_gen {α : Type} :
    ∀ {l : List α} {a : α}, l.getLast? = some a → a ∈ l := by
  intro l
  induction l with
  | nil => intro a h; cases h
  | cons x xs ih =>
    intro a h
    cases xs with
    | nil =>
      simp only [List.getLast?_singleton, Option.some.injEq] at h
      simp [h]
    | cons y ys =>
      rw [List.getLast?_cons_cons] at h
      exact List.mem_cons_of_mem _ (ih h)

theorem kahnLoop_spec (tasks : List Task)
    (hnodup : (tasks.map Task.id).Nodup)
    (hdnodup : ∀ t ∈ tasks, (afterDeps t).Nodup) :
    ∀ (fuel : Nat) (queue P : List String) (indeg : String → Int)
      (ranks : List (String × Int)),
      (ranks.map Prod.fst).Nodup →
      (∀ n, n ∈ ranks.map Prod.fst ↔ (n ∈ P ∨ n ∈ queue)) →
      (∀ n ∈ P, n ∉ queue) →
      queue.Nodup →
      P.Nodup →
      (∀ n ∈ ranks.map Prod.fst, n ∈ tasks.map Task.id) →
      (∀ t ∈ tasks, indeg t.id
          = (((afterDeps t).filter (fun d => decide (d ∉ P))).length : Int)) →
      (∀ t ∈ tasks, (t.id ∈ ranks.map Prod.fst ↔
          ∀ d ∈ afterDeps t, d ∈ P)) →
      (∀ h rest, queue = h :: rest → ∀ rh, ranks.lookup h = some rh →
          ∀ p ∈ ranks, p.2 ≤ rh + 1 ∧ (p.1 ∈ P → p.2 ≤ rh)) →
      List.Chain' (fun a b => a ≤ b)
          (queue.map (fun n => (ranks.lookup n).getD 0)) →
      (∀ t ∈ tasks, rankOk ranks t) →
      (∀ p ∈ ranks, 0 ≤ p.2) →
      tasks.length + 1 ≤ fuel + P.length →
      ∃ out, kahnLoop tasks fuel queue indeg ranks = .ok out ∧
        (out.map Prod.fst).Nodup ∧
        (∀ n ∈ out.map Prod.fst, n ∈ tasks.map Task.id) ∧
        (∀ t ∈ tasks, (t.id ∈ out.map Prod.fst ↔
            ∀ d ∈ afterDeps t, d ∈ out.map Prod.fst)) ∧
        (∀ t ∈ tasks, rankOk out t) ∧
        (∀ p ∈ out, 0 ≤ p.2) := by
  intro fuel
  induction fuel with
  | zero =>
    intro queue P indeg ranks k1a k1c k1d k1e k1f k2 k3 k4 k5 k6 k7 k8 hfuel
    exfalso
    have hPsub : ∀ x ∈ P, x ∈ tasks.map Task.id :=
      fun x hx => k2 x ((k1c x).mpr (Or.inl hx))
    have hlen := nodup_length_le P (tasks.map Task.id) k1f hPsub
    rw [List.length_map] at hlen
    omega
  | succ fuel ih =>
    intro queue P indeg ranks k1a k1c k1d k1e k1f k2 k3 k4 k5 k6 k7 k8 hfuel
    cases queue with
    | nil =>
      refine ⟨ranks, rfl, k1a, k2, ?_, k7, k8⟩
      intro t ht
      rw [k4 t ht]
      constructor
      · intro h d hd
        exact (k1c d).mpr (Or.inl (h d hd))
      · intro h d hd
        rcases (k1c d).mp (h d hd) with h1 | h1
        · exact h1
        · cases h1
    | cons node rest =>
      have hnodeK : node ∈ ranks.map Prod.fst :=
        (k1c node).mpr (Or.inr (List.mem_cons_self _ _))
      obtain ⟨r_node, hlook⟩ := lookupStr_isSome_of_mem ranks node hnodeK
      have hnodeP : node ∉ P := fun hp => k1d node hp (List.mem_cons_self _ _)
      have hnodeRest : node ∉ rest := (List.nodup_cons.mp k1e).1
      have hrestNd : rest.Nodup := (List.nodup_cons.mp k1e).2
      have hgetD : (ranks.lookup node).getD 0 = r_node := by
        rw [hlook]
        rfl
      have hk5n := k5 node rest rfl r_node hlook
      have hrnodeNonneg : 0 ≤ r_node :=
        k8 (node, r_node) (mem_of_lookupStr_some _ _ _ hlook)
      have hperm : (pySortStrings (graphSucc tasks node)).Perm
          (graphSucc tasks node) := List.perm_insertionSort _ _
      have hnsNd : (pySortStrings (graphSucc tasks node)).Nodup :=
        (List.Perm.nodup_iff hperm).mpr (graphSucc_nodup tasks hnodup node)
      have hnsTask : ∀ t ∈ tasks,
          (t.id ∈ pySortStrings (graphSucc tasks node) ↔
            node ∈ afterDeps t) :=
        fun t ht => (List.Perm.mem_iff hperm).trans
          (mem_graphSucc_iff tasks hnodup node t ht)
      have hnsIds : ∀ x ∈ pySortStrings (graphSucc tasks node),
          x ∈ tasks.map Task.id :=
        fun x hx => graphSucc_subset tasks node x
          ((List.Perm.mem_iff hperm).mp hx)
      obtain ⟨indeg1, newApp, hPNeq, hpt, hfil⟩ :=
        processNeighbors_spec ((ranks.lookup node).getD 0)
          (pySortStrings (graphSucc tasks node)) indeg ranks [] hnsNd
      have hAppMem : ∀ nb ∈ newApp,
          nb ∈ pySortStrings (graphSucc tasks node) ∧ indeg nb - 1 = 0 := by
        intro nb h
        rw [hfil, List.mem_filter] at h
        exact ⟨h.1, of_decide_eq_true h.2⟩
      have hAppNd : newApp.Nodup := by
        rw [hfil]
        exact hnsNd.filter _
      have hAppFresh : ∀ nb ∈ newApp, nb ∉ ranks.map Prod.fst := by
        intro nb h hmemk
        obtain ⟨hns2, hz⟩ := hAppMem nb h
        obtain ⟨tb, htb, htbid⟩ := List.mem_map.mp (hnsIds nb hns2)
        have hall := (k4 tb htb).mp (by rw [htbid]; exact hmemk)
        have hfe : (afterDeps tb).filter (fun d => decide (d ∉ P)) = [] := by
          rw [List.filter_eq_nil_iff]
          intro d hd
          simp [hall d hd]
        have h3 := k3 tb htb
        rw [hfe] at h3
        rw [htbid] at h3
        simp at h3
        omega
      have hkeys1 : (ranks ++ newApp.map
            (fun nb => (nb, (ranks.lookup node).getD 0 + 1))).map Prod.fst
          = ranks.map Prod.fst ++ newApp := by
        rw [List.map_append, List.map_map]
        have h2 : (newApp.map (Prod.fst ∘
            fun nb => (nb, (ranks.lookup node).getD 0 + 1))) = newApp :=
          List.map_id newApp
        rw [h2]
      have hlookOld : ∀ n v, ranks.lookup n = some v →
          (ranks ++ newApp.map
            (fun nb => (nb, (ranks.lookup node).getD 0 + 1))).lookup n
            = some v :=
        fun n v h => lookupStr_append_some _ _ _ _ h
      have hlookNew : ∀ nb ∈ newApp,
          (ranks ++ newApp.map
            (fun nb => (nb, (ranks.lookup node).getD 0 + 1))).lookup nb
            = some ((ranks.lookup node).getD 0 + 1) := by
        intro nb h
        rw [lookupStr_append_of_not_mem _ _ _ (hAppFresh nb h)]
        rw [lookupStr_map_const, if_pos h]
      have hlookPres : ∀ n ∈ ranks.map Prod.fst,
          (ranks ++ newApp.map
            (fun nb => (nb, (ranks.lookup node).getD 0 + 1))).lookup n
            = ranks.lookup n := by
        intro n h
        obtain ⟨v, hv⟩ := lookupStr_isSome_of_mem _ _ h
        rw [hv]
        exact hlookOld n v hv
      have hlookCases : ∀ n v,
          (ranks ++ newApp.map
            (fun nb => (nb, (ranks.lookup node).getD 0 + 1))).lookup n
            = some v →
          (ranks.lookup n = some v ∨
            (n ∈ newApp ∧ v = (ranks.lookup node).getD 0 + 1)) := by
        intro n v h
        by_cases hm : n ∈ ranks.map Prod.fst
        · left
          rw [← hlookPres n hm]
          exact h
        · right
          rw [lookupStr_append_of_not_mem _ _ _ hm,
            lookupStr_map_const] at h
          by_cases hi : n ∈ newApp
          · rw [if_pos hi, Option.some.injEq] at h
            exact ⟨hi, h.symm⟩
          · rw [if_neg hi] at h
            cases h
      have hentry : ∀ p ∈ ranks ++ newApp.map
            (fun nb => (nb, (ranks.lookup node).getD 0 + 1)),
          p ∈ ranks ∨
            (p.1 ∈ newApp ∧ p.2 = (ranks.lookup node).getD 0 + 1) := by
        intro p hp
        rw [List.mem_append] at hp
        rcases hp with hp | hp
        · exact Or.inl hp
        · obtain ⟨nb, hnb, he⟩ := List.mem_map.mp hp
          right
          rw [← he]
          exact ⟨hnb, rfl⟩
      have hvnode : ∀ p ∈ ranks, p.1 = node → p.2 = r_node := by
        intro p hp he
        have hl := lookupStr_eq_of_mem_nodup ranks p.1 p.2 k1a
          (by rw [Prod.mk.eta]; exact hp)
        rw [he, hlook] at hl
        exact ((Option.some.injEq _ _).mp hl).symm
      have K1a : ((ranks ++ newApp.map
            (fun nb => (nb, (ranks.lookup node).getD 0 + 1))).map
            Prod.fst).Nodup := by
        rw [hkeys1, List.nodup_append]
        exact ⟨k1a, hAppNd, fun a ha hb => hAppFresh a hb ha⟩
      have K1c : ∀ n, n ∈ (ranks ++ newApp.map
            (fun nb => (nb, (ranks.lookup node).getD 0 + 1))).map Prod.fst ↔
          (n ∈ P ++ [node] ∨ n ∈ rest ++ newApp) := by
        intro n
        rw [hkeys1]
        have h0 := k1c n
        simp only [List.mem_append, List.mem_cons, List.mem_singleton,
          List.not_mem_nil, or_false] at h0 ⊢
        rw [h0]
        tauto
      have K1d : ∀ n ∈ P ++ [node], n ∉ rest ++ newApp := by
        intro n hn hcon
        rw [List.mem_append] at hn hcon
        rcases hn with hP | hnd1
        · rcases hcon with hr | hA
          · exact k1d n hP (List.mem_cons_of_mem _ hr)
          · exact hAppFresh n hA ((k1c n).mpr (Or.inl hP))
        · rw [List.mem_singleton] at hnd1
          subst hnd1
          rcases hcon with hr | hA
          · exact hnodeRest hr
          · exact hAppFresh n hA hnodeK
      have K1e : (rest ++ newApp).Nodup := by
        rw [List.nodup_append]
        exact ⟨hrestNd, hAppNd, fun a ha hb => hAppFresh a hb
          ((k1c a).mpr (Or.inr (List.mem_cons_of_mem _ ha)))⟩
      have K1f : (P ++ [node]).Nodup := by
        rw [List.nodup_append]
        refine ⟨k1f, List.nodup_singleton _, ?_⟩
        intro a ha hb
        rw [List.mem_singleton] at hb
        subst hb
        exact hnodeP ha
      have K2 : ∀ n ∈ (ranks ++ newApp.map
            (fun nb => (nb, (ranks.lookup node).getD 0 + 1))).map Prod.fst,
          n ∈ tasks.map Task.id := by
        intro n hn
        rw [hkeys1, List.mem_append] at hn
        rcases hn with h | h
        · exact k2 n h
        · exact hnsIds n (hAppMem n h).1
      have K3 : ∀ t ∈ tasks, indeg1 t.id
          = (((afterDeps t).filter
              (fun d => decide (d ∉ P ++ [node]))).length : Int) := by
        intro t ht
        rw [hpt t.id]
        by_cases hmemns : t.id ∈ pySortStrings (graphSucc tasks node)
        · rw [if_pos hmemns]
          have hnodedep : node ∈ afterDeps t := (hnsTask t ht).mp hmemns
          have hcount := filterNotP_count_mem node P hnodeP (afterDeps t)
            (hdnodup t ht) hnodedep
          rw [k3 t ht, hcount]
          push_cast
          ring
        · rw [if_neg hmemns]
          have hnodedep : node ∉ afterDeps t :=
            fun hc => hmemns ((hnsTask t ht).mpr hc)
          rw [k3 t ht,
            filterNotP_congr_not_mem node P (afterDeps t) hnodedep]
      have K4 : ∀ t ∈ tasks, (t.id ∈ (ranks ++ newApp.map
            (fun nb => (nb, (ranks.lookup node).getD 0 + 1))).map Prod.fst ↔
          ∀ d ∈ afterDeps t, d ∈ P ++ [node]) := by
        intro t ht
        rw [hkeys1, List.mem_append]
        constructor
        · intro h d hd
          rw [List.mem_append, List.mem_singleton]
          rcases h with h | h
          · exact Or.inl ((k4 t ht).mp h d hd)
          · obtain ⟨hns2, hz⟩ := hAppMem t.id h
            have h3 := k3 t ht
            have hlen : ((afterDeps t).filter
                (fun d => decide (d ∉ P))).length = 1 := by omega
            by_cases hdP : d ∈ P
            · exact Or.inl hdP
            · right
              have hnodedep : node ∈ afterDeps t := (hnsTask t ht).mp hns2
              have hdmem : d ∈ (afterDeps t).filter
                  (fun d => decide (d ∉ P)) :=
                List.mem_filter.mpr ⟨hd, by simp [hdP]⟩
              have hnmem : node ∈ (afterDeps t).filter
                  (fun d => decide (d ∉ P)) :=
                List.mem_filter.mpr ⟨hnodedep, by simp [hnodeP]⟩
              by_contra hne
              have h2 := two_le_length_of_pair _ d node hdmem hnmem hne
              omega
        · intro h
          by_cases hall : ∀ d ∈ afterDeps t, d ∈ P
          · exact Or.inl ((k4 t ht).mpr hall)
          · right
            push_neg at hall
            obtain ⟨d0, hd0, hd0P⟩ := hall
            have hd0n : d0 = node := by
              have h2 := h d0 hd0
              rw [List.mem_append, List.mem_singleton] at h2
              tauto
            rw [hd0n] at hd0 hd0P
            have hlen : ((afterDeps t).filter
                (fun d => decide (d ∉ P))).length = 1 := by
              apply filter_length_eq_one _ _ node hd0 (by simp [hd0P]) _
                (hdnodup t ht)
              intro x hx hpx
              have hxP : x ∉ P := of_decide_eq_true hpx
              have h2 := h x hx
              rw [List.mem_append, List.mem_singleton] at h2
              tauto
            have h3 := k3 t ht
            have hz : indeg t.id - 1 = 0 := by omega
            have hmemns : t.id ∈ pySortStrings (graphSucc tasks node) :=
              (hnsTask t ht).mpr hd0
            rw [hfil, List.mem_filter]
            exact ⟨hmemns, decide_eq_true hz⟩
      have K5 : ∀ h' rest', rest ++ newApp = h' :: rest' →
          ∀ rh, (ranks ++ newApp.map
            (fun nb => (nb, (ranks.lookup node).getD 0 + 1))).lookup h'
            = some rh →
          ∀ p ∈ ranks ++ newApp.map
            (fun nb => (nb, (ranks.lookup node).getD 0 + 1)),
            p.2 ≤ rh + 1 ∧ (p.1 ∈ P ++ [node] → p.2 ≤ rh) := by
        cases rest with
        | cons c cs =>
          intro h' rest' hq rh hrh p hp
          rw [List.cons_append] at hq
          injection hq with hq1 hq2
          subst hq1
          have hcK : c ∈ ranks.map Prod.fst :=
            (k1c c).mpr (Or.inr (List.mem_cons_of_mem _
              (List.mem_cons_self _ _)))
          obtain ⟨rc, hrc⟩ := lookupStr_isSome_of_mem _ _ hcK
          have hrh' : rh = rc := by
            have h2 := hlookOld c rc hrc
            rw [h2] at hrh
            exact ((Option.some.injEq _ _).mp hrh).symm
          subst hrh'
          have hchain := k6
          rw [List.map_cons, List.map_cons, List.chain'_cons] at hchain
          have hle : (ranks.lookup node).getD 0 ≤ (ranks.lookup c).getD 0 :=
            hchain.1
          rw [hgetD, hrc] at hle
          rw [Option.getD_some] at hle
          rcases hentry p hp with hold | hnew
          · have h5 := hk5n p hold
            constructor
            · omega
            · intro hPm
              rw [List.mem_append, List.mem_singleton] at hPm
              rcases hPm with hPm | hPm
              · exact le_trans (h5.2 hPm) hle
              · have h2 := hvnode p hold hPm
                omega
          · obtain ⟨hnb, hv⟩ := hnew
            constructor
            · omega
            · intro hPm
              rw [List.mem_append, List.mem_singleton] at hPm
              exfalso
              rcases hPm with hPm | hPm
              · exact hAppFresh p.1 hnb ((k1c p.1).mpr (Or.inl hPm))
              · exact hAppFresh p.1 hnb (by rw [hPm]; exact hnodeK)
        | nil =>
          intro h' rest' hq rh hrh p hp
          rw [List.nil_append] at hq
          have hh'A : h' ∈ newApp := by
            rw [hq]
            exact List.mem_cons_self _ _
          have hlk := hlookNew h' hh'A
          have hrheq : rh = (ranks.lookup node).getD 0 + 1 := by
            rw [hlk] at hrh
            exact ((Option.some.injEq _ _).mp hrh).symm
          subst hrheq
          rcases hentry p hp with hold | hnew
          · have h5 := hk5n p hold
            constructor
            · omega
            · intro hPm
              rw [List.mem_append, List.mem_singleton] at hPm
              rcases hPm with hPm | hPm
              · have h2 := h5.2 hPm
                omega
              · have h2 := hvnode p hold hPm
                omega
          · obtain ⟨hnb, hv⟩ := hnew
            constructor
            · omega
            · intro hPm
              rw [List.mem_append, List.mem_singleton] at hPm
              exfalso
              rcases hPm with hPm | hPm
              · exact hAppFresh p.1 hnb ((k1c p.1).mpr (Or.inl hPm))
              · exact hAppFresh p.1 hnb (by rw [hPm]; exact hnodeK)
      have K6 : List.Chain' (fun a b => a ≤ b)
          ((rest ++ newApp).map (fun n => ((ranks ++ newApp.map
            (fun nb => (nb, (ranks.lookup node).getD 0 + 1))).lookup
              n).getD 0)) := by
        rw [List.map_append, List.chain'_append]
        refine ⟨?_, ?_, ?_⟩
        · have hcongr : rest.map (fun n => ((ranks ++ newApp.map
              (fun nb => (nb, (ranks.lookup node).getD 0 + 1))).lookup
                n).getD 0)
              = rest.map (fun n => (ranks.lookup n).getD 0) := by
            apply List.map_congr_left
            intro c hc
            rw [hlookPres c ((k1c c).mpr (Or.inr
              (List.mem_cons_of_mem _ hc)))]
          rw [hcongr]
          have h2 := k6
          rw [List.map_cons] at h2
          exact List.Chain'.tail h2
        · have hcongr : newApp.map (fun n => ((ranks ++ newApp.map
              (fun nb => (nb, (ranks.lookup node).getD 0 + 1))).lookup
                n).getD 0)
              = newApp.map (fun _ => (ranks.lookup node).getD 0 + 1) := by
            apply List.map_congr_left
            intro nb hnb
            rw [hlookNew nb hnb]
            rfl
          rw [hcongr]
          exact chainLe_map_const _ _
        · intro x hx y hy
          rw [Option.mem_def] at hx hy
          have hxmem := getLastQ_mem_gen hx
          obtain ⟨c, hc, hcx⟩ := List.mem_map.mp hxmem
          have hymem : y ∈ newApp.map (fun n => ((ranks ++ newApp.map
              (fun nb => (nb, (ranks.lookup node).getD 0 + 1))).lookup
                n).getD 0) := by
            cases hA : newApp.map (fun n => ((ranks ++ newApp.map
                (fun nb => (nb, (ranks.lookup node).getD 0 + 1))).lookup
                  n).getD 0) with
            | nil =>
              rw [hA] at hy
              cases hy
            | cons a as =>
              rw [hA] at hy
              rw [List.head?_cons, Option.some.injEq] at hy
              rw [← hy]
              exact List.mem_cons_self _ _
          obtain ⟨nb0, hnb0, hnb0y⟩ := List.mem_map.mp hymem
          have hy' : y = (ranks.lookup node).getD 0 + 1 := by
            rw [← hnb0y, hlookNew nb0 hnb0]
            rfl
          have hcK : c ∈ ranks.map Prod.fst :=
            (k1c c).mpr (Or.inr (List.mem_cons_of_mem _ hc))
          obtain ⟨rc, hrc⟩ := lookupStr_isSome_of_mem _ _ hcK
          have hx' : x = rc := by
            rw [← hcx, hlookPres c hcK, hrc]
            rfl
          have h5 := hk5n (c, rc) (mem_of_lookupStr_some _ _ _ hrc)
          have h51 : rc ≤ r_node + 1 := h5.1
          show x ≤ y
          rw [hx', hy', hgetD]
          exact h51
      have K7 : ∀ t ∈ tasks, rankOk (ranks ++ newApp.map
          (fun nb => (nb, (ranks.lookup node).getD 0 + 1))) t := by
        intro t ht r hr
        rcases hlookCases t.id r hr with hold | hnew2
        · have h7 := k7 t ht r hold
          refine ⟨h7.1, ?_, ?_⟩
          · intro d hd
            obtain ⟨rd, hrd, hlt⟩ := h7.2.1 d hd
            exact ⟨rd, hlookOld d rd hrd, hlt⟩
          · intro hne
            obtain ⟨d, hd, hrd⟩ := h7.2.2 hne
            exact ⟨d, hd, hlookOld d _ hrd⟩
        · obtain ⟨hA, hveq⟩ := hnew2
          have hns2 := (hAppMem t.id hA).1
          have hnodedep : node ∈ afterDeps t := (hnsTask t ht).mp hns2
          have hdepne : afterDeps t ≠ [] := by
            intro he
            rw [he] at hnodedep
            cases hnodedep
          have hreq : r = r_node + 1 := by
            rw [hveq, hgetD]
          refine ⟨fun he => absurd he hdepne, ?_, ?_⟩
          · have hmem1 : t.id ∈ (ranks ++ newApp.map
                (fun nb => (nb, (ranks.lookup node).getD 0 + 1))).map
                  Prod.fst := by
              rw [hkeys1, List.mem_append]
              exact Or.inr hA
            have hallP' := (K4 t ht).mp hmem1
            intro d hd
            have hdP' := hallP' d hd
            rw [List.mem_append, List.mem_singleton] at hdP'
            rcases hdP' with hdP | hdn
            · have hdK : d ∈ ranks.map Prod.fst := (k1c d).mpr (Or.inl hdP)
              obtain ⟨rd, hrd⟩ := lookupStr_isSome_of_mem _ _ hdK
              refine ⟨rd, hlookOld d rd hrd, ?_⟩
              have h5 := hk5n (d, rd) (mem_of_lookupStr_some _ _ _ hrd)
              have h52 : rd ≤ r_node := h5.2 hdP
              omega
            · subst hdn
              exact ⟨r_node, hlookOld d r_node hlook, by omega⟩
          · intro _
            refine ⟨node, hnodedep, ?_⟩
            rw [hlookOld node r_node hlook, Option.some.injEq]
            omega
      have K8 : ∀ p ∈ ranks ++ newApp.map
          (fun nb => (nb, (ranks.lookup node).getD 0 + 1)), 0 ≤ p.2 := by
        intro p hp
        rcases hentry p hp with hold | hnew
        · exact k8 p hold
        · rw [hnew.2, hgetD]
          omega
      have Hfuel : tasks.length + 1 ≤ fuel + (P ++ [node]).length := by
        rw [List.length_append, List.length_singleton]
        omega
      obtain ⟨out, hout, ho1, ho2, ho3, ho4, ho5⟩ :=
        ih (rest ++ newApp) (P ++ [node]) indeg1
          (ranks ++ newApp.map
            (fun nb => (nb, (ranks.lookup node).getD 0 + 1)))
          K1a K1c K1d K1e K1f K2 K3 K4 K5 K6 K7 K8 Hfuel
      refine ⟨out, ?_, ho1, ho2, ho3, ho4, ho5⟩
      have hunfold : kahnLoop tasks (fuel + 1) (node :: rest) indeg ranks
          = kahnLoop tasks fuel (rest ++ ([] ++ newApp)) indeg1
              (ranks ++ newApp.map
                (fun nb => (nb, (ranks.lookup node).getD 0 + 1))) := by
        show (match processNeighbors ((ranks.lookup node).getD 0)
            (pySortStrings (graphSucc tasks node)) indeg ranks [] with
          | (indeg', ranks', appended) =>
            kahnLoop tasks fuel (rest ++ appended) indeg' ranks') = _
        rw [hPNeq]
      rw [hunfold, List.nil_append]
      exact hout

/-- C6 (amended): for tasks with distinct ids, AFTER dependencies that
all name existing tasks, and duplicate-free dependency lists: if the
AFTER graph is acyclic (it admits a ranking f with f d < f t.id for
every AFTER edge), topo_rank succeeds and assigns every task a rank
with the longest-path property (rank 0 for tasks with no AFTER
dependencies, every AFTER target strictly lower, some target exactly
one lower); if no such ranking exists (the graph is cyclic), topo_rank
raises ValueError "Cycle detected in task dependencies". -/
theorem C6_topo_rank (tasks : List Task)
    (hnodup : (tasks.map Task.id).Nodup)
    (hclosed : ∀ t ∈ tasks, ∀ d ∈ afterDeps t, d ∈ tasks.map Task.id)
    (hdnodup : ∀ t ∈ tasks, (afterDeps t).Nodup) :
    ((∃ f : String → Nat, ∀ t ∈ tasks, ∀ d ∈ afterDeps t,
        f d < f t.id) →
      ∃ ranks, topo_rank tasks = .ok ranks ∧
        ∀ t ∈ tasks, (∃ r, ranks.lookup t.id = some r) ∧
          rankOk ranks t) ∧
    ((¬ ∃ f : String → Nat, ∀ t ∈ tasks, ∀ d ∈ afterDeps t,
        f d < f t.id) →
      topo_rank tasks
        = .error (.valueError "Cycle detected in task dependencies")) := by
  have hdedup : (tasks.map (fun t => t.id)).dedup
      = tasks.map (fun t => t.id) := List.dedup_eq_self.mpr hnodup
  have htr : topo_rank tasks
      = (kahnLoop tasks (kahnFuel tasks)
          (pySortStrings (((tasks.map (fun t => t.id)).dedup).filter
            (fun id => initInDegree tasks id == 0)))
          (initInDegree tasks)
          ((pySortStrings (((tasks.map (fun t => t.id)).dedup).filter
            (fun id => initInDegree tasks id == 0))).map
            (fun id => (id, (0:Int))))) >>= (fun ranks =>
          if ranks.length ≠ ((tasks.map (fun t => t.id)).dedup).length then
            throw (.valueError "Cycle detected in task dependencies")
          else pure ranks) := rfl
  rw [hdedup] at htr
  have hrootsPerm : (pySortStrings ((tasks.map (fun t => t.id)).filter
      (fun id => initInDegree tasks id == 0))).Perm
      ((tasks.map (fun t => t.id)).filter
        (fun id => initInDegree tasks id == 0)) :=
    List.perm_insertionSort _ _
  have hrootsNd : (pySortStrings ((tasks.map (fun t => t.id)).filter
      (fun id => initInDegree tasks id == 0))).Nodup :=
    (List.Perm.nodup_iff hrootsPerm).mpr (List.Nodup.filter _ hnodup)
  have hrootsIff : ∀ x, x ∈ pySortStrings ((tasks.map (fun t => t.id)).filter
      (fun id => initInDegree tasks id == 0)) ↔
      (x ∈ tasks.map (fun t => t.id) ∧ initInDegree tasks x = 0) := by
    intro x
    rw [List.Perm.mem_iff hrootsPerm, List.mem_filter]
    constructor
    · intro h
      exact ⟨h.1, by simpa using h.2⟩
    · intro h
      exact ⟨h.1, by simp [h.2]⟩
  have hindeg0 : ∀ t ∈ tasks,
      initInDegree tasks t.id = ((afterDeps t).length : Int) := by
    intro t ht
    unfold initInDegree
    rw [filter_id_singleton tasks hnodup t ht]
    simp
  have hkeys0 : ((pySortStrings ((tasks.map (fun t => t.id)).filter
      (fun id => initInDegree tasks id == 0))).map
        (fun id => (id, (0:Int)))).map Prod.fst
      = pySortStrings ((tasks.map (fun t => t.id)).filter
        (fun id => initInDegree tasks id == 0)) := by
    rw [List.map_map]
    exact List.map_id _
  have hdepsNil : ∀ t ∈ tasks, t.id ∈ pySortStrings
      ((tasks.map (fun t => t.id)).filter
        (fun id => initInDegree tasks id == 0)) → afterDeps t = [] := by
    intro t ht h
    have h0 := ((hrootsIff t.id).mp h).2
    rw [hindeg0 t ht] at h0
    cases hq : afterDeps t with
    | nil => rfl
    | cons a as =>
      exfalso
      rw [hq] at h0
      rw [List.length_cons] at h0
      omega
  have hNilRoot : ∀ t ∈ tasks, afterDeps t = [] → t.id ∈ pySortStrings
      ((tasks.map (fun t => t.id)).filter
        (fun id => initInDegree tasks id == 0)) := by
    intro t ht hde
    rw [hrootsIff]
    refine ⟨List.mem_map_of_mem (fun t => t.id) ht, ?_⟩
    rw [hindeg0 t ht, hde]
    simp
  obtain ⟨out, hloopeq, F1, F2, F3, F4, F5⟩ :=
    kahnLoop_spec tasks hnodup hdnodup (kahnFuel tasks)
      (pySortStrings ((tasks.map (fun t => t.id)).filter
        (fun id => initInDegree tasks id == 0)))
      [] (initInDegree tasks)
      ((pySortStrings ((tasks.map (fun t => t.id)).filter
        (fun id => initInDegree tasks id == 0))).map
        (fun id => (id, (0:Int))))
      (by rw [hkeys0]; exact hrootsNd)
      (by
        intro n
        rw [hkeys0]
        simp)
      (by intro n hn; cases hn)
      hrootsNd
      List.nodup_nil
      (by
        intro n hn
        rw [hkeys0] at hn
        exact ((hrootsIff n).mp hn).1)
      (by
        intro t ht
        rw [hindeg0 t ht]
        have hfe : (afterDeps t).filter
            (fun d => decide (d ∉ ([] : List String))) = afterDeps t :=
          List.filter_eq_self.mpr (fun a _ => by simp)
        rw [hfe])
      (by
        intro t ht
        rw [hkeys0]
        constructor
        · intro h d hd
          rw [hdepsNil t ht h] at hd
          cases hd
        · intro h
          apply hNilRoot t ht
          cases hq : afterDeps t with
          | nil => rfl
          | cons a as =>
            exfalso
            have h2 := h a (by rw [hq]; exact List.mem_cons_self _ _)
            cases h2)
      (by
        intro h rest hq rh hrh p hp
        obtain ⟨nb, hnb, he⟩ := List.mem_map.mp hp
        have hrh0 : rh = 0 := by
          rw [lookupStr_map_const] at hrh
          have hhm : h ∈ pySortStrings ((tasks.map (fun t => t.id)).filter
              (fun id => initInDegree tasks id == 0)) := by
            rw [hq]
            exact List.mem_cons_self _ _
          rw [if_pos hhm, Option.some.injEq] at hrh
          omega
        subst he
        refine ⟨?_, ?_⟩
        · show (0:Int) ≤ rh + 1
          omega
        · intro hPm
          cases hPm)
      (by
        have hcongr : (pySortStrings ((tasks.map (fun t => t.id)).filter
            (fun id => initInDegree tasks id == 0))).map
              (fun n => (((pySortStrings ((tasks.map (fun t => t.id)).filter
                (fun id => initInDegree tasks id == 0))).map
                  (fun id => (id, (0:Int)))).lookup n).getD 0)
            = (pySortStrings ((tasks.map (fun t => t.id)).filter
                (fun id => initInDegree tasks id == 0))).map
                  (fun _ => (0:Int)) := by
          apply List.map_congr_left
          intro c hc
          rw [lookupStr_map_const, if_pos hc]
          rfl
        rw [hcongr]
        exact chainLe_map_const 0 _)
      (by
        intro t ht r hr
        rw [lookupStr_map_const] at hr
        by_cases hm : t.id ∈ pySortStrings ((tasks.map (fun t => t.id)).filter
            (fun id => initInDegree tasks id == 0))
        · rw [if_pos hm, Option.some.injEq] at hr
          have hde := hdepsNil t ht hm
          refine ⟨fun _ => by omega, ?_, ?_⟩
          · intro d hd
            rw [hde] at hd
            cases hd
          · intro hne
            exact absurd hde hne
        · rw [if_neg hm] at hr
          cases hr)
      (by
        intro p hp
        obtain ⟨nb, hnb, he⟩ := List.mem_map.mp hp
        subst he
        exact le_refl 0)
      (by
        unfold kahnFuel
        simp)
  have hkeyslen : (out.map Prod.fst).length = out.length := List.length_map _ _
  constructor
  · intro hacyc
    obtain ⟨f, hf⟩ := hacyc
    have hstep : ∀ n : Nat, ∀ t ∈ tasks, f t.id ≤ n →
        t.id ∈ out.map Prod.fst := by
      intro n
      induction n with
      | zero =>
        intro t ht hfle
        rw [F3 t ht]
        intro d hd
        exfalso
        have := hf t ht d hd
        omega
      | succ n ihn =>
        intro t ht hfle
        rw [F3 t ht]
        intro d hd
        have hdid := hclosed t ht d hd
        obtain ⟨td, htd, htdid⟩ := List.mem_map.mp hdid
        have hlt := hf t ht d hd
        have hle2 : f td.id ≤ n := by
          rw [htdid]
          omega
        have h2 := ihn td htd hle2
        rw [htdid] at h2
        exact h2
    have hallk : ∀ x ∈ tasks.map Task.id, x ∈ out.map Prod.fst := by
      intro x hx
      obtain ⟨t, ht, htid⟩ := List.mem_map.mp hx
      rw [← htid]
      exact hstep (f t.id) t ht (le_refl _)
    have hlen1 := nodup_length_le (out.map Prod.fst) (tasks.map Task.id)
      F1 F2
    have hlen2 := nodup_length_le (tasks.map Task.id) (out.map Prod.fst)
      hnodup hallk
    have hlenq : out.length = (tasks.map (fun t => t.id)).length := by
      simp only [List.length_map] at hlen1 hlen2 ⊢
      omega
    refine ⟨out, ?_, ?_⟩
    · rw [htr, hloopeq, exceptBind_ok, if_neg (not_not_intro hlenq)]
      rfl
    · intro t ht
      refine ⟨?_, F4 t ht⟩
      exact lookupStr_isSome_of_mem out t.id
        (hallk t.id (List.mem_map_of_mem Task.id ht))
  · intro hnac
    by_cases hlen : out.length = (tasks.map (fun t => t.id)).length
    · exfalso
      apply hnac
      refine ⟨fun n => ((out.lookup n).getD 0).toNat, ?_⟩
      intro t ht d hd
      have hsub : ∀ x ∈ tasks.map Task.id, x ∈ out.map Prod.fst := by
        apply mem_of_nodup_length_le (out.map Prod.fst) (tasks.map Task.id)
          F1 hnodup F2
        rw [List.length_map, List.length_map]
        rw [List.length_map] at hlen
        omega
      have htk : t.id ∈ out.map Prod.fst :=
        hsub t.id (List.mem_map_of_mem Task.id ht)
      obtain ⟨r, hr⟩ := lookupStr_isSome_of_mem _ _ htk
      have h4 := F4 t ht r hr
      obtain ⟨rd, hrd, hlt⟩ := h4.2.1 d hd
      have h5a : (0:Int) ≤ rd := F5 (d, rd) (mem_of_lookupStr_some _ _ _ hrd)
      have h5b : (0:Int) ≤ r := F5 (t.id, r) (mem_of_lookupStr_some _ _ _ hr)
      show ((out.lookup d).getD 0).toNat < ((out.lookup t.id).getD 0).toNat
      rw [hr, hrd, Option.getD_some, Option.getD_some]
      omega
    · rw [htr, hloopeq, exceptBind_ok, if_pos hlen]
      rfl

/-- C6 counterexample to the claim as stated: the single task
exTaskAfterX has an AFTER dependency on "X", an id with no task, so
its AFTER graph is acyclic (the ranking f with f "X" = 0 and f _ = 1
witnesses it), yet topo_rank raises the cycle ValueError: the dangling
target keeps the task's in-degree at 1 forever, so not every node
receives a rank and the length check fires. -/
theorem C6_counterexample :
    (∃ f : String → Nat, ∀ t ∈ [exTaskAfterX], ∀ d ∈ afterDeps t,
      f d < f t.id) ∧
    topo_rank [exTaskAfterX]
      = .error (.valueError "Cycle detected in task dependencies") ∧
    ¬ ("X" ∈ [exTaskAfterX].map Task.id) ∧
    "X" ∈ afterDeps exTaskAfterX :=
  ⟨⟨fun s => if s = "X" then 0 else 1, by decide⟩, by decide, by decide,
    by decide⟩

/-- C6 witness: the amended theorem applied to the concrete acyclic
chain a ← b ← c (where c depends on a and b, b depends on a), whose
ids are distinct, whose AFTER targets all exist, and whose dependency
lists are duplicate-free; concretely topo_rank returns ranks a 0,
b 1, c 2. -/
theorem C6_witness :
    ((([exTaskTopoA, exTaskTopoB, exTaskTopoC].map Task.id).Nodup ∧
      (∀ t ∈ [exTaskTopoA, exTaskTopoB, exTaskTopoC], ∀ d ∈ afterDeps t,
        d ∈ [exTaskTopoA, exTaskTopoB, exTaskTopoC].map Task.id) ∧
      (∀ t ∈ [exTaskTopoA, exTaskTopoB, exTaskTopoC],
        (afterDeps t).Nodup)) ∧
     (((∃ f : String → Nat,
          ∀ t ∈ [exTaskTopoA, exTaskTopoB, exTaskTopoC],
            ∀ d ∈ afterDeps t, f d < f t.id) →
        ∃ ranks, topo_rank [exTaskTopoA, exTaskTopoB, exTaskTopoC]
            = .ok ranks ∧
          ∀ t ∈ [exTaskTopoA, exTaskTopoB, exTaskTopoC],
            (∃ r, ranks.lookup t.id = some r) ∧ rankOk ranks t) ∧
      ((¬ ∃ f : String → Nat,
          ∀ t ∈ [exTaskTopoA, exTaskTopoB, exTaskTopoC],
            ∀ d ∈ afterDeps t, f d < f t.id) →
        topo_rank [exTaskTopoA, exTaskTopoB, exTaskTopoC]
          = .error
            (.valueError "Cycle detected in task dependencies")))) ∧
    topo_rank [exTaskTopoA, exTaskTopoB, exTaskTopoC]
      = .ok [("a", 0), ("b", 1), ("c", 2)] :=
  ⟨⟨⟨by decide, by decide, by decide⟩,
    C6_topo_rank [exTaskTopoA, exTaskTopoB, exTaskTopoC]
      (by decide) (by decide) (by decide)⟩, by decide⟩

end MM
